import Mathlib

set_option maxHeartbeats 1000000

/-!
Verification development for the scheduler / update-queue core of the
repository (src/src/react/packages/react-reconciler/src/ReactUpdateQueue.js
and the expiration-time math of src/src/index.js).

The JavaScript is embedded shallowly:

* JS linked lists (`firstUpdate`/`lastUpdate` chains through `next` pointers)
  become Lean `List`s; appending to the tail and taking the suffix that starts
  at a node are the list operations `++` and "the suffix from that element".
* JS objects holding state are Lean structures, mutation becomes explicit
  state passing.
* JS `any`-typed state values are a type parameter `V`; the two host
  operations the queue needs on them (`Object.assign({}, prev, partial)` and
  the `partial === null || partial === undefined` test) are a parameter
  record `JSOps`.
* Callbacks are identified by `Nat` ids; a `null` callback field is `none`.
* The `tag` field is `Nat`, exactly as the source compares it against the
  numeric constants 0..3 in a `switch` with a fall-through default.
-/

namespace ReactCode

/-- Host-language value operations used by `getStateFromUpdate`:
`assign prev part` models `Object.assign({}, prevState, partialState)` and
`isNullish v` models `v === null || v === undefined`. -/
structure JSOps (V : Type) where
  assign : V → V → V
  isNullish : V → Bool

/-- An update's `payload`: either a literal state object or an updater
function of `(prevState, nextProps)` (the `instance` receiver does not affect
the embedded computation and is absorbed into the function). -/
inductive Payload (V : Type) where
  | value : V → Payload V
  | func : (V → V → V) → Payload V

/-- `Update<State>` of ReactUpdateQueue.js. The `next`/`nextEffect` links are
represented positionally by the lists that hold updates. -/
structure Update (V : Type) where
  expirationTime : Int
  tag : Nat
  payload : Payload V
  callback : Option Nat

/-- `UpdateQueue<State>` of ReactUpdateQueue.js: `firstUpdate..lastUpdate`
is `updates`, `firstCapturedUpdate..lastCapturedUpdate` is `capturedUpdates`,
and the two `nextEffect` chains are `effects` and `capturedEffects`. -/
structure UpdateQueue (V : Type) where
  baseState : V
  updates : List (Update V)
  capturedUpdates : List (Update V)
  effects : List (Update V)
  capturedEffects : List (Update V)

def UpdateState : Nat := 0
def ReplaceState : Nat := 1
def ForceUpdate : Nat := 2
def CaptureUpdate : Nat := 3

/-- `NoWork` from ReactFiberExpirationTime. -/
def NoWork : Int := 0

/-- `createUpdateQueue(baseState)`. -/
def createUpdateQueue {V : Type} (baseState : V) : UpdateQueue V :=
  { baseState := baseState
    updates := []
    capturedUpdates := []
    effects := []
    capturedEffects := [] }

/-- Resolve a payload exactly as the source does: a function payload is
invoked with `(prevState, nextProps)`, otherwise the payload object itself is
the result. -/
def resolvePayload {V : Type} (p : Payload V) (prevState nextProps : V) : V :=
  match p with
  | .func f => f prevState nextProps
  | .value v => v

/-- `getStateFromUpdate` (ReactUpdateQueue.js:369-442). The `switch` on
`update.tag`: `ReplaceState` returns the computed payload outright;
`CaptureUpdate` falls through to `UpdateState`, which treats a nullish partial
state as a no-op and otherwise shallow-merges it over `prevState`;
`ForceUpdate` returns `prevState` (its write to the module-global
`hasForceUpdate`, like `CaptureUpdate`'s write to `workInProgress.effectTag`,
touches no queue or state data and is not represented); any other tag falls
out of the `switch` to the trailing `return prevState`. -/
def getStateFromUpdate {V : Type} (ops : JSOps V) (props : V)
    (u : Update V) (prevState : V) : V :=
  if u.tag = ReplaceState then
    resolvePayload u.payload prevState props
  else if u.tag = CaptureUpdate ∨ u.tag = UpdateState then
    let partState := resolvePayload u.payload prevState props
    if ops.isNullish partState then prevState
    else ops.assign prevState partState
  else
    prevState

/-- The mutable locals of a `processUpdateQueue` walk (ReactUpdateQueue.js:
459-463): `resultState`, `newBaseState`, the suffix starting at the first
skipped update (the source's `newFirstUpdate` pointer keeps all later updates
reachable through `next`, hence a list suffix here), `newExpirationTime`, and
the effect list being appended to. -/
structure FoldAcc (V : Type) where
  resultState : V
  newBaseState : V
  skipped : Option (List (Update V))
  newExpirationTime : Int
  effects : List (Update V)

/-- The skip branch of the loop (ReactUpdateQueue.js:469-483): on the first
skipped update remember the suffix and snapshot the base state (in the
captured-list walk the snapshot only happens if the normal walk skipped
nothing, expressed by `suppressSnap`), then keep the maximum remaining
expiration time. -/
def skipAcc {V : Type} (u : Update V) (rest : List (Update V))
    (suppressSnap : Bool) (acc : FoldAcc V) : FoldAcc V :=
  { resultState := acc.resultState
    newBaseState :=
      if acc.skipped.isNone then
        (if suppressSnap then acc.newBaseState else acc.resultState)
      else acc.newBaseState
    skipped := if acc.skipped.isNone then some (u :: rest) else acc.skipped
    newExpirationTime :=
      if acc.newExpirationTime < u.expirationTime then u.expirationTime
      else acc.newExpirationTime
    effects := acc.effects }

/-- The apply branch of the loop (ReactUpdateQueue.js:484-507): fold the
update into `resultState` and, when it carries a callback, append it to the
effect list. -/
def applyAcc {V : Type} (ops : JSOps V) (props : V) (u : Update V)
    (acc : FoldAcc V) : FoldAcc V :=
  { acc with
    resultState := getStateFromUpdate ops props u acc.resultState
    effects := if u.callback.isSome then acc.effects ++ [u] else acc.effects }

/-- One walk of `processUpdateQueue` over an update list (the source has the
same loop twice, once for the normal list and once for the captured list). -/
def processUpdates {V : Type} (ops : JSOps V) (props : V) (rT : Int)
    (suppressSnap : Bool) : List (Update V) → FoldAcc V → FoldAcc V
  | [], acc => acc
  | u :: rest, acc =>
    if u.expirationTime < rT then
      processUpdates ops props rT suppressSnap rest (skipAcc u rest suppressSnap acc)
    else
      processUpdates ops props rT suppressSnap rest (applyAcc ops props u acc)

/-- What `processUpdateQueue` leaves behind: the mutated queue,
`workInProgress.memoizedState` and `workInProgress.expirationTime`. -/
structure Processed (V : Type) where
  queue : UpdateQueue V
  memoizedState : V
  expirationTime : Int

/-- `processUpdateQueue` (ReactUpdateQueue.js:444-592). The normal list is
walked first; the captured list is walked with the same loop, except that its
first skip only snapshots the base state when the normal walk skipped nothing
(line 525). Afterwards: if nothing was skipped in either list the new base
state is the result state (lines 569-573); the surviving lists are the
suffixes that start at the first skipped update of each walk (an empty suffix
also models the `lastUpdate = null` resets of lines 561-564). The
copy-on-write `ensureWorkInProgressQueueIsAClone` is identity in a
value-passing embedding. -/
def processUpdateQueue {V : Type} (ops : JSOps V) (props : V)
    (q : UpdateQueue V) (renderExpirationTime : Int) : Processed V :=
  let r1 := processUpdates ops props renderExpirationTime false q.updates
    { resultState := q.baseState
      newBaseState := q.baseState
      skipped := none
      newExpirationTime := NoWork
      effects := q.effects }
  let r2 := processUpdates ops props renderExpirationTime r1.skipped.isSome
    q.capturedUpdates
    { resultState := r1.resultState
      newBaseState := r1.newBaseState
      skipped := none
      newExpirationTime := r1.newExpirationTime
      effects := q.capturedEffects }
  { queue :=
      { baseState := if r1.skipped.isNone && r2.skipped.isNone
                     then r2.resultState else r2.newBaseState
        updates := r1.skipped.getD []
        capturedUpdates := r2.skipped.getD []
        effects := r1.effects
        capturedEffects := r2.effects }
    memoizedState := r2.resultState
    expirationTime := r2.newExpirationTime }

/-- `commitUpdateEffects` (ReactUpdateQueue.js:640-652), with the effect of a
callback invocation made explicit: `throws c = true` means invoking callback
`c` raises. The walk visits the `nextEffect` chain in order; a node with a
callback first has its `callback` reference set to `null` and is only then
invoked (line 647-648). The result is `(started, chain, err)`: the callbacks
that were started in order, the chain as the walk left it (started nodes
cleared; on a raise the later nodes untouched, as the exception aborts the
loop), and the propagated error, if any. -/
def commitUpdateEffects {V : Type} (throws : Nat → Bool) :
    List (Update V) → List Nat × List (Update V) × Option Nat
  | [] => ([], [], none)
  | e :: rest =>
    match e.callback with
    | none =>
      let r := commitUpdateEffects throws rest
      (r.1, e :: r.2.1, r.2.2)
    | some c =>
      let cleared : Update V := { e with callback := none }
      if throws c then
        ([c], cleared :: rest, some c)
      else
        let r := commitUpdateEffects throws rest
        (c :: r.1, cleared :: r.2.1, r.2.2)

/-- The effect-committing tail of `commitUpdateQueue` (lines 632-637): walk
the normal effect chain; if it raised, stop — the pending clear of
`firstEffect`/`lastEffect` never runs, so the (partially cleared) chain stays
attached and the captured chain is untouched; otherwise clear it, walk the
captured chain, and clear that too unless it raised. Returns the two chains
as the commit leaves them, the started callbacks in order, and the
propagated error. -/
def commitQueueEffects {V : Type} (throws : Nat → Bool)
    (es ces : List (Update V)) :
    (List (Update V) × List (Update V)) × List Nat × Option Nat :=
  let r1 := commitUpdateEffects throws es
  match r1.2.2 with
  | some e => ((r1.2.1, ces), r1.1, some e)
  | none =>
    let r2 := commitUpdateEffects throws ces
    match r2.2.2 with
    | some e => (([], r2.2.1), r1.1 ++ r2.1, some e)
    | none => (([], []), r1.1 ++ r2.1, none)

/-- `commitUpdateQueue` (ReactUpdateQueue.js:612-638). First the captured
suffix: when `firstCapturedUpdate` is non-null, it is appended to the tail of
the normal list only if `lastUpdate` is non-null, and the captured pointers
are cleared unconditionally (lines 622-630). Then the two effect chains are
committed in order by `commitQueueEffects`. The result is
`(queue, started callbacks in order, propagated error)`. -/
def commitUpdateQueue {V : Type} (throws : Nat → Bool)
    (finishedQueue : UpdateQueue V) :
    UpdateQueue V × List Nat × Option Nat :=
  let q1 :=
    if finishedQueue.capturedUpdates.isEmpty then finishedQueue
    else if finishedQueue.updates.isEmpty then
      { finishedQueue with capturedUpdates := [] }
    else
      { finishedQueue with
        updates := finishedQueue.updates ++ finishedQueue.capturedUpdates
        capturedUpdates := [] }
  let r := commitQueueEffects throws q1.effects q1.capturedEffects
  ({ q1 with effects := r.1.1, capturedEffects := r.1.2 }, r.2)

/-! ### The concrete skip-rebase scenario

Base state `""`; updates A(1), B(2), C(1), D(2), each replacing the state
with the previous state extended by its letter (the `ReplaceState` updater
function makes "apply = append a letter" literal). -/

/-- String-valued host operations; only `ReplaceState` updates are used by the
scenario, so `assign`/`isNullish` are immaterial but still total. -/
def stringOps : JSOps String :=
  { assign := fun _ part => part
    isNullish := fun _ => false }

def updA : Update String :=
  { expirationTime := 1, tag := ReplaceState
    payload := .func (fun prev _ => prev ++ "A"), callback := none }

def updB : Update String :=
  { expirationTime := 2, tag := ReplaceState
    payload := .func (fun prev _ => prev ++ "B"), callback := none }

def updC : Update String :=
  { expirationTime := 1, tag := ReplaceState
    payload := .func (fun prev _ => prev ++ "C"), callback := none }

def updD : Update String :=
  { expirationTime := 2, tag := ReplaceState
    payload := .func (fun prev _ => prev ++ "D"), callback := none }

/-- The queue of the scenario: base state `""`, updates A1 B2 C1 D2. -/
def demoQueue : UpdateQueue String :=
  { baseState := ""
    updates := [updA, updB, updC, updD]
    capturedUpdates := []
    effects := []
    capturedEffects := [] }

/-! ### Lemmas about the fold -/

/-- One step of the threshold fold: apply the update when its expiration time
meets the render threshold, otherwise leave the state unchanged. -/
def foldStep {V : Type} (ops : JSOps V) (props : V) (rT : Int) : V → Update V → V :=
  fun s u => if u.expirationTime < rT then s else getStateFromUpdate ops props u s

/-- One step of the unconditional fold (every update applied). -/
def applyAll {V : Type} (ops : JSOps V) (props : V) : V → Update V → V :=
  fun s u => getStateFromUpdate ops props u s

@[simp] theorem processUpdates_nil {V : Type} (ops : JSOps V) (props : V)
    (rT : Int) (b : Bool) (acc : FoldAcc V) :
    processUpdates ops props rT b [] acc = acc := rfl

@[simp] theorem skipAcc_resultState {V : Type} (u : Update V)
    (rest : List (Update V)) (b : Bool) (acc : FoldAcc V) :
    (skipAcc u rest b acc).resultState = acc.resultState := rfl

@[simp] theorem applyAcc_resultState {V : Type} (ops : JSOps V) (props : V)
    (u : Update V) (acc : FoldAcc V) :
    (applyAcc ops props u acc).resultState = getStateFromUpdate ops props u acc.resultState := rfl

@[simp] theorem applyAcc_skipped {V : Type} (ops : JSOps V) (props : V)
    (u : Update V) (acc : FoldAcc V) :
    (applyAcc ops props u acc).skipped = acc.skipped := rfl

@[simp] theorem applyAcc_newBaseState {V : Type} (ops : JSOps V) (props : V)
    (u : Update V) (acc : FoldAcc V) :
    (applyAcc ops props u acc).newBaseState = acc.newBaseState := rfl

theorem skipAcc_of_some {V : Type} (u : Update V) (rest : List (Update V))
    (b : Bool) (acc : FoldAcc V) (s0 : List (Update V)) (h : acc.skipped = some s0) :
    (skipAcc u rest b acc).skipped = some s0 ∧
      (skipAcc u rest b acc).newBaseState = acc.newBaseState ∧
      (skipAcc u rest b acc).resultState = acc.resultState := by
  simp [skipAcc, h]

theorem skipAcc_of_none {V : Type} (u : Update V) (rest : List (Update V))
    (b : Bool) (acc : FoldAcc V) (h : acc.skipped = none) :
    (skipAcc u rest b acc).skipped = some (u :: rest) ∧
      (skipAcc u rest b acc).newBaseState =
        (if b then acc.newBaseState else acc.resultState) := by
  simp [skipAcc, h]

/-- `resultState` after a walk is the threshold fold over the list. -/
theorem processUpdates_resultState {V : Type} (ops : JSOps V) (props : V)
    (rT : Int) (b : Bool) (l : List (Update V)) (acc : FoldAcc V) :
    (processUpdates ops props rT b l acc).resultState =
      l.foldl (foldStep ops props rT) acc.resultState := by
  induction l generalizing acc with
  | nil => rfl
  | cons u rest ih =>
    by_cases h : u.expirationTime < rT
    · rw [processUpdates, if_pos h, ih, List.foldl_cons]
      simp [foldStep, h]
    · rw [processUpdates, if_neg h, ih, List.foldl_cons]
      simp [foldStep, h]

/-- Once an update has been skipped, the remembered suffix and the snapshotted
base state never change for the rest of the walk. -/
theorem processUpdates_of_some {V : Type} (ops : JSOps V) (props : V)
    (rT : Int) (b : Bool) (l : List (Update V)) (acc : FoldAcc V)
    (s0 : List (Update V)) (h : acc.skipped = some s0) :
    (processUpdates ops props rT b l acc).skipped = some s0 ∧
      (processUpdates ops props rT b l acc).newBaseState = acc.newBaseState := by
  induction l generalizing acc with
  | nil => exact ⟨h, rfl⟩
  | cons u rest ih =>
    by_cases hu : u.expirationTime < rT
    · rw [processUpdates, if_pos hu]
      obtain ⟨h1, h2, _⟩ := skipAcc_of_some u rest b acc s0 h
      obtain ⟨g1, g2⟩ := ih _ h1
      exact ⟨g1, g2.trans h2⟩
    · rw [processUpdates, if_neg hu]
      obtain ⟨g1, g2⟩ := ih (applyAcc ops props u acc) (by simpa using h)
      exact ⟨g1, by simpa using g2⟩

/-- The walk's surviving suffix is the list's suffix starting at the first
update below the threshold (the `dropWhile` of the met-threshold prefix). -/
theorem processUpdates_skipped_eq {V : Type} (ops : JSOps V) (props : V)
    (rT : Int) (b : Bool) (l : List (Update V)) (acc : FoldAcc V)
    (h : acc.skipped = none) :
    (processUpdates ops props rT b l acc).skipped =
      (if (l.dropWhile fun u => decide (rT ≤ u.expirationTime)).isEmpty then none
       else some (l.dropWhile fun u => decide (rT ≤ u.expirationTime))) := by
  induction l generalizing acc with
  | nil => simpa using h
  | cons u rest ih =>
    by_cases hu : u.expirationTime < rT
    · rw [processUpdates, if_pos hu]
      have hd : ((u :: rest).dropWhile fun u => decide (rT ≤ u.expirationTime)) = u :: rest := by
        rw [List.dropWhile_cons]
        simp [not_le.mpr hu]
      obtain ⟨h1, _⟩ := processUpdates_of_some ops props rT b rest
        (skipAcc u rest b acc) (u :: rest) (skipAcc_of_none u rest b acc h).1
      rw [h1, hd]
      simp
    · rw [processUpdates, if_neg hu]
      have hd : ((u :: rest).dropWhile fun u => decide (rT ≤ u.expirationTime)) =
          rest.dropWhile fun u => decide (rT ≤ u.expirationTime) := by
        rw [List.dropWhile_cons]
        simp [not_lt.mp hu]
      rw [ih (applyAcc ops props u acc) (by simpa using h), hd]

/-- If some update was skipped (suffix non-empty), the snapshotted base state
of a normal-list walk is the unconditional fold over the met-threshold
prefix. -/
theorem processUpdates_newBaseState_eq {V : Type} (ops : JSOps V) (props : V)
    (rT : Int) (l : List (Update V)) (acc : FoldAcc V)
    (h : acc.skipped = none)
    (hB : (l.dropWhile fun u => decide (rT ≤ u.expirationTime)) ≠ []) :
    (processUpdates ops props rT false l acc).newBaseState =
      (l.takeWhile fun u => decide (rT ≤ u.expirationTime)).foldl
        (applyAll ops props) acc.resultState := by
  induction l generalizing acc with
  | nil => exact absurd rfl hB
  | cons u rest ih =>
    by_cases hu : u.expirationTime < rT
    · rw [processUpdates, if_pos hu]
      have ht : ((u :: rest).takeWhile fun u => decide (rT ≤ u.expirationTime)) = [] := by
        rw [List.takeWhile_cons]
        simp [not_le.mpr hu]
      obtain ⟨_, h2⟩ := processUpdates_of_some ops props rT false rest
        (skipAcc u rest false acc) (u :: rest) (skipAcc_of_none u rest false acc h).1
      rw [h2, (skipAcc_of_none u rest false acc h).2, ht]
      rfl
    · rw [processUpdates, if_neg hu]
      have hp : decide (rT ≤ u.expirationTime) = true := by simp [not_lt.mp hu]
      have ht : ((u :: rest).takeWhile fun u => decide (rT ≤ u.expirationTime)) =
          u :: rest.takeWhile fun u => decide (rT ≤ u.expirationTime) := by
        simp [List.takeWhile_cons, hp]
      have hd : (rest.dropWhile fun u => decide (rT ≤ u.expirationTime)) ≠ [] := by
        intro hc
        apply hB
        rw [List.dropWhile_cons, hp]
        exact hc
      rw [ih (applyAcc ops props u acc) (by simpa using h) hd, ht, List.foldl_cons]
      rfl

/-- On a list every element of which meets the threshold, the threshold fold
is the unconditional fold. -/
theorem foldStep_eq_applyAll {V : Type} (ops : JSOps V) (props : V) (rT : Int)
    (l : List (Update V)) (s : V) (hall : ∀ u ∈ l, rT ≤ u.expirationTime) :
    l.foldl (foldStep ops props rT) s = l.foldl (applyAll ops props) s := by
  induction l generalizing s with
  | nil => rfl
  | cons u rest ih =>
    rw [List.foldl_cons, List.foldl_cons]
    have h1 : foldStep ops props rT s u = applyAll ops props s u := by
      simp [foldStep, applyAll, not_lt.mpr (hall u (by simp))]
    rw [h1]
    exact ih _ (fun v hv => hall v (by simp [hv]))

/-- Full characterization of `processUpdateQueue` on a queue with no captured
updates: the memoized state is the threshold fold over the whole list, the
surviving list is the suffix from the first skipped update, and the new base
state is the final state when nothing was skipped, else the unconditional
fold over the met-threshold prefix. -/
theorem processUpdateQueue_no_captured {V : Type} (ops : JSOps V) (props : V)
    (q : UpdateQueue V) (rT : Int) (hcap : q.capturedUpdates = []) :
    (processUpdateQueue ops props q rT).memoizedState
        = q.updates.foldl (foldStep ops props rT) q.baseState ∧
      (processUpdateQueue ops props q rT).queue.capturedUpdates = [] ∧
      (processUpdateQueue ops props q rT).queue.updates
        = (q.updates.dropWhile fun u => decide (rT ≤ u.expirationTime)) ∧
      (processUpdateQueue ops props q rT).queue.baseState
        = (if (q.updates.dropWhile fun u => decide (rT ≤ u.expirationTime)).isEmpty
           then q.updates.foldl (foldStep ops props rT) q.baseState
           else (q.updates.takeWhile fun u => decide (rT ≤ u.expirationTime)).foldl
             (applyAll ops props) q.baseState) := by
  have hres := processUpdates_resultState ops props rT false q.updates
    { resultState := q.baseState, newBaseState := q.baseState, skipped := none
      newExpirationTime := NoWork, effects := q.effects }
  have hskip := processUpdates_skipped_eq ops props rT false q.updates
    { resultState := q.baseState, newBaseState := q.baseState, skipped := none
      newExpirationTime := NoWork, effects := q.effects } rfl
  by_cases hB : ((q.updates.dropWhile fun u => decide (rT ≤ u.expirationTime)).isEmpty)
  · rw [if_pos hB] at hskip
    refine ⟨?_, ?_, ?_, ?_⟩
    · simp only [processUpdateQueue, hcap, processUpdates_nil]
      exact hres
    · simp only [processUpdateQueue, hcap, processUpdates_nil]
      rfl
    · simp only [processUpdateQueue, hcap, processUpdates_nil, hskip]
      exact (List.isEmpty_iff.mp hB).symm
    · simp only [processUpdateQueue, hcap, processUpdates_nil, hskip, if_pos hB,
        Option.isNone_none, Bool.and_self, if_true]
      exact hres
  · rw [if_neg hB] at hskip
    have hBne : (q.updates.dropWhile fun u => decide (rT ≤ u.expirationTime)) ≠ [] := by
      simpa [List.isEmpty_iff] using hB
    have hbase := processUpdates_newBaseState_eq ops props rT q.updates
      { resultState := q.baseState, newBaseState := q.baseState, skipped := none
        newExpirationTime := NoWork, effects := q.effects } rfl hBne
    refine ⟨?_, ?_, ?_, ?_⟩
    · simp only [processUpdateQueue, hcap, processUpdates_nil]
      exact hres
    · simp only [processUpdateQueue, hcap, processUpdates_nil]
      rfl
    · simp only [processUpdateQueue, hcap, processUpdates_nil, hskip]
      rfl
    · simp only [processUpdateQueue, hcap, processUpdates_nil, hskip, if_neg hB,
        Option.isNone_some, Bool.false_and, Bool.false_eq_true, if_false]
      exact hbase

/-- C1. For every base state, props and update list (no captured updates),
folding the whole queue in a single `processUpdateQueue` pass at the lowest
threshold — one every update meets — produces the same final materialized
state as a higher-threshold pass (which applies only the updates meeting that
threshold, snapshots the base state at the first skipped update, and keeps
the suffix from that update on) followed by a lower-threshold pass over the
surviving queue. -/
theorem processUpdateQueue_two_pass_deterministic {V : Type} (ops : JSOps V)
    (props : V) (q : UpdateQueue V) (rLow rHigh : Int)
    (hcap : q.capturedUpdates = [])
    (hall : ∀ u ∈ q.updates, rLow ≤ u.expirationTime) :
    (processUpdateQueue ops props
        (processUpdateQueue ops props q rHigh).queue rLow).memoizedState
      = (processUpdateQueue ops props q rLow).memoizedState := by
  obtain ⟨_, c1, u1, b1⟩ := processUpdateQueue_no_captured ops props q rHigh hcap
  obtain ⟨m2, _, _, _⟩ := processUpdateQueue_no_captured ops props
    (processUpdateQueue ops props q rHigh).queue rLow c1
  obtain ⟨m3, _, _, _⟩ := processUpdateQueue_no_captured ops props q rLow hcap
  rw [m2, m3, u1, b1]
  by_cases hB : ((q.updates.dropWhile fun u => decide (rHigh ≤ u.expirationTime)).isEmpty)
  · have hBnil : (q.updates.dropWhile fun u => decide (rHigh ≤ u.expirationTime)) = [] :=
      List.isEmpty_iff.mp hB
    rw [if_pos hB, hBnil, List.foldl_nil]
    have hallH : ∀ u ∈ q.updates, rHigh ≤ u.expirationTime := by
      intro u hu
      simpa using List.dropWhile_eq_nil_iff.mp hBnil u hu
    rw [foldStep_eq_applyAll ops props rHigh _ _ hallH,
      foldStep_eq_applyAll ops props rLow _ _ hall]
  · have hallB : ∀ u ∈ (q.updates.dropWhile fun u => decide (rHigh ≤ u.expirationTime)),
        rLow ≤ u.expirationTime := by
      intro u hu
      exact hall u ((List.dropWhile_sublist _).subset hu)
    rw [if_neg hB, foldStep_eq_applyAll ops props rLow _ _ hallB,
      foldStep_eq_applyAll ops props rLow _ _ hall, ← List.foldl_append,
      List.takeWhile_append_dropWhile]

/-- Witness for C1 at the concrete scenario queue: thresholds 1 and 2. -/
theorem processUpdateQueue_two_pass_deterministic_witness :
    (processUpdateQueue stringOps ""
        (processUpdateQueue stringOps "" demoQueue 2).queue 1).memoizedState
      = (processUpdateQueue stringOps "" demoQueue 1).memoizedState :=
  processUpdateQueue_two_pass_deterministic stringOps "" demoQueue 1 2 rfl
    (by decide)

/-- C2. The skip-rebase scenario: base state `""`, updates A(1) B(2) C(1)
D(2) each appending its letter. Folding at threshold 2 applies only B and D
(memoized state "BD"), snapshots the base state to `""` (taken before A, the
first skipped update) and keeps the whole list [A,B,C,D]; a following fold at
threshold 1 applies all four in insertion order giving "ABCD" — the same
final state as a single threshold-1 fold that skips the threshold-2 pass. -/
theorem skip_rebase_scenario :
    (processUpdateQueue stringOps "" demoQueue 2).memoizedState = "BD" ∧
      (processUpdateQueue stringOps "" demoQueue 2).queue.baseState = "" ∧
      (processUpdateQueue stringOps "" demoQueue 2).queue.updates
        = [updA, updB, updC, updD] ∧
      (processUpdateQueue stringOps ""
        (processUpdateQueue stringOps "" demoQueue 2).queue 1).memoizedState = "ABCD" ∧
      (processUpdateQueue stringOps "" demoQueue 1).memoizedState = "ABCD" :=
  ⟨rfl, rfl, rfl, rfl, rfl⟩

/-- C10. `getStateFromUpdate` on an update whose tag is none of
`UpdateState`(0), `ReplaceState`(1), `ForceUpdate`(2), `CaptureUpdate`(3)
falls through the `switch` and returns the previous state unchanged, and a
`processUpdateQueue` fold that admits such an update treats it as a no-op
(same memoized state as the bare base state for a one-update queue) instead
of failing. -/
theorem getStateFromUpdate_unknown_tag_noop {V : Type} (ops : JSOps V)
    (props : V) (u : Update V) (s : V)
    (h0 : u.tag ≠ UpdateState) (h1 : u.tag ≠ ReplaceState)
    (_h2 : u.tag ≠ ForceUpdate) (h3 : u.tag ≠ CaptureUpdate) :
    getStateFromUpdate ops props u s = s ∧
      ∀ rT : Int, rT ≤ u.expirationTime →
        (processUpdateQueue ops props
          { baseState := s, updates := [u], capturedUpdates := []
            effects := [], capturedEffects := [] } rT).memoizedState = s ∧
        (processUpdateQueue ops props
          { baseState := s, updates := [u], capturedUpdates := []
            effects := [], capturedEffects := [] } rT).queue.updates = [] := by
  have hg : getStateFromUpdate ops props u s = s := by
    unfold getStateFromUpdate
    rw [if_neg h1, if_neg (by exact fun h => h.elim h3 h0)]
  refine ⟨hg, fun rT hrT => ?_⟩
  obtain ⟨hm, _, hu, _⟩ := processUpdateQueue_no_captured ops props
    { baseState := s, updates := [u], capturedUpdates := []
      effects := [], capturedEffects := [] } rT rfl
  constructor
  · rw [hm]
    simp [foldStep, not_lt.mpr hrT, hg]
  · rw [hu]
    simp [List.dropWhile_cons, hrT]

/-- Witness for C10: a tag-7 update with expiration time 5 admitted at
threshold 3 leaves the state `"s0"` unchanged and the queue empty. -/
theorem getStateFromUpdate_unknown_tag_noop_witness :
    getStateFromUpdate stringOps ""
        { expirationTime := 5, tag := 7, payload := .value "x", callback := none }
        "s0" = "s0" ∧
      (processUpdateQueue stringOps ""
        { baseState := "s0"
          updates := [{ expirationTime := 5, tag := 7, payload := .value "x"
                        callback := none }]
          capturedUpdates := [], effects := [], capturedEffects := [] }
        3).memoizedState = "s0" := by
  have h := getStateFromUpdate_unknown_tag_noop stringOps ""
    { expirationTime := 5, tag := 7, payload := .value "x", callback := none }
    "s0" (by decide) (by decide) (by decide) (by decide)
  exact ⟨h.1, (h.2 3 (by decide)).1⟩

/-! ### Commit phase: captured-suffix rebase and effect callbacks -/

/-- Callbacks started by a walk are callbacks recorded in the chain. -/
theorem commitUpdateEffects_started_subset {V : Type} (throws : Nat → Bool)
    (es : List (Update V)) :
    ∀ c ∈ (commitUpdateEffects throws es).1, c ∈ es.filterMap Update.callback := by
  induction es with
  | nil => intro c hc; simp [commitUpdateEffects] at hc
  | cons e rest ih =>
    intro c hc
    rcases he : e.callback with _ | c0
    · simp only [commitUpdateEffects, he] at hc
      simp only [List.filterMap_cons, he]
      exact ih c hc
    · by_cases ht : throws c0
      · simp [commitUpdateEffects, he, ht] at hc
        simp [List.filterMap_cons, he, hc]
      · simp [commitUpdateEffects, he, ht] at hc
        simp only [List.filterMap_cons, he]
        rcases hc with h | h
        · simp [h]
        · exact List.mem_cons_of_mem _ (ih c h)

/-- Callbacks still recorded in the chain a walk leaves behind were already
recorded before the walk. -/
theorem commitUpdateEffects_chain_sub {V : Type} (throws : Nat → Bool)
    (es : List (Update V)) :
    ∀ c ∈ (commitUpdateEffects throws es).2.1.filterMap Update.callback,
      c ∈ es.filterMap Update.callback := by
  induction es with
  | nil => intro c hc; simp [commitUpdateEffects] at hc
  | cons e rest ih =>
    intro c hc
    rcases he : e.callback with _ | c0
    · simp only [commitUpdateEffects, he, List.filterMap_cons] at hc
      simp only [List.filterMap_cons, he]
      exact ih c hc
    · by_cases ht : throws c0
      · simp only [commitUpdateEffects, he, ht, if_true, List.filterMap_cons] at hc
        simp only [List.filterMap_cons, he]
        exact List.mem_cons_of_mem _ hc
      · simp only [commitUpdateEffects, he, ht, if_false, Bool.false_eq_true,
          List.filterMap_cons] at hc
        simp only [List.filterMap_cons, he]
        exact List.mem_cons_of_mem _ (ih c hc)

/-- Every callback a walk started has been cleared from the chain the walk
leaves behind: with distinct recorded callbacks, no started callback is still
recorded afterwards. -/
theorem commitUpdateEffects_cleared {V : Type} (throws : Nat → Bool)
    (es : List (Update V)) (hnd : (es.filterMap Update.callback).Nodup) :
    ∀ c ∈ (commitUpdateEffects throws es).1,
      c ∉ (commitUpdateEffects throws es).2.1.filterMap Update.callback := by
  induction es with
  | nil => intro c hc; simp [commitUpdateEffects] at hc
  | cons e rest ih =>
    intro c hc
    rcases he : e.callback with _ | c0
    · simp only [List.filterMap_cons, he] at hnd
      simp only [commitUpdateEffects, he] at hc
      simp only [commitUpdateEffects, he, List.filterMap_cons]
      exact ih hnd c hc
    · simp only [List.filterMap_cons, he, List.nodup_cons] at hnd
      by_cases ht : throws c0
      · simp [commitUpdateEffects, he, ht] at hc
        subst hc
        simp only [commitUpdateEffects, he, ht, if_true, List.filterMap_cons]
        exact hnd.1
      · simp [commitUpdateEffects, he, ht] at hc
        simp only [commitUpdateEffects, he, ht, if_false, List.filterMap_cons]
        rcases hc with h | h
        · subst h
          intro hmem
          exact hnd.1 (commitUpdateEffects_chain_sub throws rest c hmem)
        · exact ih hnd.2 c h

/-- A walk during which no recorded callback raises starts every recorded
callback, in encounter order, and propagates no error. -/
theorem commitUpdateEffects_no_throw {V : Type} (throws : Nat → Bool)
    (es : List (Update V))
    (h : ∀ c ∈ es.filterMap Update.callback, throws c = false) :
    (commitUpdateEffects throws es).1 = es.filterMap Update.callback ∧
      (commitUpdateEffects throws es).2.2 = none := by
  induction es with
  | nil => exact ⟨rfl, rfl⟩
  | cons e rest ih =>
    rcases he : e.callback with _ | c0
    · simp only [commitUpdateEffects, he, List.filterMap_cons]
      exact ih (by simpa [List.filterMap_cons, he] using h)
    · have hth : throws c0 = false := h c0 (by simp [List.filterMap_cons, he])
      have := ih (fun c hc => h c (by simp [List.filterMap_cons, he, hc]))
      simp only [commitUpdateEffects, he, hth, Bool.false_eq_true, if_false,
        List.filterMap_cons]
      exact ⟨by rw [this.1], this.2⟩

/-- A propagated error comes from a callback that raised, and that callback
was started. -/
theorem commitUpdateEffects_err {V : Type} (throws : Nat → Bool)
    (es : List (Update V)) :
    ∀ c, (commitUpdateEffects throws es).2.2 = some c →
      throws c = true ∧ c ∈ (commitUpdateEffects throws es).1 := by
  induction es with
  | nil => intro c hc; simp [commitUpdateEffects] at hc
  | cons e rest ih =>
    intro c hc
    rcases he : e.callback with _ | c0
    · simp only [commitUpdateEffects, he] at hc
      simp only [commitUpdateEffects, he]
      exact ih c hc
    · by_cases ht : throws c0
      · simp [commitUpdateEffects, he, ht] at hc
        subst hc
        simp [commitUpdateEffects, he, ht]
      · simp only [commitUpdateEffects, he, ht, if_false, Bool.false_eq_true] at hc
        obtain ⟨h1, h2⟩ := ih c hc
        simp only [commitUpdateEffects, he, ht, if_false, Bool.false_eq_true]
        exact ⟨h1, List.mem_cons_of_mem _ h2⟩

/-- The captured-append step of `commitUpdateQueue` never changes the two
effect chains: the started callbacks and the propagated error are those of
walking exactly `q.effects` and then `q.capturedEffects`. -/
theorem commitUpdateQueue_snd {V : Type} (throws : Nat → Bool)
    (q : UpdateQueue V) :
    (commitUpdateQueue throws q).2 =
      (commitQueueEffects throws q.effects q.capturedEffects).2 := by
  unfold commitUpdateQueue
  split
  · rfl
  · split <;> rfl

/-- The effect walks of `commitUpdateQueue` never change the update lists:
its queue's `updates` and `capturedUpdates` are those left by the
captured-append step alone. -/
theorem commitUpdateQueue_fst_lists {V : Type} (throws : Nat → Bool)
    (q : UpdateQueue V) :
    ((commitUpdateQueue throws q).1.updates,
        (commitUpdateQueue throws q).1.capturedUpdates) =
      (if q.capturedUpdates.isEmpty then (q.updates, q.capturedUpdates)
       else if q.updates.isEmpty then (q.updates, [])
       else (q.updates ++ q.capturedUpdates, [])) := by
  unfold commitUpdateQueue
  split
  · rfl
  · split <;> rfl

/-- A captured update used as concrete data in commit-phase statements. -/
def capX : Update String :=
  { expirationTime := 1, tag := UpdateState, payload := .value "x", callback := none }

/-- A queue whose normal list is empty while a captured update remains. -/
def emptyNormalQueue : UpdateQueue String :=
  { baseState := "", updates := [], capturedUpdates := [capX]
    effects := [], capturedEffects := [] }

/-- Counterexample to C3 as stated: committing a queue whose normal list is
empty while `firstCapturedUpdate` is non-null clears the captured list
without appending it anywhere — the captured update is silently discarded,
not kept pending. -/
theorem commitUpdateQueue_empty_normal_drops_captured :
    emptyNormalQueue.capturedUpdates ≠ [] ∧
      (commitUpdateQueue (fun _ => false) emptyNormalQueue).1.updates = [] ∧
      (commitUpdateQueue (fun _ => false) emptyNormalQueue).1.capturedUpdates = [] := by
  refine ⟨?_, rfl, rfl⟩
  simp [emptyNormalQueue]

/-- C3 (amended). When `commitUpdateQueue` runs while a captured-update
suffix remains and the normal list is non-empty, the captured suffix is
appended to the tail of the normal list and the captured pointers are
cleared; when the normal list is empty, the captured pointers are cleared
without appending, discarding those captured updates (see the
counterexample). -/
theorem commitUpdateQueue_appends_captured {V : Type} (throws : Nat → Bool)
    (q : UpdateQueue V) (hcap : q.capturedUpdates ≠ []) (hupd : q.updates ≠ []) :
    (commitUpdateQueue throws q).1.updates = q.updates ++ q.capturedUpdates ∧
      (commitUpdateQueue throws q).1.capturedUpdates = [] := by
  have h1 : ¬ (q.capturedUpdates.isEmpty = true) :=
    fun hc => hcap (List.isEmpty_iff.mp hc)
  have h2 : ¬ (q.updates.isEmpty = true) :=
    fun hc => hupd (List.isEmpty_iff.mp hc)
  have h := commitUpdateQueue_fst_lists throws q
  rw [if_neg h1, if_neg h2] at h
  exact ⟨(Prod.ext_iff.mp h).1, (Prod.ext_iff.mp h).2⟩

/-- A queue with one normal and one captured update, for the C3 witness. -/
def demoCommitQueue : UpdateQueue String :=
  { baseState := "", updates := [updA], capturedUpdates := [capX]
    effects := [], capturedEffects := [] }

/-- Witness for C3 (amended): with a non-empty normal list the captured
update is rebased onto the normal tail. -/
theorem commitUpdateQueue_appends_captured_witness :
    (commitUpdateQueue (fun _ => false) demoCommitQueue).1.updates
        = demoCommitQueue.updates ++ demoCommitQueue.capturedUpdates ∧
      (commitUpdateQueue (fun _ => false) demoCommitQueue).1.capturedUpdates = [] :=
  commitUpdateQueue_appends_captured (fun _ => false) demoCommitQueue
    (List.cons_ne_nil _ _) (List.cons_ne_nil _ _)

/-- C4. During `commitUpdateQueue` the effect callbacks run in recorded
encounter order — the normal effect chain then the captured one — and each
node's callback reference is nulled strictly before its invocation.
Consequences stated: (i) an error-free commit starts exactly the recorded
callbacks in order; (ii) since started nodes are cleared before invocation,
re-running the commit loop over the chain a walk left behind (with callbacks
pairwise distinct) can never start a callback that was already started, even
after an abort; (iii) a raising callback's error propagates to the caller and
comes from a callback that was indeed started. -/
theorem commitUpdateQueue_callback_discipline {V : Type}
    (throws throws2 : Nat → Bool) (q : UpdateQueue V)
    (hnd : (q.effects.filterMap Update.callback).Nodup) :
    ((∀ c ∈ q.effects.filterMap Update.callback
          ++ q.capturedEffects.filterMap Update.callback, throws c = false) →
        (commitUpdateQueue throws q).2.1
            = q.effects.filterMap Update.callback
              ++ q.capturedEffects.filterMap Update.callback ∧
          (commitUpdateQueue throws q).2.2 = none) ∧
      (∀ c ∈ (commitUpdateEffects throws q.effects).1,
        c ∉ (commitUpdateEffects throws2 (commitUpdateEffects throws q.effects).2.1).1) ∧
      (∀ c, (commitUpdateQueue throws q).2.2 = some c →
        throws c = true ∧ c ∈ (commitUpdateQueue throws q).2.1) := by
  refine ⟨?_, ?_, ?_⟩
  · intro hno
    obtain ⟨e1, n1⟩ := commitUpdateEffects_no_throw throws q.effects
      (fun c hc => hno c (List.mem_append_left _ hc))
    obtain ⟨e2, n2⟩ := commitUpdateEffects_no_throw throws q.capturedEffects
      (fun c hc => hno c (List.mem_append_right _ hc))
    rw [commitUpdateQueue_snd]
    simp [commitQueueEffects, n1, n2, e1, e2]
  · intro c hc hc2
    exact commitUpdateEffects_cleared throws q.effects hnd c hc
      (commitUpdateEffects_started_subset throws2 _ c hc2)
  · intro c
    rw [commitUpdateQueue_snd]
    rcases n1 : (commitUpdateEffects throws q.effects).2.2 with _ | e1
    · rcases n2 : (commitUpdateEffects throws q.capturedEffects).2.2 with _ | e2
      · simp only [commitQueueEffects, n1, n2]
        intro hc
        exact absurd hc (by simp)
      · simp only [commitQueueEffects, n1, n2]
        intro hc
        rw [← Option.some.inj hc]
        obtain ⟨h1, h2⟩ := commitUpdateEffects_err throws q.capturedEffects e2 n2
        exact ⟨h1, List.mem_append_right _ h2⟩
    · simp only [commitQueueEffects, n1]
      intro hc
      rw [← Option.some.inj hc]
      obtain ⟨h1, h2⟩ := commitUpdateEffects_err throws q.effects e1 n1
      exact ⟨h1, h2⟩

/-- Effect nodes with callbacks 0, 1, 2, callback 1 raising, for the C4
witness. -/
def effQueue : UpdateQueue String :=
  { baseState := "", updates := [], capturedUpdates := []
    effects :=
      [{ expirationTime := 1, tag := UpdateState, payload := .value "a", callback := some 0 },
       { expirationTime := 1, tag := UpdateState, payload := .value "b", callback := some 1 },
       { expirationTime := 1, tag := UpdateState, payload := .value "c", callback := some 2 }]
    capturedEffects := [] }

/-- The throw environment of the C4 witness: callback 1 raises. -/
def demoThrows : Nat → Bool := fun c => decide (c = 1)

/-- Witness for C4 at a concrete three-callback effect chain where callback 1
raises on the first run and nothing raises on the re-run. -/
theorem commitUpdateQueue_callback_discipline_witness :
    ((∀ c ∈ effQueue.effects.filterMap Update.callback
          ++ effQueue.capturedEffects.filterMap Update.callback, demoThrows c = false) →
        (commitUpdateQueue demoThrows effQueue).2.1
            = effQueue.effects.filterMap Update.callback
              ++ effQueue.capturedEffects.filterMap Update.callback ∧
          (commitUpdateQueue demoThrows effQueue).2.2 = none) ∧
      (∀ c ∈ (commitUpdateEffects demoThrows effQueue.effects).1,
        c ∉ (commitUpdateEffects (fun _ => false)
          (commitUpdateEffects demoThrows effQueue.effects).2.1).1) ∧
      (∀ c, (commitUpdateQueue demoThrows effQueue).2.2 = some c →
        demoThrows c = true ∧ c ∈ (commitUpdateQueue demoThrows effQueue).2.1) :=
  commitUpdateQueue_callback_discipline demoThrows (fun _ => false) effQueue (by decide)

/-! ### Expiration-time math (src/src/index.js:77-166)

JS `x | 0` truncates toward zero; on `Int` that is `Int.tdiv` (the current
name of `Int.div`). The two inner divisions `expirationInMs / UNIT_SIZE` and
`bucketSizeMs / UNIT_SIZE` are exact at every call site (5000/10, 250/10,
500/10, 150/10, 100/10), so integer division is faithful there too. -/

def MAX_SIGNED_31_BIT_INT : Int := 1073741823

def UNIT_SIZE : Int := 10

def MAGIC_NUMBER_OFFSET : Int := MAX_SIGNED_31_BIT_INT - 1

/-- `msToExpirationTime` (index.js:92-95). -/
def msToExpirationTime (ms : Int) : Int :=
  MAGIC_NUMBER_OFFSET - Int.tdiv ms UNIT_SIZE

/-- `expirationTimeToMs` (index.js:97-99). -/
def expirationTimeToMs (expirationTime : Int) : Int :=
  (MAGIC_NUMBER_OFFSET - expirationTime) * UNIT_SIZE

/-- `ceiling` (index.js:103-105): `(((num / precision) | 0) + 1) * precision`. -/
def ceiling (num precision : Int) : Int :=
  (Int.tdiv num precision + 1) * precision

/-- `computeExpirationBucket` (index.js:107-125). -/
def computeExpirationBucket (currentTime expirationInMs bucketSizeMs : Int) : Int :=
  MAGIC_NUMBER_OFFSET -
    ceiling (MAGIC_NUMBER_OFFSET - currentTime + Int.tdiv expirationInMs UNIT_SIZE)
      (Int.tdiv bucketSizeMs UNIT_SIZE)

def LOW_PRIORITY_EXPIRATION : Int := 5000

def LOW_PRIORITY_BATCH_SIZE : Int := 250

/-- `computeAsyncExpiration` (index.js:133-141). -/
def computeAsyncExpiration (currentTime : Int) : Int :=
  computeExpirationBucket currentTime LOW_PRIORITY_EXPIRATION LOW_PRIORITY_BATCH_SIZE

/-- `HIGH_PRIORITY_EXPIRATION` in `__DEV__` builds (500; production uses 150). -/
def HIGH_PRIORITY_EXPIRATION : Int := 500

def HIGH_PRIORITY_BATCH_SIZE : Int := 100

/-- `computeInteractiveExpiration` (index.js:160-166). -/
def computeInteractiveExpiration (currentTime : Int) : Int :=
  computeExpirationBucket currentTime HIGH_PRIORITY_EXPIRATION HIGH_PRIORITY_BATCH_SIZE

/-- Counterexample to C7 as stated: at `currentTime = MAGIC_NUMBER_OFFSET`
(0 ms) the requested async deadline is 500 units past the origin, itself a
window boundary (500 % 25 = 0) — so the nearest boundary at or above the
request is 500 — yet the computed deadline is 525: `ceiling` is
`(⌊num/prec⌋ + 1) · prec`, one full window beyond an exactly-aligned request,
not the mathematical ceiling. -/
theorem computeExpirationBucket_boundary_counterexample :
    MAGIC_NUMBER_OFFSET - computeAsyncExpiration MAGIC_NUMBER_OFFSET = 525 ∧
      (500 : Int) % 25 = 0 ∧
      MAGIC_NUMBER_OFFSET - computeAsyncExpiration MAGIC_NUMBER_OFFSET ≠ 500 := by
  refine ⟨by decide, by decide, by decide⟩

/-- C7 (amended). For every current time (in the image of the clock, i.e. at
most `MAGIC_NUMBER_OFFSET`) and every priority class `(expirationInMs,
bucketSizeMs)` — both multiples of the 10 ms unit, with a positive window —
the computed score's deadline (i) lies on a window boundary, (ii) is strictly
later than the requested time-plus-timeout (in particular never earlier),
(iii) exceeds the requested deadline by at most one full window — the
rounding is to the next strictly greater window boundary, `(⌊num/window⌋+1)
· window`, not the mathematical ceiling — and (iv) two requests receive an
identical score exactly when their requested deadlines fall in the same
window (coalescing). -/
theorem computeExpirationBucket_window_bound (t e b : Int)
    (he : 0 ≤ e) (hb : 0 < Int.tdiv b UNIT_SIZE)
    (ht : t ≤ MAGIC_NUMBER_OFFSET) (hde : UNIT_SIZE ∣ e) :
    Int.tdiv b UNIT_SIZE ∣ (MAGIC_NUMBER_OFFSET - computeExpirationBucket t e b) ∧
      expirationTimeToMs t + e < expirationTimeToMs (computeExpirationBucket t e b) ∧
      MAGIC_NUMBER_OFFSET - computeExpirationBucket t e b
        ≤ (MAGIC_NUMBER_OFFSET - t + Int.tdiv e UNIT_SIZE) + Int.tdiv b UNIT_SIZE ∧
      (∀ t2, t2 ≤ MAGIC_NUMBER_OFFSET →
        (computeExpirationBucket t2 e b = computeExpirationBucket t e b ↔
          (MAGIC_NUMBER_OFFSET - t2 + Int.tdiv e UNIT_SIZE) / Int.tdiv b UNIT_SIZE
            = (MAGIC_NUMBER_OFFSET - t + Int.tdiv e UNIT_SIZE) / Int.tdiv b UNIT_SIZE)) := by
  have hu : (0 : Int) ≤ UNIT_SIZE := by decide
  have heU : 0 ≤ Int.tdiv e UNIT_SIZE := Int.tdiv_nonneg he hu
  have hnum : ∀ s, s ≤ MAGIC_NUMBER_OFFSET →
      0 ≤ MAGIC_NUMBER_OFFSET - s + Int.tdiv e UNIT_SIZE := by
    intro s hs
    have := sub_nonneg.mpr hs
    linarith
  have hceil : ∀ s, s ≤ MAGIC_NUMBER_OFFSET →
      ceiling (MAGIC_NUMBER_OFFSET - s + Int.tdiv e UNIT_SIZE) (Int.tdiv b UNIT_SIZE)
        = ((MAGIC_NUMBER_OFFSET - s + Int.tdiv e UNIT_SIZE) / Int.tdiv b UNIT_SIZE + 1)
          * Int.tdiv b UNIT_SIZE := by
    intro s hs
    unfold ceiling
    rw [Int.tdiv_eq_ediv (hnum s hs) (le_of_lt hb)]
  have hkey : MAGIC_NUMBER_OFFSET - computeExpirationBucket t e b
      = ((MAGIC_NUMBER_OFFSET - t + Int.tdiv e UNIT_SIZE) / Int.tdiv b UNIT_SIZE + 1)
        * Int.tdiv b UNIT_SIZE := by
    unfold computeExpirationBucket
    rw [sub_sub_cancel, hceil t ht]
  refine ⟨?_, ?_, ?_, ?_⟩
  · rw [hkey]
    exact Dvd.intro_left _ rfl
  · obtain ⟨k, hk⟩ := hde
    have hek : Int.tdiv e UNIT_SIZE = k := by
      rw [hk]
      exact Int.mul_tdiv_cancel_left k (by decide)
    have hlt := Int.lt_ediv_add_one_mul_self
      (MAGIC_NUMBER_OFFSET - t + Int.tdiv e UNIT_SIZE) hb
    have h10 : expirationTimeToMs (computeExpirationBucket t e b)
        = (MAGIC_NUMBER_OFFSET - computeExpirationBucket t e b) * UNIT_SIZE := rfl
    rw [h10, hkey]
    unfold expirationTimeToMs
    have hU : UNIT_SIZE = (10 : Int) := rfl
    rw [hek] at hlt
    rw [hek, hU, hk, hU]
    rw [hU] at hlt
    linarith [hlt]
  · rw [hkey]
    have hle := Int.ediv_mul_le
      (MAGIC_NUMBER_OFFSET - t + Int.tdiv e UNIT_SIZE) (ne_of_gt hb)
    nlinarith [hle]
  · intro t2 ht2
    have hkey2 : MAGIC_NUMBER_OFFSET - computeExpirationBucket t2 e b
        = ((MAGIC_NUMBER_OFFSET - t2 + Int.tdiv e UNIT_SIZE) / Int.tdiv b UNIT_SIZE + 1)
          * Int.tdiv b UNIT_SIZE := by
      unfold computeExpirationBucket
      rw [sub_sub_cancel, hceil t2 ht2]
    constructor
    · intro hEq
      have : MAGIC_NUMBER_OFFSET - computeExpirationBucket t2 e b
          = MAGIC_NUMBER_OFFSET - computeExpirationBucket t e b := by rw [hEq]
      rw [hkey, hkey2] at this
      have := mul_right_cancel₀ (ne_of_gt hb) this
      linarith
    · intro hdiv
      have h2 : MAGIC_NUMBER_OFFSET - computeExpirationBucket t2 e b
          = MAGIC_NUMBER_OFFSET - computeExpirationBucket t e b := by
        rw [hkey, hkey2, hdiv]
      linarith

/-- Witness for C7 (amended) at the async class: current time 30 ms
(expiration-time units `MAGIC_NUMBER_OFFSET - 3`), timeout 5000 ms, window
250 ms. -/
theorem computeExpirationBucket_window_bound_witness :
    Int.tdiv (250 : Int) UNIT_SIZE
        ∣ (MAGIC_NUMBER_OFFSET
            - computeExpirationBucket (MAGIC_NUMBER_OFFSET - 3) 5000 250) ∧
      expirationTimeToMs (MAGIC_NUMBER_OFFSET - 3) + 5000
        < expirationTimeToMs
            (computeExpirationBucket (MAGIC_NUMBER_OFFSET - 3) 5000 250) ∧
      MAGIC_NUMBER_OFFSET - computeExpirationBucket (MAGIC_NUMBER_OFFSET - 3) 5000 250
        ≤ (MAGIC_NUMBER_OFFSET - (MAGIC_NUMBER_OFFSET - 3)
            + Int.tdiv (5000 : Int) UNIT_SIZE) + Int.tdiv (250 : Int) UNIT_SIZE ∧
      (∀ t2, t2 ≤ MAGIC_NUMBER_OFFSET →
        (computeExpirationBucket t2 5000 250
            = computeExpirationBucket (MAGIC_NUMBER_OFFSET - 3) 5000 250 ↔
          (MAGIC_NUMBER_OFFSET - t2 + Int.tdiv (5000 : Int) UNIT_SIZE)
              / Int.tdiv (250 : Int) UNIT_SIZE
            = (MAGIC_NUMBER_OFFSET - (MAGIC_NUMBER_OFFSET - 3)
                + Int.tdiv (5000 : Int) UNIT_SIZE) / Int.tdiv (250 : Int) UNIT_SIZE)) :=
  computeExpirationBucket_window_bound (MAGIC_NUMBER_OFFSET - 3) 5000 250
    (by decide) (by decide) (by decide) (by decide)

/-! ### Cooperative scheduler (ReactUpdateQueue.js:662-1163)

The circular doubly-linked callback list is embedded as a pointer machine:
node records live in a heap `mem : Nat → Option CallbackNode` addressed by
`Nat` ids, `null` pointers are `none`, and the globals that the claims
concern (`firstCallbackNode`) are fields of the state. Ids are allocated
from the monotone counter `fresh`, which also bounds the fuel of the
pointer-chasing loops (a cycle can never hold more than `fresh` nodes).
Runnables are identified by `Nat` ids; invoking one is looked up in an
environment `env : Nat → Option Nat` that yields the continuation callback
it returns, if any. The host-arming calls (`ensureHostCallbackIsScheduled`,
`requestHostCallback`, `cancelHostCallback`) only talk to the external host
adapter and never touch the list, so they have no footprint here;
`enableSchedulerDebugging` (imported from the absent SchedulerFeatureFlags
module) is the stable build's `false`, so the `isSchedulerPaused` guards it
protects are dead code. -/

def ImmediatePriority : Nat := 1
def UserBlockingPriority : Nat := 2
def NormalPriority : Nat := 3
def LowPriority : Nat := 4
def IdlePriority : Nat := 5

def IMMEDIATE_PRIORITY_TIMEOUT : Int := -1
def USER_BLOCKING_PRIORITY : Int := 250
def NORMAL_PRIORITY_TIMEOUT : Int := 5000
def LOW_PRIORITY_TIMEOUT : Int := 10000
def IDLE_PRIORITY : Int := MAX_SIGNED_31_BIT_INT

/-- A node of the circular doubly-linked callback list (`newNode` literals at
ReactUpdateQueue.js:788-794 and 1051-1057). -/
structure CallbackNode where
  callback : Nat
  priorityLevel : Nat
  expirationTime : Int
  next : Option Nat
  previous : Option Nat
deriving DecidableEq

/-- The scheduler's mutable state: the node heap, the global
`firstCallbackNode`, and the allocation counter. -/
structure Sched where
  mem : Nat → Option CallbackNode
  firstCallbackNode : Option Nat
  fresh : Nat

/-- The empty scheduler. -/
def initSched : Sched :=
  { mem := fun _ => none, firstCallbackNode := none, fresh := 0 }

/-- Overwrite the node record at address `a`. -/
def Sched.write (s : Sched) (a : Nat) (c : CallbackNode) : Sched :=
  { s with mem := fun b => if b = a then some c else s.mem b }

/-- `node.next`, `null`-propagating. -/
def nextOf (s : Sched) (a : Nat) : Option Nat :=
  (s.mem a).bind CallbackNode.next

/-- `node.previous`, `null`-propagating. -/
def prevOf (s : Sched) (a : Nat) : Option Nat :=
  (s.mem a).bind CallbackNode.previous

/-- `node.expirationTime` (0 when unallocated, which never happens for
reachable reads). -/
def nodeExp (s : Sched) (a : Nat) : Int :=
  ((s.mem a).map CallbackNode.expirationTime).getD 0

/-- `node.callback` id. -/
def nodeCb (s : Sched) (a : Nat) : Nat :=
  ((s.mem a).map CallbackNode.callback).getD 0

/-- `node.priorityLevel`. -/
def nodePrio (s : Sched) (a : Nat) : Nat :=
  ((s.mem a).map CallbackNode.priorityLevel).getD 0

/-- `node.next = v`. -/
def writeNext (s : Sched) (a : Nat) (v : Option Nat) : Sched :=
  match s.mem a with
  | none => s
  | some c => s.write a { c with next := v }

/-- `node.previous = v`. -/
def writePrev (s : Sched) (a : Nat) (v : Option Nat) : Sched :=
  match s.mem a with
  | none => s
  | some c => s.write a { c with previous := v }

/-- `node.next = node.previous = null` (detaching a node). -/
def clearLinks (s : Sched) (a : Nat) : Sched :=
  match s.mem a with
  | none => s
  | some c => s.write a { c with next := none, previous := none }

/-- A node is live when it is linked into the circular list; detached and
unallocated nodes have `next = null`. -/
abbrev isLive (s : Sched) (a : Nat) : Prop := nextOf s a ≠ none

/-- The `do ... while (node !== firstCallbackNode)` search the two insertion
sites share (ReactUpdateQueue.js:806-814 and 1074-1082): walk `next` from the
head, return the first node whose expiration time satisfies `stop` (`>`
for `unstable_scheduleCallback`, `>=` for a continuation), or `none` when the
walk comes back around to the head. The fuel is the caller's `fresh`, an
upper bound on the number of live nodes. -/
def findInsertionPoint (s : Sched) (stop : Int → Bool) : Nat → Nat → Option Nat
  | 0, _ => none
  | fuel + 1, a =>
    match s.mem a with
    | none => none
    | some c =>
      if stop c.expirationTime then some a
      else
        match c.next with
        | none => none
        | some b =>
          if s.firstCallbackNode = some b then none
          else findInsertionPoint s stop fuel b

/-- The insertion both `unstable_scheduleCallback` (ReactUpdateQueue.js:
1059-1109) and the continuation branch of `flushFirstCallback` (lines
787-831) perform, differing only in the `stop` comparison: allocate a fresh
node; if the list is empty it becomes the self-linked head; otherwise insert
it before the found node (before the head without moving the head pointer
when nothing was found — i.e. at the end of the list — and as the new head
when the found node is the head). The pointer writes mirror lines 1104-1108:
`previous.next = next.previous = newNode; newNode.next = next;
newNode.previous = previous`. -/
def insertCallbackNode (s : Sched) (stop : Int → Bool) (cb priorityLevel : Nat)
    (expirationTime : Int) : Sched × Nat :=
  let id := s.fresh
  let s0 : Sched := { s with fresh := id + 1 }
  match s.firstCallbackNode with
  | none =>
    ({ s0.write id
        { callback := cb, priorityLevel := priorityLevel
          expirationTime := expirationTime
          next := some id, previous := some id } with
        firstCallbackNode := some id }, id)
  | some hd =>
    let found := findInsertionPoint s stop s.fresh hd
    let nextId := found.getD hd
    let prevId := (prevOf s nextId).getD hd
    let s1 := if found = some hd then { s0 with firstCallbackNode := some id } else s0
    let s2 := writeNext s1 prevId (some id)
    let s3 := writePrev s2 nextId (some id)
    (s3.write id
      { callback := cb, priorityLevel := priorityLevel
        expirationTime := expirationTime
        next := some nextId, previous := some prevId }, id)

/-- `deprecated_options.timeout` absent: the timeout table switch of
`unstable_scheduleCallback` (ReactUpdateQueue.js:1032-1048). -/
def timeoutForPriorityLevel (priorityLevel : Nat) : Int :=
  if priorityLevel = ImmediatePriority then IMMEDIATE_PRIORITY_TIMEOUT
  else if priorityLevel = UserBlockingPriority then USER_BLOCKING_PRIORITY
  else if priorityLevel = IdlePriority then IDLE_PRIORITY
  else if priorityLevel = LowPriority then LOW_PRIORITY_TIMEOUT
  else NORMAL_PRIORITY_TIMEOUT

/-- `unstable_scheduleCallback` (ReactUpdateQueue.js:1019-1112):
`expirationTime = startTime + timeout`, then insert ordered first by
expiration, then by insertion — strictly *after* any node with equal
expiration (`node.expirationTime > expirationTime` finds the stop). Returns
the handle (the new node's id). -/
def unstable_scheduleCallback (s : Sched) (cb priorityLevel : Nat)
    (startTime : Int) (timeoutOpt : Option Int) : Sched × Nat :=
  let expirationTime :=
    match timeoutOpt with
    | some t => startTime + t
    | none => startTime + timeoutForPriorityLevel priorityLevel
  insertCallbackNode s (fun e => decide (expirationTime < e)) cb priorityLevel
    expirationTime

/-- The unlink surgery shared by `unstable_cancelCallback`
(ReactUpdateQueue.js:1136-1149) and the head detach of `flushFirstCallback`
(lines 747-762): when the node is the only one, clear the head; otherwise
bridge its neighbours (`previous.next = next; next.previous = previous`),
moving the head to `next` when the node was the head; finally null the
node's own links. -/
def removeCallbackNode (s : Sched) (a : Nat) : Sched :=
  match nextOf s a with
  | none => s
  | some nxt =>
    let s1 :=
      if nxt = a then { s with firstCallbackNode := none }
      else
        let s' := if s.firstCallbackNode = some a then
            { s with firstCallbackNode := some nxt } else s
        let prev := (prevOf s a).getD a
        writePrev (writeNext s' prev (some nxt)) nxt (some prev)
    clearLinks s1 a

/-- `unstable_cancelCallback` (ReactUpdateQueue.js:1129-1150): a node with
`next === null` was already cancelled (or flushed) — return without touching
anything; otherwise unlink it. -/
def unstable_cancelCallback (s : Sched) (callbackNode : Nat) : Sched :=
  match nextOf s callbackNode with
  | none => s
  | some _ => removeCallbackNode s callbackNode

/-- `flushFirstCallback` (ReactUpdateQueue.js:742-832): detach the head
before invoking it (so a throwing runnable leaves the list valid), invoke its
callback — looked up in `env` — and, when a continuation is returned, wrap
it in a fresh node carrying the same priority level and expiration time,
inserted *before* nodes of equal expiration
(`node.expirationTime >= expirationTime`). Returns the flushed callback id;
callers only invoke this with a non-empty list. -/
def flushFirstCallback (env : Nat → Option Nat) (s : Sched) : Sched × Option Nat :=
  match s.firstCallbackNode with
  | none => (s, none)
  | some flushedId =>
    match s.mem flushedId with
    | none => (s, none)
    | some fn =>
      let s1 := removeCallbackNode s flushedId
      match env fn.callback with
      | none => (s1, some fn.callback)
      | some contCb =>
        ((insertCallbackNode s1 (fun e => decide (fn.expirationTime ≤ e)) contCb
            fn.priorityLevel fn.expirationTime).1, some fn.callback)

/-- The inner burst of the expired drain (ReactUpdateQueue.js:893-899):
`do { flushFirstCallback(); } while (firstCallbackNode !== null &&
firstCallbackNode.expirationTime <= currentTime)`. The JS loop can run
forever when callbacks keep returning expired continuations, so the
embedding is fueled: `none` means the fuel ran out before the loop exited. -/
def flushExpiredBurst (env : Nat → Option Nat) (currentTime : Int) :
    Nat → Sched → List Nat → Option (Sched × List Nat)
  | 0, _, _ => none
  | fuel + 1, s, tr =>
    let r := flushFirstCallback env s
    let tr2 := tr ++ r.2.toList
    match r.1.firstCallbackNode with
    | none => some (r.1, tr2)
    | some h =>
      if nodeExp r.1 h ≤ currentTime then
        flushExpiredBurst env currentTime fuel r.1 tr2
      else some (r.1, tr2)

/-- The outer expired-drain loop (ReactUpdateQueue.js:880-903): while the
list is non-empty, sample the clock (`getCurrentTime`, a fresh read per
iteration, modeled as `clock tick`); if the head has expired run a burst and
`continue`, else `break`. Besides the final state and the flushed-callback
trace it returns the last clock sample taken. -/
def flushExpiredLoop (env : Nat → Option Nat) (clock : Nat → Int) :
    Nat → Nat → Sched → List Nat → Option Int →
    Option (Sched × List Nat × Option Int)
  | 0, _, _, _, _ => none
  | fuel + 1, tick, s, tr, last =>
    match s.firstCallbackNode with
    | none => some (s, tr, last)
    | some h =>
      let currentTime := clock tick
      if nodeExp s h ≤ currentTime then
        match flushExpiredBurst env currentTime fuel s tr with
        | none => none
        | some r => flushExpiredLoop env clock fuel (tick + 1) r.1 r.2 (some currentTime)
      else some (s, tr, some currentTime)

/-- The loop of `flushImmediateWork` (ReactUpdateQueue.js:843-849). -/
def flushImmediateLoop (env : Nat → Option Nat) :
    Nat → Sched → List Nat → Option (Sched × List Nat)
  | 0, _, _ => none
  | fuel + 1, s, tr =>
    let r := flushFirstCallback env s
    let tr2 := tr ++ r.2.toList
    match r.1.firstCallbackNode with
    | none => some (r.1, tr2)
    | some h =>
      if nodePrio r.1 h = ImmediatePriority then flushImmediateLoop env fuel r.1 tr2
      else some (r.1, tr2)

/-- `flushImmediateWork` (ReactUpdateQueue.js:834-860), as invoked from
`flushWork`'s `finally` block: `flushWork` runs from the host boundary,
outside `unstable_runWithPriority`, where `currentEventStartTime === -1`
always holds, so the guard reduces to the head being immediate-priority. -/
def flushImmediateWork (env : Nat → Option Nat) (fuel : Nat) (s : Sched) :
    Option (Sched × List Nat) :=
  match s.firstCallbackNode with
  | none => some (s, [])
  | some h =>
    if nodePrio s h = ImmediatePriority then flushImmediateLoop env fuel s []
    else some (s, [])

/-- The time-sliced branch (ReactUpdateQueue.js:904-918):
`do { flushFirstCallback(); } while (firstCallbackNode !== null &&
!shouldYieldToHost())`; each `shouldYieldToHost()` read is a fresh host
consultation, modeled as `shouldYieldToHost ytick`. -/
def flushSlicedLoop (env : Nat → Option Nat) (shouldYieldToHost : Nat → Bool) :
    Nat → Nat → Sched → List Nat → Option (Sched × List Nat)
  | 0, _, _, _ => none
  | fuel + 1, ytick, s, tr =>
    let r := flushFirstCallback env s
    let tr2 := tr ++ r.2.toList
    match r.1.firstCallbackNode with
    | none => some (r.1, tr2)
    | some _ =>
      if shouldYieldToHost ytick then some (r.1, tr2)
      else flushSlicedLoop env shouldYieldToHost fuel (ytick + 1) r.1 tr2

/-- `flushWork` (ReactUpdateQueue.js:865-933). With `didTimeout` the expired
drain runs — it never consults `shouldYieldToHost` — else the time-sliced
loop runs when the list is non-empty; either way the `finally` block then
flushes immediate work. The paused-scheduler guards disappear because
`enableSchedulerDebugging` is `false` in this build. Result: the final
state, the flushed-callback trace, and (in expired mode) the last clock
sample. -/
def flushWork (env : Nat → Option Nat) (clock : Nat → Int)
    (shouldYieldToHost : Nat → Bool) (fuel tick : Nat) (didTimeout : Bool)
    (s : Sched) : Option (Sched × List Nat × Option Int) :=
  if didTimeout then
    match flushExpiredLoop env clock fuel tick s [] none with
    | none => none
    | some r =>
      match flushImmediateWork env fuel r.1 with
      | none => none
      | some r2 => some (r2.1, r.2.1 ++ r2.2, r.2.2)
  else
    match s.firstCallbackNode with
    | none =>
      match flushImmediateWork env fuel s with
      | none => none
      | some r2 => some (r2.1, r2.2, none)
    | some _ =>
      match flushSlicedLoop env shouldYieldToHost fuel 0 s [] with
      | none => none
      | some r =>
        match flushImmediateWork env fuel r.1 with
        | none => none
        | some r2 => some (r2.1, r.2 ++ r2.2, none)

/-- One outside-world interaction with the scheduler: scheduling a callback,
cancelling a handle, or a (guarded) head flush. -/
inductive SchedOp where
  | schedule (cb priorityLevel : Nat) (startTime : Int) (timeoutOpt : Option Int)
  | cancel (handle : Nat)
  | flush

/-- Apply one operation. -/
def applyOp (env : Nat → Option Nat) (s : Sched) : SchedOp → Sched
  | .schedule cb p t topt => (unstable_scheduleCallback s cb p t topt).1
  | .cancel h => unstable_cancelCallback s h
  | .flush => (flushFirstCallback env s).1

/-- The state after a finite interaction sequence, from the empty scheduler. -/
def applyOps (env : Nat → Option Nat) (ops : List SchedOp) : Sched :=
  ops.foldl (applyOp env) initSched

/-- Follow `next` a number of times. -/
def iterNext (s : Sched) : Nat → Option Nat → Option Nat
  | 0, x => x
  | k + 1, x => iterNext s k (x.bind (nextOf s))

/-- Read off the circular list from the head: follow `next` until the walk
returns to `firstCallbackNode` (fuel `fresh` bounds the number of live
nodes). -/
def extractCycleAux (s : Sched) : Nat → Nat → List Nat
  | 0, _ => []
  | fuel + 1, a =>
    a ::
      (match nextOf s a with
       | none => []
       | some b =>
         if s.firstCallbackNode = some b then [] else extractCycleAux s fuel b)

/-- The list of live node ids in cycle order, starting at the head. -/
def extractCycle (s : Sched) : List Nat :=
  match s.firstCallbackNode with
  | none => []
  | some h => extractCycleAux s s.fresh h

/-! ### The representation invariant -/

/-- Adjacency in the circular list: `a.next` is `b` and `b.previous` is `a`. -/
def linkR (s : Sched) (a b : Nat) : Prop :=
  nextOf s a = some b ∧ prevOf s b = some a

/-- The heap links realize the cycle `l`: consecutive elements are adjacent
and the last wraps to the head. -/
def linksOk (s : Sched) : List Nat → Prop
  | [] => True
  | h :: t => List.Chain' (linkR s) ((h :: t) ++ [h])

/-- The representation invariant tying a scheduler state to the abstract
list `l` of live node ids in cycle order: the head pointer is `l`'s head,
ids are distinct and allocated below `fresh`, the links realize the cycle,
expiration times are sorted along the list, and every id outside `l` is
fully detached. -/
structure Inv (s : Sched) (l : List Nat) : Prop where
  first_eq : s.firstCallbackNode = l.head?
  nodup : l.Nodup
  bounded : ∀ a ∈ l, a < s.fresh
  allocated : ∀ a ∈ l, (s.mem a).isSome
  links : linksOk s l
  sorted : l.Pairwise fun a b => nodeExp s a ≤ nodeExp s b
  detached : ∀ a, a ∉ l → nextOf s a = none ∧ prevOf s a = none

/-! ### Heap-write lemmas -/

@[simp] theorem write_mem (s : Sched) (a : Nat) (c : CallbackNode) (b : Nat) :
    (s.write a c).mem b = if b = a then some c else s.mem b := rfl

@[simp] theorem write_first (s : Sched) (a : Nat) (c : CallbackNode) :
    (s.write a c).firstCallbackNode = s.firstCallbackNode := rfl

@[simp] theorem write_fresh (s : Sched) (a : Nat) (c : CallbackNode) :
    (s.write a c).fresh = s.fresh := rfl

@[simp] theorem writeNext_first (s : Sched) (a : Nat) (v : Option Nat) :
    (writeNext s a v).firstCallbackNode = s.firstCallbackNode := by
  unfold writeNext; split <;> rfl

@[simp] theorem writeNext_fresh (s : Sched) (a : Nat) (v : Option Nat) :
    (writeNext s a v).fresh = s.fresh := by
  unfold writeNext; split <;> rfl

@[simp] theorem writePrev_first (s : Sched) (a : Nat) (v : Option Nat) :
    (writePrev s a v).firstCallbackNode = s.firstCallbackNode := by
  unfold writePrev; split <;> rfl

@[simp] theorem writePrev_fresh (s : Sched) (a : Nat) (v : Option Nat) :
    (writePrev s a v).fresh = s.fresh := by
  unfold writePrev; split <;> rfl

@[simp] theorem clearLinks_first (s : Sched) (a : Nat) :
    (clearLinks s a).firstCallbackNode = s.firstCallbackNode := by
  unfold clearLinks; split <;> rfl

@[simp] theorem clearLinks_fresh (s : Sched) (a : Nat) :
    (clearLinks s a).fresh = s.fresh := by
  unfold clearLinks; split <;> rfl

theorem nextOf_writeNext_self (s : Sched) (a : Nat) (v : Option Nat)
    (h : (s.mem a).isSome) : nextOf (writeNext s a v) a = v := by
  unfold writeNext
  rcases hm : s.mem a with _ | c
  · rw [hm] at h; simp at h
  · simp [nextOf]

theorem nextOf_writeNext_ne (s : Sched) (a : Nat) (v : Option Nat) (b : Nat)
    (h : b ≠ a) : nextOf (writeNext s a v) b = nextOf s b := by
  unfold writeNext
  rcases hm : s.mem a with _ | c
  · rfl
  · simp [nextOf, h]

theorem prevOf_writeNext (s : Sched) (a : Nat) (v : Option Nat) (b : Nat) :
    prevOf (writeNext s a v) b = prevOf s b := by
  unfold writeNext
  rcases hm : s.mem a with _ | c
  · rfl
  · by_cases hb : b = a
    · subst hb; simp [prevOf, hm]
    · simp [prevOf, hb]

theorem nodeExp_writeNext (s : Sched) (a : Nat) (v : Option Nat) (b : Nat) :
    nodeExp (writeNext s a v) b = nodeExp s b := by
  unfold writeNext
  rcases hm : s.mem a with _ | c
  · rfl
  · by_cases hb : b = a
    · subst hb; simp [nodeExp, hm]
    · simp [nodeExp, hb]

theorem nodeCb_writeNext (s : Sched) (a : Nat) (v : Option Nat) (b : Nat) :
    nodeCb (writeNext s a v) b = nodeCb s b := by
  unfold writeNext
  rcases hm : s.mem a with _ | c
  · rfl
  · by_cases hb : b = a
    · subst hb; simp [nodeCb, hm]
    · simp [nodeCb, hb]

theorem nodePrio_writeNext (s : Sched) (a : Nat) (v : Option Nat) (b : Nat) :
    nodePrio (writeNext s a v) b = nodePrio s b := by
  unfold writeNext
  rcases hm : s.mem a with _ | c
  · rfl
  · by_cases hb : b = a
    · subst hb; simp [nodePrio, hm]
    · simp [nodePrio, hb]

theorem memIsSome_writeNext (s : Sched) (a : Nat) (v : Option Nat) (b : Nat) :
    ((writeNext s a v).mem b).isSome = (s.mem b).isSome := by
  unfold writeNext
  rcases hm : s.mem a with _ | c
  · rfl
  · by_cases hb : b = a
    · subst hb; simp [hm]
    · simp [hb]

theorem prevOf_writePrev_self (s : Sched) (a : Nat) (v : Option Nat)
    (h : (s.mem a).isSome) : prevOf (writePrev s a v) a = v := by
  unfold writePrev
  rcases hm : s.mem a with _ | c
  · rw [hm] at h; simp at h
  · simp [prevOf]

theorem prevOf_writePrev_ne (s : Sched) (a : Nat) (v : Option Nat) (b : Nat)
    (h : b ≠ a) : prevOf (writePrev s a v) b = prevOf s b := by
  unfold writePrev
  rcases hm : s.mem a with _ | c
  · rfl
  · simp [prevOf, h]

theorem nextOf_writePrev (s : Sched) (a : Nat) (v : Option Nat) (b : Nat) :
    nextOf (writePrev s a v) b = nextOf s b := by
  unfold writePrev
  rcases hm : s.mem a with _ | c
  · rfl
  · by_cases hb : b = a
    · subst hb; simp [nextOf, hm]
    · simp [nextOf, hb]

theorem nodeExp_writePrev (s : Sched) (a : Nat) (v : Option Nat) (b : Nat) :
    nodeExp (writePrev s a v) b = nodeExp s b := by
  unfold writePrev
  rcases hm : s.mem a with _ | c
  · rfl
  · by_cases hb : b = a
    · subst hb; simp [nodeExp, hm]
    · simp [nodeExp, hb]

theorem nodeCb_writePrev (s : Sched) (a : Nat) (v : Option Nat) (b : Nat) :
    nodeCb (writePrev s a v) b = nodeCb s b := by
  unfold writePrev
  rcases hm : s.mem a with _ | c
  · rfl
  · by_cases hb : b = a
    · subst hb; simp [nodeCb, hm]
    · simp [nodeCb, hb]

theorem nodePrio_writePrev (s : Sched) (a : Nat) (v : Option Nat) (b : Nat) :
    nodePrio (writePrev s a v) b = nodePrio s b := by
  unfold writePrev
  rcases hm : s.mem a with _ | c
  · rfl
  · by_cases hb : b = a
    · subst hb; simp [nodePrio, hm]
    · simp [nodePrio, hb]

theorem memIsSome_writePrev (s : Sched) (a : Nat) (v : Option Nat) (b : Nat) :
    ((writePrev s a v).mem b).isSome = (s.mem b).isSome := by
  unfold writePrev
  rcases hm : s.mem a with _ | c
  · rfl
  · by_cases hb : b = a
    · subst hb; simp [hm]
    · simp [hb]

theorem nextOf_clearLinks_self (s : Sched) (a : Nat) :
    nextOf (clearLinks s a) a = none := by
  unfold clearLinks
  rcases hm : s.mem a with _ | c
  · simp [nextOf, hm]
  · simp [nextOf]

theorem prevOf_clearLinks_self (s : Sched) (a : Nat) :
    prevOf (clearLinks s a) a = none := by
  unfold clearLinks
  rcases hm : s.mem a with _ | c
  · simp [prevOf, hm]
  · simp [prevOf]

theorem nextOf_clearLinks_ne (s : Sched) (a b : Nat) (h : b ≠ a) :
    nextOf (clearLinks s a) b = nextOf s b := by
  unfold clearLinks
  rcases hm : s.mem a with _ | c
  · rfl
  · simp [nextOf, h]

theorem prevOf_clearLinks_ne (s : Sched) (a b : Nat) (h : b ≠ a) :
    prevOf (clearLinks s a) b = prevOf s b := by
  unfold clearLinks
  rcases hm : s.mem a with _ | c
  · rfl
  · simp [prevOf, h]

theorem nodeExp_clearLinks (s : Sched) (a b : Nat) :
    nodeExp (clearLinks s a) b = nodeExp s b := by
  unfold clearLinks
  rcases hm : s.mem a with _ | c
  · rfl
  · by_cases hb : b = a
    · subst hb; simp [nodeExp, hm]
    · simp [nodeExp, hb]

theorem nodeCb_clearLinks (s : Sched) (a b : Nat) :
    nodeCb (clearLinks s a) b = nodeCb s b := by
  unfold clearLinks
  rcases hm : s.mem a with _ | c
  · rfl
  · by_cases hb : b = a
    · subst hb; simp [nodeCb, hm]
    · simp [nodeCb, hb]

theorem nodePrio_clearLinks (s : Sched) (a b : Nat) :
    nodePrio (clearLinks s a) b = nodePrio s b := by
  unfold clearLinks
  rcases hm : s.mem a with _ | c
  · rfl
  · by_cases hb : b = a
    · subst hb; simp [nodePrio, hm]
    · simp [nodePrio, hb]

theorem memIsSome_clearLinks (s : Sched) (a b : Nat) :
    ((clearLinks s a).mem b).isSome = (s.mem b).isSome := by
  unfold clearLinks
  rcases hm : s.mem a with _ | c
  · rfl
  · by_cases hb : b = a
    · subst hb; simp [hm]
    · simp [hb]

theorem nextOf_write_self (s : Sched) (a : Nat) (c : CallbackNode) :
    nextOf (s.write a c) a = c.next := by simp [nextOf]

theorem nextOf_write_ne (s : Sched) (a : Nat) (c : CallbackNode) (b : Nat)
    (h : b ≠ a) : nextOf (s.write a c) b = nextOf s b := by simp [nextOf, h]

theorem prevOf_write_self (s : Sched) (a : Nat) (c : CallbackNode) :
    prevOf (s.write a c) a = c.previous := by simp [prevOf]

theorem prevOf_write_ne (s : Sched) (a : Nat) (c : CallbackNode) (b : Nat)
    (h : b ≠ a) : prevOf (s.write a c) b = prevOf s b := by simp [prevOf, h]

theorem nodeExp_write_self (s : Sched) (a : Nat) (c : CallbackNode) :
    nodeExp (s.write a c) a = c.expirationTime := by simp [nodeExp]

theorem nodeExp_write_ne (s : Sched) (a : Nat) (c : CallbackNode) (b : Nat)
    (h : b ≠ a) : nodeExp (s.write a c) b = nodeExp s b := by simp [nodeExp, h]

theorem nodeCb_write_self (s : Sched) (a : Nat) (c : CallbackNode) :
    nodeCb (s.write a c) a = c.callback := by simp [nodeCb]

theorem nodeCb_write_ne (s : Sched) (a : Nat) (c : CallbackNode) (b : Nat)
    (h : b ≠ a) : nodeCb (s.write a c) b = nodeCb s b := by simp [nodeCb, h]

theorem nodePrio_write_self (s : Sched) (a : Nat) (c : CallbackNode) :
    nodePrio (s.write a c) a = c.priorityLevel := by simp [nodePrio]

theorem nodePrio_write_ne (s : Sched) (a : Nat) (c : CallbackNode) (b : Nat)
    (h : b ≠ a) : nodePrio (s.write a c) b = nodePrio s b := by simp [nodePrio, h]

theorem memIsSome_write_ne (s : Sched) (a : Nat) (c : CallbackNode) (b : Nat)
    (h : b ≠ a) : ((s.write a c).mem b).isSome = (s.mem b).isSome := by simp [h]

@[simp] theorem nextOf_setFirst (s : Sched) (x : Option Nat) (b : Nat) :
    nextOf { s with firstCallbackNode := x } b = nextOf s b := rfl

@[simp] theorem prevOf_setFirst (s : Sched) (x : Option Nat) (b : Nat) :
    prevOf { s with firstCallbackNode := x } b = prevOf s b := rfl

@[simp] theorem nodeExp_setFirst (s : Sched) (x : Option Nat) (b : Nat) :
    nodeExp { s with firstCallbackNode := x } b = nodeExp s b := rfl

@[simp] theorem nodeCb_setFirst (s : Sched) (x : Option Nat) (b : Nat) :
    nodeCb { s with firstCallbackNode := x } b = nodeCb s b := rfl

@[simp] theorem nodePrio_setFirst (s : Sched) (x : Option Nat) (b : Nat) :
    nodePrio { s with firstCallbackNode := x } b = nodePrio s b := rfl

@[simp] theorem nextOf_setFresh (s : Sched) (n : Nat) (b : Nat) :
    nextOf { s with fresh := n } b = nextOf s b := rfl

@[simp] theorem prevOf_setFresh (s : Sched) (n : Nat) (b : Nat) :
    prevOf { s with fresh := n } b = prevOf s b := rfl

@[simp] theorem nodeExp_setFresh (s : Sched) (n : Nat) (b : Nat) :
    nodeExp { s with fresh := n } b = nodeExp s b := rfl

@[simp] theorem nodeCb_setFresh (s : Sched) (n : Nat) (b : Nat) :
    nodeCb { s with fresh := n } b = nodeCb s b := rfl

@[simp] theorem nodePrio_setFresh (s : Sched) (n : Nat) (b : Nat) :
    nodePrio { s with fresh := n } b = nodePrio s b := rfl

/-! ### Chain and cycle facts -/

theorem chain_adj {α : Type} {R : α → α → Prop} :
    ∀ (P : List α) {a b : α} (Q : List α),
      List.Chain' R (P ++ a :: b :: Q) → R a b := by
  intro P
  induction P with
  | nil => intro a b Q h; exact (List.chain'_cons.mp h).1
  | cons p P' ih => intro a b Q h; exact ih Q h.tail

theorem chain_imp_mem {α : Type} {R S : α → α → Prop} :
    ∀ {L : List α}, (∀ a ∈ L, ∀ b ∈ L, R a b → S a b) → L.Chain' R → L.Chain' S := by
  intro L
  induction L with
  | nil => intro _ _; exact List.chain'_nil
  | cons x t ih =>
    intro h hc
    cases t with
    | nil => exact List.chain'_singleton x
    | cons y t' =>
      rw [List.chain'_cons] at hc ⊢
      exact ⟨h x (by simp) y (by simp) hc.1,
        ih (fun a ha b hb => h a (by simp [ha]) b (by simp [hb])) hc.2⟩

/-- Consecutive elements of the cycle list are linked. -/
theorem inv_adj_mid {s : Sched} {l P Q : List Nat} {a b : Nat}
    (hInv : Inv s l) (hsplit : l = P ++ a :: b :: Q) : linkR s a b := by
  rcases l with _ | ⟨x, t⟩
  · simp at hsplit
  · have hlk : List.Chain' (linkR s) ((x :: t) ++ [x]) := hInv.links
    rw [hsplit] at hlk
    have he : (P ++ a :: b :: Q) ++ [x] = P ++ a :: b :: (Q ++ [x]) := by simp
    rw [he] at hlk
    exact chain_adj P (Q ++ [x]) hlk

/-- The last element of the cycle list links back to the head. -/
theorem inv_adj_wrap {s : Sched} {l P : List Nat} {a h : Nat}
    (hInv : Inv s l) (hh : l.head? = some h) (hsplit : l = P ++ [a]) :
    linkR s a h := by
  rcases l with _ | ⟨x, t⟩
  · simp at hh
  · obtain rfl : x = h := by simpa using hh
    have hlk : List.Chain' (linkR s) ((x :: t) ++ [x]) := hInv.links
    rw [hsplit] at hlk
    have he : (P ++ [a]) ++ [x] = P ++ a :: x :: ([] : List Nat) := by simp
    rw [he] at hlk
    exact chain_adj P [] hlk

/-- Every member of the cycle list has a linked successor in the list. -/
theorem inv_next_in_cycle {s : Sched} {l : List Nat} (hInv : Inv s l) {a : Nat}
    (ha : a ∈ l) : ∃ b ∈ l, linkR s a b := by
  obtain ⟨P, Q, rfl⟩ := List.append_of_mem ha
  cases Q with
  | nil =>
    rcases hh : (P ++ [a]).head? with _ | h
    · simp at hh
    · exact ⟨h, List.mem_of_mem_head? (by simp [hh]),
        inv_adj_wrap hInv hh rfl⟩
  | cons b Q' => exact ⟨b, by simp, inv_adj_mid hInv rfl⟩

/-- Every member of the cycle list has a linked predecessor in the list. -/
theorem inv_prev_in_cycle {s : Sched} {l : List Nat} (hInv : Inv s l) {b : Nat}
    (hb : b ∈ l) : ∃ a ∈ l, linkR s a b := by
  obtain ⟨P, Q, rfl⟩ := List.append_of_mem hb
  cases P with
  | nil =>
    simp only [List.nil_append] at hInv ⊢
    have hne : b :: Q ≠ [] := by simp
    have hsplit : b :: Q = (b :: Q).dropLast ++ [(b :: Q).getLast hne] :=
      (List.dropLast_append_getLast hne).symm
    exact ⟨(b :: Q).getLast hne, List.getLast_mem hne,
      inv_adj_wrap hInv rfl hsplit⟩
  | cons p P' =>
    have hne : p :: P' ≠ [] := by simp
    have hsplit : (p :: P') ++ b :: Q
        = (p :: P').dropLast ++ (p :: P').getLast hne :: b :: Q := by
      conv_lhs => rw [← List.dropLast_append_getLast hne]
      simp
    exact ⟨(p :: P').getLast hne,
      List.mem_append_left _ (List.getLast_mem hne),
      inv_adj_mid hInv hsplit⟩

/-- Under the invariant, liveness is membership in the cycle list. -/
theorem inv_isLive_iff {s : Sched} {l : List Nat} (hInv : Inv s l) (a : Nat) :
    isLive s a ↔ a ∈ l := by
  constructor
  · intro hlive
    by_contra hna
    exact hlive (hInv.detached a hna).1
  · intro ha
    obtain ⟨b, _, hab⟩ := inv_next_in_cycle hInv ha
    simp [isLive, hab.1]

/-- Distinct naturals below `n` number at most `n`. -/
theorem nodup_bounded_length {l : List Nat} {n : Nat} (hnd : l.Nodup)
    (hb : ∀ a ∈ l, a < n) : l.length ≤ n := by
  classical
  have h1 : l.toFinset ⊆ Finset.range n := by
    intro a ha
    simp only [List.mem_toFinset] at ha
    simp [hb a ha]
  have h2 := Finset.card_le_card h1
  rwa [List.toFinset_card_of_nodup hnd, Finset.card_range] at h2

/-- The insertion walk scans the cycle suffix in order: started at `q` where
`l = P ++ q :: Q'`, with enough fuel, it returns the first node from `q` on
whose expiration time satisfies `stop`, and `none` when none does (the walk
then comes back around to the head and stops). -/
theorem findInsertionPoint_go {s : Sched} {l : List Nat} (hInv : Inv s l)
    {h : Nat} (hh : l.head? = some h) (stop : Int → Bool) :
    ∀ (Q' P : List Nat) (q : Nat) (fuel : Nat),
      l = P ++ q :: Q' → Q'.length < fuel →
      findInsertionPoint s stop fuel q
        = ((q :: Q').dropWhile fun a => !stop (nodeExp s a)).head? := by
  intro Q'
  induction Q' with
  | nil =>
    intro P q fuel hsplit hfuel
    obtain ⟨f, rfl⟩ : ∃ f, fuel = f + 1 := ⟨fuel - 1, by omega⟩
    have hql : q ∈ l := by rw [hsplit]; simp
    have hmem : (s.mem q).isSome := hInv.allocated q hql
    rcases hm : s.mem q with _ | c
    · rw [hm] at hmem; simp at hmem
    · have hexp : nodeExp s q = c.expirationTime := by simp [nodeExp, hm]
      by_cases hstop : stop c.expirationTime
      · simp [findInsertionPoint, hm, hstop, List.dropWhile_cons, hexp]
      · have hwrap : linkR s q h := inv_adj_wrap hInv hh hsplit
        have hnext : c.next = some h := by
          have h1 := hwrap.1
          rw [nextOf, hm] at h1
          simpa using h1
        simp [findInsertionPoint, hm, hstop, hnext, hInv.first_eq, hh,
          List.dropWhile_cons, hexp]
  | cons q' Q'' ih =>
    intro P q fuel hsplit hfuel
    obtain ⟨f, rfl⟩ : ∃ f, fuel = f + 1 := ⟨fuel - 1, by omega⟩
    have hql : q ∈ l := by rw [hsplit]; simp
    have hmem : (s.mem q).isSome := hInv.allocated q hql
    rcases hm : s.mem q with _ | c
    · rw [hm] at hmem; simp at hmem
    · have hexp : nodeExp s q = c.expirationTime := by simp [nodeExp, hm]
      by_cases hstop : stop c.expirationTime
      · simp [findInsertionPoint, hm, hstop, List.dropWhile_cons, hexp]
      · have hmid : linkR s q q' := inv_adj_mid hInv hsplit
        have hnext : c.next = some q' := by
          have h1 := hmid.1
          rw [nextOf, hm] at h1
          simpa using h1
        have hne : h ≠ q' := by
          rcases P with _ | ⟨p, P''⟩
          · obtain rfl : h = q := by
              rw [hsplit] at hh
              simpa using hh.symm
            have := hInv.nodup
            rw [hsplit] at this
            simp only [List.nil_append, List.nodup_cons] at this
            intro hc
            exact this.1 (by simp [hc])
          · obtain rfl : h = p := by
              rw [hsplit] at hh
              simpa using hh.symm
            have := hInv.nodup
            rw [hsplit] at this
            simp only [List.cons_append, List.nodup_cons] at this
            intro hc
            exact this.1 (by simp [hc])
        have hfirst : (s.firstCallbackNode = some q') = False := by
          simp [hInv.first_eq, hh, hne]
        have hrec := ih (P ++ [q]) q' f (by rw [hsplit]; simp) (by
          simp only [List.length_cons] at hfuel
          omega)
        simp only [findInsertionPoint, hm, hstop, Bool.false_eq_true, if_false,
          hnext, hfirst, hrec]
        simp [List.dropWhile_cons, hexp, hstop]

/-- The two insertion walks, with fuel `fresh`, find the head of the
below-threshold suffix of the whole cycle list. -/
theorem findInsertionPoint_spec {s : Sched} {l : List Nat} {h : Nat}
    (hInv : Inv s l) (hh : s.firstCallbackNode = some h) (stop : Int → Bool) :
    findInsertionPoint s stop s.fresh h
      = (l.dropWhile fun a => !stop (nodeExp s a)).head? := by
  have hh' : l.head? = some h := by rw [← hInv.first_eq]; exact hh
  rcases hl : l with _ | ⟨x, t⟩
  · rw [hl] at hh'; simp at hh'
  · obtain rfl : x = h := by rw [hl] at hh'; simpa using hh'
    have hlen : l.length ≤ s.fresh := nodup_bounded_length hInv.nodup hInv.bounded
    rw [hl] at hlen
    have := findInsertionPoint_go hInv (by rw [hl] at hh' ⊢; exact hh') stop t [] x
      s.fresh (by rw [hl]; simp) (by simp at hlen; omega)
    exact this


/-! ### Splice helpers for the pointer surgeries -/

/-- Transfer a chain along a relation implication that needs only the
adjacent splits of the list. -/
theorem chain_congr_adj {α : Type} {R S : α → α → Prop} :
    ∀ {L : List α},
      (∀ (P : List α) (a b : α) (Q : List α), L = P ++ a :: b :: Q → R a b → S a b) →
      L.Chain' R → L.Chain' S := by
  intro L
  induction L with
  | nil => intro _ _; exact List.chain'_nil
  | cons x t ih =>
    intro h hc
    cases t with
    | nil => exact List.chain'_singleton x
    | cons y t' =>
      rw [List.chain'_cons] at hc ⊢
      refine ⟨h [] x y t' rfl hc.1, ih (fun P a b Q hPQ hr => ?_) hc.2⟩
      exact h (x :: P) a b Q (by rw [hPQ]; rfl) hr

/-- In a duplicate-free list, the first element of an adjacent pair is not
the last element of the list. -/
theorem adj_fst_ne_getLast {l : List Nat} (hnd : l.Nodup) {P : List Nat}
    {a b : Nat} {Q : List Nat} (hsplit : l = P ++ a :: b :: Q) {z : Nat}
    (hz : l.getLast? = some z) : a ≠ z := by
  intro hc
  subst hc
  have hmid : a ∉ P ++ b :: Q := by
    have h2 := hnd
    rw [hsplit, List.nodup_middle, List.nodup_cons] at h2
    exact h2.1
  apply hmid
  apply List.mem_append_right
  have hget : l.getLast? = (b :: Q).getLast? := by
    rw [hsplit]
    have he : P ++ a :: b :: Q = (P ++ [a]) ++ b :: Q := by simp
    rw [he]
    exact List.getLast?_append_of_ne_nil _ (by simp)
  rw [hget] at hz
  exact List.mem_of_mem_getLast? (by simp [hz])

/-- In a duplicate-free list, the second element of an adjacent pair is not
the head. -/
theorem adj_snd_ne_head {l : List Nat} (hnd : l.Nodup) {P : List Nat}
    {a b : Nat} {Q : List Nat} (hsplit : l = P ++ a :: b :: Q) {h : Nat}
    (hh : l.head? = some h) : b ≠ h := by
  intro hc
  subst hc
  cases P with
  | nil =>
    rw [hsplit] at hh hnd
    simp only [List.nil_append, List.head?_cons, Option.some.injEq] at hh
    simp only [List.nil_append, List.nodup_cons] at hnd
    exact hnd.1 (by simp [hh])
  | cons p P2 =>
    rw [hsplit] at hh hnd
    simp only [List.cons_append, List.head?_cons, Option.some.injEq] at hh
    simp only [List.cons_append, List.nodup_cons] at hnd
    exact hnd.1 (by simp [hh])

/-- The head of a non-empty `dropWhile` residue fails the predicate. -/
theorem dropWhile_head_not {α : Type} (p : α → Bool) :
    ∀ (l : List α) {y : α} {ys : List α}, l.dropWhile p = y :: ys → p y = false := by
  intro l
  induction l with
  | nil => intro y ys h; simp at h
  | cons x t ih =>
    intro y ys h
    rw [List.dropWhile_cons] at h
    by_cases hx : p x = true
    · rw [if_pos hx] at h
      exact ih h
    · rw [if_neg hx] at h
      cases h
      simpa using hx

/-- Field view of the insertion surgery: after `previous.next =
next.previous = newNode` and writing the fresh record, every pointer reads
as before except at `P` (its `next` is the new node), `N` (its `previous` is
the new node) and the new node itself; data fields change nowhere else. -/
theorem splice_fields (s s1 : Sched) (hmem : s1.mem = s.mem)
    (P N id : Nat) (rec : CallbackNode) (hP : (s.mem P).isSome)
    (hN : (s.mem N).isSome) (hidP : id ≠ P) (hidN : id ≠ N) (x : Nat) :
    (nextOf ((writePrev (writeNext s1 P (some id)) N (some id)).write id rec) x
        = if x = id then rec.next else if x = P then some id else nextOf s x) ∧
      (prevOf ((writePrev (writeNext s1 P (some id)) N (some id)).write id rec) x
        = if x = id then rec.previous else if x = N then some id else prevOf s x) ∧
      (nodeExp ((writePrev (writeNext s1 P (some id)) N (some id)).write id rec) x
        = if x = id then rec.expirationTime else nodeExp s x) ∧
      (nodeCb ((writePrev (writeNext s1 P (some id)) N (some id)).write id rec) x
        = if x = id then rec.callback else nodeCb s x) ∧
      (nodePrio ((writePrev (writeNext s1 P (some id)) N (some id)).write id rec) x
        = if x = id then rec.priorityLevel else nodePrio s x) ∧
      ((((writePrev (writeNext s1 P (some id)) N (some id)).write id rec).mem x).isSome
        = if x = id then true else (s.mem x).isSome) := by
  have hn1 : ∀ y, nextOf s1 y = nextOf s y := by intro y; simp [nextOf, hmem]
  have hp1 : ∀ y, prevOf s1 y = prevOf s y := by intro y; simp [prevOf, hmem]
  have he1 : ∀ y, nodeExp s1 y = nodeExp s y := by intro y; simp [nodeExp, hmem]
  have hc1 : ∀ y, nodeCb s1 y = nodeCb s y := by intro y; simp [nodeCb, hmem]
  have hq1 : ∀ y, nodePrio s1 y = nodePrio s y := by intro y; simp [nodePrio, hmem]
  have hs1 : ∀ y, (s1.mem y).isSome = (s.mem y).isSome := by intro y; simp [hmem]
  have hPmem : (s1.mem P).isSome := by rw [hmem]; exact hP
  by_cases hx : x = id
  · subst hx
    refine ⟨?_, ?_, ?_, ?_, ?_, ?_⟩
    · rw [nextOf_write_self]; simp
    · rw [prevOf_write_self]; simp
    · rw [nodeExp_write_self]; simp
    · rw [nodeCb_write_self]; simp
    · rw [nodePrio_write_self]; simp
    · simp
  · refine ⟨?_, ?_, ?_, ?_, ?_, ?_⟩
    · rw [nextOf_write_ne _ _ _ _ hx, nextOf_writePrev]
      by_cases hxP : x = P
      · subst hxP
        rw [nextOf_writeNext_self _ _ _ hPmem]
        simp [hx]
      · rw [nextOf_writeNext_ne _ _ _ _ hxP, hn1]
        simp [hx, hxP]
    · rw [prevOf_write_ne _ _ _ _ hx]
      by_cases hxN : x = N
      · subst hxN
        rw [prevOf_writePrev_self]
        · simp [hx]
        · rw [memIsSome_writeNext, hmem]
          exact hN
      · rw [prevOf_writePrev_ne _ _ _ _ hxN, prevOf_writeNext, hp1]
        simp [hx, hxN]
    · rw [nodeExp_write_ne _ _ _ _ hx, nodeExp_writePrev, nodeExp_writeNext, he1]
      simp [hx]
    · rw [nodeCb_write_ne _ _ _ _ hx, nodeCb_writePrev, nodeCb_writeNext, hc1]
      simp [hx]
    · rw [nodePrio_write_ne _ _ _ _ hx, nodePrio_writePrev, nodePrio_writeNext, hq1]
      simp [hx]
    · rw [memIsSome_write_ne _ _ _ _ hx, memIsSome_writePrev, memIsSome_writeNext, hs1]
      simp [hx]

/-- `linksOk` unfolded at a known head. -/
theorem linksOk_iff {s : Sched} {l : List Nat} {h : Nat} (hh : l.head? = some h) :
    linksOk s l ↔ List.Chain' (linkR s) (l ++ [h]) := by
  cases l with
  | nil => simp at hh
  | cons x t =>
    obtain rfl : x = h := by simpa using hh
    exact Iff.rfl

/-- Inserting a fresh node `id` between `P` and `N` — the junction of the
split `l = A ++ B` — in a state `s4` whose pointer fields read as `s`'s
except at `P.next`, `N.previous` and the new record, re-establishes the
invariant for the cycle `A ++ id :: B`. -/
theorem splice_inv {s s4 : Sched} {l A B : List Nat} {id P N : Nat} {e : Int}
    (hInv : Inv s l) (hl : l = A ++ B) (hlne : l ≠ [])
    (hid : ∀ a ∈ l, a < id)
    (hfresh4 : s4.fresh = id + 1)
    (hfirst4 : s4.firstCallbackNode = (A ++ id :: B).head?)
    (hnext4 : ∀ x, nextOf s4 x
      = if x = id then some N else if x = P then some id else nextOf s x)
    (hprev4 : ∀ x, prevOf s4 x
      = if x = id then some P else if x = N then some id else prevOf s x)
    (hexp4 : ∀ x, nodeExp s4 x = if x = id then e else nodeExp s x)
    (hsome4 : ∀ x, (s4.mem x).isSome = (if x = id then true else (s.mem x).isSome))
    (hPA : A ≠ [] → A.getLast? = some P)
    (hPB : A = [] → B.getLast? = some P)
    (hNB : B ≠ [] → B.head? = some N)
    (hNA : B = [] → A.head? = some N)
    (hPmem : P ∈ l) (hNmem : N ∈ l)
    (hAle : ∀ a ∈ A, nodeExp s a ≤ e)
    (hBge : ∀ b ∈ B, e ≤ nodeExp s b) :
    Inv s4 (A ++ id :: B) := by
  have hidl : id ∉ l := fun hmem => absurd (hid id hmem) (by omega)
  have hndl : l.Nodup := hInv.nodup
  have hdisj : A.Disjoint B := List.disjoint_of_nodup_append (hl ▸ hndl)
  have hndA : A.Nodup := ((List.nodup_append).mp (hl ▸ hndl)).1
  have hndB : B.Nodup := ((List.nodup_append).mp (hl ▸ hndl)).2.1
  obtain ⟨hd0, t0, hlt⟩ : ∃ hd0 t0, l = hd0 :: t0 := by
    rcases l with _ | ⟨y, t⟩
    · exact absurd rfl hlne
    · exact ⟨y, t, rfl⟩
  have hhd0 : l.head? = some hd0 := by rw [hlt]; rfl
  have hC : List.Chain' (linkR s) (l ++ [hd0]) :=
    (linksOk_iff hhd0).mp hInv.links
  have hCl : List.Chain' (linkR s) l := ((List.chain'_append).mp hC).1
  have hwrap_old : ∀ z, l.getLast? = some z → linkR s z hd0 := by
    intro z hz
    have := ((List.chain'_append).mp hC).2.2
    exact this z (by simp [hz]) hd0 (by simp)
  have hCAB := (List.chain'_append).mp (hl ▸ hCl)
  have hCA : List.Chain' (linkR s) A := hCAB.1
  have hCB : List.Chain' (linkR s) B := hCAB.2.1
  -- pointer facts for the bridges
  have hPid : P ≠ id := fun hc => hidl (hc ▸ hPmem)
  have hNid : N ≠ id := fun hc => hidl (hc ▸ hNmem)
  have hlinkPid : linkR s4 P id := by
    constructor
    · rw [hnext4 P, if_neg hPid, if_pos rfl]
    · rw [hprev4 id, if_pos rfl]
  have hlinkidN : linkR s4 id N := by
    constructor
    · rw [hnext4 id, if_pos rfl]
    · rw [hprev4 N, if_neg hNid, if_pos rfl]
  -- transfer of the interior chains
  have hCA4 : List.Chain' (linkR s4) A := by
    refine chain_congr_adj (fun Pf a b Qf hsp hr => ?_) hCA
    have hAne : A ≠ [] := by rw [hsp]; simp
    have haA : a ∈ A := by rw [hsp]; simp
    have hbA : b ∈ A := by rw [hsp]; simp
    have haid : a ≠ id := fun hc => hidl (hc ▸ (hl ▸ List.mem_append_left B haA))
    have hbid : b ≠ id := fun hc => hidl (hc ▸ (hl ▸ List.mem_append_left B hbA))
    have haP : a ≠ P := adj_fst_ne_getLast hndA hsp (hPA hAne)
    have hbN : b ≠ N := by
      by_cases hB : B = []
      · exact adj_snd_ne_head hndA hsp (hNA hB)
      · intro hc
        have hNB2 : N ∈ B := List.mem_of_mem_head? (by simp [hNB hB])
        exact hdisj (hc ▸ hbA) hNB2
    exact ⟨by rw [hnext4 a, if_neg haid, if_neg haP]; exact hr.1,
      by rw [hprev4 b, if_neg hbid, if_neg hbN]; exact hr.2⟩
  have hCB4 : List.Chain' (linkR s4) B := by
    refine chain_congr_adj (fun Pf a b Qf hsp hr => ?_) hCB
    have hBne : B ≠ [] := by rw [hsp]; simp
    have haB : a ∈ B := by rw [hsp]; simp
    have hbB : b ∈ B := by rw [hsp]; simp
    have haid : a ≠ id := fun hc => hidl (hc ▸ (hl ▸ List.mem_append_right A haB))
    have hbid : b ≠ id := fun hc => hidl (hc ▸ (hl ▸ List.mem_append_right A hbB))
    have haP : a ≠ P := by
      by_cases hA : A = []
      · exact adj_fst_ne_getLast hndB hsp (hPB hA)
      · intro hc
        have hPA2 : P ∈ A := List.mem_of_mem_getLast? (by simp [hPA hA])
        exact hdisj hPA2 (hc ▸ haB)
    have hbN : b ≠ N := adj_snd_ne_head hndB hsp (hNB hBne)
    exact ⟨by rw [hnext4 a, if_neg haid, if_neg haP]; exact hr.1,
      by rw [hprev4 b, if_neg hbid, if_neg hbN]; exact hr.2⟩
  refine ⟨hfirst4, ?_, ?_, ?_, ?_, ?_, ?_⟩
  · rw [List.nodup_middle, List.nodup_cons]
    exact ⟨hl ▸ hidl, hl ▸ hndl⟩
  · intro x hx
    rw [hfresh4]
    rcases List.mem_append.mp hx with hxa | hxb
    · exact Nat.lt_succ_of_lt (hid x (hl ▸ List.mem_append_left B hxa))
    · rcases List.mem_cons.mp hxb with rfl | hxb2
      · omega
      · exact Nat.lt_succ_of_lt (hid x (hl ▸ List.mem_append_right A hxb2))
  · intro x hx
    rw [hsome4 x]
    rcases List.mem_append.mp hx with hxa | hxb
    · have hxl : x ∈ l := hl ▸ List.mem_append_left B hxa
      rw [if_neg (fun hc : x = id => hidl (hc ▸ hxl))]
      exact hInv.allocated x hxl
    · rcases List.mem_cons.mp hxb with rfl | hxb2
      · simp
      · have hxl : x ∈ l := hl ▸ List.mem_append_right A hxb2
        rw [if_neg (fun hc : x = id => hidl (hc ▸ hxl))]
        exact hInv.allocated x hxl
  · -- linksOk for the new cycle
    by_cases hA : A = []
    · by_cases hB : B = []
      · exact absurd (by simp [hl, hA, hB]) hlne
      · obtain ⟨y, B', hBy⟩ : ∃ y B', B = y :: B' := by
          rcases B with _ | ⟨y, B'⟩
          · exact absurd rfl hB
          · exact ⟨y, B', rfl⟩
        have hyN : y = N := by
          have := hNB hB
          rw [hBy] at this
          simpa using this
        subst hA
        simp only [List.nil_append]
        rw [linksOk_iff (show (id :: B).head? = some id from rfl), List.chain'_append]
        refine ⟨?_, List.chain'_singleton id, ?_⟩
        · rw [hBy, List.chain'_cons]
          refine ⟨?_, by rw [← hBy]; exact hCB4⟩
          rw [hyN]
          exact hlinkidN
        · intro x hx y2 hy2
          have hgl : (id :: B).getLast? = B.getLast? := by
            have he2 : id :: B = [id] ++ B := rfl
            rw [he2]
            exact List.getLast?_append_of_ne_nil _ hB
          rw [hgl, hPB rfl] at hx
          simp only [Option.mem_def, List.head?_cons, Option.some.injEq] at hx hy2
          subst hx
          subst hy2
          exact hlinkPid
    · obtain ⟨a0, A', hAa⟩ : ∃ a0 A', A = a0 :: A' := by
        rcases A with _ | ⟨a0, A'⟩
        · exact absurd rfl hA
        · exact ⟨a0, A', rfl⟩
      rw [linksOk_iff (show (A ++ id :: B).head? = some a0 by rw [hAa]; rfl)]
      by_cases hB : B = []
      · have hNa0 : N = a0 := by
          have := hNA hB
          rw [hAa] at this
          simpa using this.symm
        subst hB
        have he : (A ++ id :: ([] : List Nat)) ++ [a0] = A ++ [id, a0] := by simp
        rw [he, List.chain'_append]
        refine ⟨hCA4, ?_, ?_⟩
        · rw [List.chain'_cons]
          refine ⟨?_, List.chain'_singleton a0⟩
          rw [← hNa0]
          exact hlinkidN
        · intro x hx y2 hy2
          rw [hPA hA] at hx
          simp only [Option.mem_def, List.head?_cons, Option.some.injEq] at hx hy2
          subst hx
          subst hy2
          exact hlinkPid
      · obtain ⟨y, B', hBy⟩ : ∃ y B', B = y :: B' := by
          rcases B with _ | ⟨y, B'⟩
          · exact absurd rfl hB
          · exact ⟨y, B', rfl⟩
        have hyN : y = N := by
          have := hNB hB
          rw [hBy] at this
          simpa using this
        have he : (A ++ id :: B) ++ [a0] = A ++ (id :: (B ++ [a0])) := by simp
        rw [he, List.chain'_append]
        refine ⟨hCA4, ?_, ?_⟩
        · rw [hBy]
          simp only [List.cons_append]
          rw [List.chain'_cons]
          constructor
          · rw [hyN]
            exact hlinkidN
          · rw [← List.cons_append, ← hBy, List.chain'_append]
            refine ⟨hCB4, List.chain'_singleton a0, ?_⟩
            intro x hx y2 hy2
            simp only [Option.mem_def, List.head?_cons, Option.some.injEq] at hy2
            subst hy2
            have hgl : l.getLast? = B.getLast? := by
              rw [hl]
              exact List.getLast?_append_of_ne_nil _ hB
            have hxl : l.getLast? = some x := by rw [hgl]; exact hx
            have hh0 : hd0 = a0 := by
              rw [hl, hAa] at hhd0
              simpa using hhd0.symm
            have hold : linkR s x a0 := hh0 ▸ hwrap_old x hxl
            have hxB : x ∈ B := List.mem_of_mem_getLast? hx
            have hxid : x ≠ id := fun hc =>
              hidl (hc ▸ (hl ▸ List.mem_append_right _ hxB))
            have hxP : x ≠ P := by
              intro hc
              have hPA2 : P ∈ A := List.mem_of_mem_getLast? (by simp [hPA hA])
              exact hdisj hPA2 (hc ▸ hxB)
            have ha0A : a0 ∈ A := by rw [hAa]; simp
            have ha0id : a0 ≠ id := fun hc =>
              hidl (hc ▸ (hl ▸ List.mem_append_left _ ha0A))
            have ha0N : a0 ≠ N := by
              intro hc
              have hNB2 : N ∈ B := List.mem_of_mem_head? (by simp [hNB hB])
              exact hdisj (hc ▸ ha0A) hNB2
            constructor
            · rw [hnext4 x, if_neg hxid, if_neg hxP]
              exact hold.1
            · rw [hprev4 a0, if_neg ha0id, if_neg ha0N]
              exact hold.2
        · intro x hx y2 hy2
          rw [hPA hA] at hx
          simp only [Option.mem_def, List.head?_cons, Option.some.injEq] at hx hy2
          subst hx
          subst hy2
          exact hlinkPid
  · -- sortedness
    have hsorted := hInv.sorted
    rw [hl] at hsorted
    obtain ⟨hsA, hsB, hsX⟩ := (List.pairwise_append).mp hsorted
    rw [List.pairwise_append]
    refine ⟨?_, ?_, ?_⟩
    · refine hsA.imp_of_mem (fun ha hb hr => ?_)
      rename_i a b
      have haid : a ≠ id := fun hc => hidl (hc ▸ (hl ▸ List.mem_append_left B ha))
      have hbid : b ≠ id := fun hc => hidl (hc ▸ (hl ▸ List.mem_append_left B hb))
      rw [hexp4 a, hexp4 b, if_neg haid, if_neg hbid]
      exact hr
    · rw [List.pairwise_cons]
      constructor
      · intro b hb
        have hbid : b ≠ id := fun hc => hidl (hc ▸ (hl ▸ List.mem_append_right A hb))
        rw [hexp4 id, hexp4 b, if_pos rfl, if_neg hbid]
        exact hBge b hb
      · refine hsB.imp_of_mem (fun ha hb hr => ?_)
        rename_i a b
        have haid : a ≠ id := fun hc => hidl (hc ▸ (hl ▸ List.mem_append_right A ha))
        have hbid : b ≠ id := fun hc => hidl (hc ▸ (hl ▸ List.mem_append_right A hb))
        rw [hexp4 a, hexp4 b, if_neg haid, if_neg hbid]
        exact hr
    · intro a ha b hb
      have haid : a ≠ id := fun hc => hidl (hc ▸ (hl ▸ List.mem_append_left B ha))
      rcases List.mem_cons.mp hb with rfl | hb2
      · rw [hexp4 a, hexp4 b, if_neg haid, if_pos rfl]
        exact hAle a ha
      · have hbid : b ≠ id := fun hc => hidl (hc ▸ (hl ▸ List.mem_append_right A hb2))
        rw [hexp4 a, hexp4 b, if_neg haid, if_neg hbid]
        exact hsX a ha b hb2
  · -- everything outside the new cycle is detached
    intro x hx
    have hxid : x ≠ id := fun hc => hx (hc ▸ (by simp))
    have hxl : x ∉ l := by
      rw [hl]
      intro hc
      rcases List.mem_append.mp hc with h1 | h2
      · exact hx (List.mem_append_left _ h1)
      · exact hx (List.mem_append_right _ (List.mem_cons_of_mem _ h2))
    have hxP : x ≠ P := fun hc => hxl (hc ▸ hPmem)
    have hxN : x ≠ N := fun hc => hxl (hc ▸ hNmem)
    obtain ⟨hn, hp⟩ := hInv.detached x hxl
    constructor
    · rw [hnext4 x, if_neg hxid, if_neg hxP]
      exact hn
    · rw [hprev4 x, if_neg hxid, if_neg hxN]
      exact hp

/-- `splice_fields` and `splice_inv` packaged for the non-empty-list branch
of `insertCallbackNode`: writing the junction pointers and the fresh record
yields the invariant and leaves every other node's data untouched. -/
theorem insert_branch_spec {s : Sched} {l A B : List Nat} (hInv : Inv s l)
    (hl : l = A ++ B) (hlne : l ≠ []) (P N cb prio : Nat) (e : Int)
    (hPA : A ≠ [] → A.getLast? = some P)
    (hPB : A = [] → B.getLast? = some P)
    (hNB : B ≠ [] → B.head? = some N)
    (hNA : B = [] → A.head? = some N)
    (hPmem : P ∈ l) (hNmem : N ∈ l)
    (hAle : ∀ a ∈ A, nodeExp s a ≤ e)
    (hBge : ∀ b ∈ B, e ≤ nodeExp s b)
    (s1 : Sched) (hmem1 : s1.mem = s.mem) (hfresh1 : s1.fresh = s.fresh + 1)
    (hfirst1 : s1.firstCallbackNode = (A ++ s.fresh :: B).head?)
    (s4 : Sched)
    (hs4 : s4 = (writePrev (writeNext s1 P (some s.fresh)) N (some s.fresh)).write
      s.fresh ⟨cb, prio, e, some N, some P⟩) :
    Inv s4 (A ++ s.fresh :: B) ∧ s4.fresh = s.fresh + 1 ∧
      (∀ b, b ≠ s.fresh → nodeExp s4 b = nodeExp s b ∧ nodeCb s4 b = nodeCb s b ∧
        nodePrio s4 b = nodePrio s b) ∧
      nodeExp s4 s.fresh = e ∧ nodeCb s4 s.fresh = cb ∧
      nodePrio s4 s.fresh = prio := by
  have hid : ∀ a ∈ l, a < s.fresh := hInv.bounded
  have hidP : s.fresh ≠ P := fun hc => absurd (hid P hPmem) (by omega)
  have hidN : s.fresh ≠ N := fun hc => absurd (hid N hNmem) (by omega)
  have hfields := fun x => splice_fields s s1 hmem1 P N s.fresh
    ⟨cb, prio, e, some N, some P⟩ (hInv.allocated P hPmem)
    (hInv.allocated N hNmem) hidP hidN x
  rw [← hs4] at hfields
  have hnext4 : ∀ x, nextOf s4 x
      = if x = s.fresh then some N else if x = P then some s.fresh else nextOf s x :=
    fun x => (hfields x).1
  have hprev4 : ∀ x, prevOf s4 x
      = if x = s.fresh then some P else if x = N then some s.fresh else prevOf s x :=
    fun x => (hfields x).2.1
  have hexp4 : ∀ x, nodeExp s4 x = if x = s.fresh then e else nodeExp s x :=
    fun x => (hfields x).2.2.1
  have hcb4 : ∀ x, nodeCb s4 x = if x = s.fresh then cb else nodeCb s x :=
    fun x => (hfields x).2.2.2.1
  have hprio4 : ∀ x, nodePrio s4 x = if x = s.fresh then prio else nodePrio s x :=
    fun x => (hfields x).2.2.2.2.1
  have hsome4 : ∀ x, (s4.mem x).isSome = (if x = s.fresh then true else (s.mem x).isSome) :=
    fun x => (hfields x).2.2.2.2.2
  have hfresh4 : s4.fresh = s.fresh + 1 := by
    rw [hs4]
    simp [hfresh1]
  have hfirst4 : s4.firstCallbackNode = (A ++ s.fresh :: B).head? := by
    rw [hs4]
    simp [hfirst1]
  refine ⟨splice_inv hInv hl hlne hid hfresh4 hfirst4 hnext4 hprev4 hexp4 hsome4
      hPA hPB hNB hNA hPmem hNmem hAle hBge, hfresh4, ?_, ?_, ?_, ?_⟩
  · intro b hb
    rw [hexp4 b, hcb4 b, hprio4 b, if_neg hb, if_neg hb, if_neg hb]
    exact ⟨rfl, rfl, rfl⟩
  · rw [hexp4, if_pos rfl]
  · rw [hcb4, if_pos rfl]
  · rw [hprio4, if_pos rfl]

/-- Each element the insertion walk skipped has expiration time at most the
new node's; each one from the found node on has at least the new node's.
(Derived from the walk predicate and sortedness.) -/
theorem takeWhile_le_dropWhile_ge {s : Sched} {l : List Nat} (hInv : Inv s l)
    (stop : Int → Bool) (e : Int)
    (hstop_le : ∀ x : Int, stop x = false → x ≤ e)
    (hstop_ge : ∀ x : Int, stop x = true → e ≤ x) :
    (∀ a ∈ l.takeWhile fun a => !stop (nodeExp s a), nodeExp s a ≤ e) ∧
      (∀ b ∈ l.dropWhile fun a => !stop (nodeExp s a), e ≤ nodeExp s b) := by
  constructor
  · intro a ha
    have := List.mem_takeWhile_imp ha
    simp only [Bool.not_eq_true'] at this
    exact hstop_le _ this
  · intro b hb
    have hsB : (l.dropWhile fun a => !stop (nodeExp s a)).Pairwise
        (fun a b => nodeExp s a ≤ nodeExp s b) :=
      hInv.sorted.sublist (List.dropWhile_sublist _)
    rcases hD : l.dropWhile fun a => !stop (nodeExp s a) with _ | ⟨y, B'⟩
    · rw [hD] at hb; simp at hb
    · have hy : stop (nodeExp s y) = true := by
        have := dropWhile_head_not _ l hD
        simpa using this
      have hey : e ≤ nodeExp s y := hstop_ge _ hy
      rw [hD] at hb hsB
      rcases List.mem_cons.mp hb with rfl | hb2
      · exact hey
      · exact le_trans hey ((List.pairwise_cons.mp hsB).1 b hb2)

/-- Specification of `insertCallbackNode`: the returned handle is the fresh
id; the invariant holds for the cycle with the fresh node inserted exactly at
the boundary between the kept prefix (nodes the walk passed over) and the
found suffix; every other node's data fields are untouched; the new node
carries the given callback, priority and expiration time. -/
theorem insertCallbackNode_spec {s : Sched} {l : List Nat} (hInv : Inv s l)
    (stop : Int → Bool) (cb prio : Nat) (e : Int)
    (hstop_le : ∀ x : Int, stop x = false → x ≤ e)
    (hstop_ge : ∀ x : Int, stop x = true → e ≤ x) :
    (insertCallbackNode s stop cb prio e).2 = s.fresh ∧
      Inv (insertCallbackNode s stop cb prio e).1
        ((l.takeWhile fun a => !stop (nodeExp s a)) ++ s.fresh ::
          (l.dropWhile fun a => !stop (nodeExp s a))) ∧
      (insertCallbackNode s stop cb prio e).1.fresh = s.fresh + 1 ∧
      (∀ b, b ≠ s.fresh →
        nodeExp (insertCallbackNode s stop cb prio e).1 b = nodeExp s b ∧
          nodeCb (insertCallbackNode s stop cb prio e).1 b = nodeCb s b ∧
          nodePrio (insertCallbackNode s stop cb prio e).1 b = nodePrio s b) ∧
      nodeExp (insertCallbackNode s stop cb prio e).1 s.fresh = e ∧
      nodeCb (insertCallbackNode s stop cb prio e).1 s.fresh = cb ∧
      nodePrio (insertCallbackNode s stop cb prio e).1 s.fresh = prio := by
  obtain ⟨hAle, hBge⟩ := takeWhile_le_dropWhile_ge hInv stop e hstop_le hstop_ge
  have hAB : (l.takeWhile fun a => !stop (nodeExp s a))
      ++ (l.dropWhile fun a => !stop (nodeExp s a)) = l :=
    List.takeWhile_append_dropWhile _ _
  rcases hfst : s.firstCallbackNode with _ | hd
  · -- empty list
    have hl0 : l = [] := by
      have h1 := hInv.first_eq
      rw [hfst] at h1
      cases l with
      | nil => rfl
      | cons x t => simp at h1
    subst hl0
    have heq : insertCallbackNode s stop cb prio e
        = ({ Sched.write { s with fresh := s.fresh + 1 } s.fresh
              ⟨cb, prio, e, some s.fresh, some s.fresh⟩ with
            firstCallbackNode := some s.fresh }, s.fresh) := by
      unfold insertCallbackNode
      rw [hfst]
    rw [heq]
    simp only [List.takeWhile_nil, List.dropWhile_nil, List.nil_append]
    refine ⟨by trivial, ?_, by simp, ?_, ?_, ?_, ?_⟩
    · refine ⟨rfl, by simp, ?_, ?_, ?_, by simp, ?_⟩
      · intro a ha
        simp only [List.mem_singleton] at ha
        subst ha
        simp
      · intro a ha
        simp only [List.mem_singleton] at ha
        subst ha
        simp [Sched.write]
      · rw [linksOk_iff (show ([s.fresh] : List Nat).head? = some s.fresh from rfl)]
        simp only [List.cons_append, List.nil_append]
        rw [List.chain'_cons]
        refine ⟨⟨?_, ?_⟩, List.chain'_singleton _⟩
        · simp [nextOf, Sched.write]
        · simp [prevOf, Sched.write]
      · intro x hx
        have hxne : x ≠ s.fresh := by simpa using hx
        have hd2 := hInv.detached x (by simp)
        constructor
        · show nextOf _ x = none
          simp only [nextOf, Sched.write]
          simp only [if_neg hxne]
          exact hd2.1
        · show prevOf _ x = none
          simp only [prevOf, Sched.write]
          simp only [if_neg hxne]
          exact hd2.2
    · intro b hb
      refine ⟨?_, ?_, ?_⟩ <;> simp [nodeExp, nodeCb, nodePrio, Sched.write, hb]
    · simp [nodeExp, Sched.write]
    · simp [nodeCb, Sched.write]
    · simp [nodePrio, Sched.write]
  · -- non-empty list
    have hh' : l.head? = some hd := by rw [← hInv.first_eq]; exact hfst
    have hlne : l ≠ [] := by
      intro hc
      rw [hc] at hh'
      simp at hh'
    have hfind : findInsertionPoint s stop s.fresh hd
        = (l.dropWhile fun a => !stop (nodeExp s a)).head? :=
      findInsertionPoint_spec hInv hfst stop
    rcases hB : l.dropWhile fun a => !stop (nodeExp s a) with _ | ⟨y, B'⟩
    · -- nothing found: insert at the end, head unchanged
      have hAl : (l.takeWhile fun a => !stop (nodeExp s a)) = l := by
        have h2 := hAB
        rw [hB] at h2
        simpa using h2
      have hz : l.getLast? = some (l.getLast hlne) := List.getLast?_eq_getLast l hlne
      have hwrap : linkR s (l.getLast hlne) hd :=
        inv_adj_wrap hInv hh' (List.dropLast_append_getLast hlne).symm
      have hPrevHd : prevOf s hd = some (l.getLast hlne) := hwrap.2
      have heq : insertCallbackNode s stop cb prio e
          = ((writePrev (writeNext { s with fresh := s.fresh + 1 }
                (l.getLast hlne) (some s.fresh)) hd (some s.fresh)).write s.fresh
              ⟨cb, prio, e, some hd, some (l.getLast hlne)⟩, s.fresh) := by
        unfold insertCallbackNode
        simp only [hfst]
        rw [hfind, hB]
        simp only [List.head?_nil, Option.getD_none]
        rw [hPrevHd]
        simp only [Option.getD_some]
        rw [if_neg (by simp)]
      rw [heq, hAl]
      obtain ⟨hinv2, hfr2, hpres2, he2, hcb2, hprio2⟩ :=
        insert_branch_spec hInv (by simp) hlne (l.getLast hlne) hd cb prio e
          (fun _ => hz) (fun hc => absurd hc hlne)
          (fun hc => absurd rfl hc) (fun _ => hh')
          (List.getLast_mem hlne) (List.mem_of_mem_head? (by simp [hh']))
          (hAl ▸ hAle) (hB ▸ hBge)
          { s with fresh := s.fresh + 1 } rfl rfl
          (by
            rw [hfst]
            rw [List.head?_append_of_ne_nil l hlne]
            exact hh'.symm)
          _ rfl
      exact ⟨rfl, hinv2, hfr2, hpres2, he2, hcb2, hprio2⟩
    · -- something found
      by_cases hA : (l.takeWhile fun a => !stop (nodeExp s a)) = []
      · -- found the head: the new node becomes the head
        have hBl : (y :: B') = l := by rw [← hAB, hA, hB]; simp
        have hyhd : y = hd := by
          have : (y :: B').head? = some hd := by rw [hBl]; exact hh'
          simpa using this
        have hz : l.getLast? = some (l.getLast hlne) := List.getLast?_eq_getLast l hlne
        have hwrap : linkR s (l.getLast hlne) hd :=
          inv_adj_wrap hInv hh' (List.dropLast_append_getLast hlne).symm
        have hPrevHd : prevOf s hd = some (l.getLast hlne) := hwrap.2
        have heq : insertCallbackNode s stop cb prio e
            = ((writePrev (writeNext { { s with fresh := s.fresh + 1 } with
                  firstCallbackNode := some s.fresh }
                  (l.getLast hlne) (some s.fresh)) hd (some s.fresh)).write s.fresh
                ⟨cb, prio, e, some hd, some (l.getLast hlne)⟩, s.fresh) := by
          unfold insertCallbackNode
          simp only [hfst]
          rw [hfind, hB, hyhd]
          simp only [List.head?_cons, Option.getD_some]
          rw [hPrevHd]
          simp only [Option.getD_some]
          rw [if_pos trivial]
        rw [heq, hA, hyhd]
        obtain ⟨hinv2, hfr2, hpres2, he2, hcb2, hprio2⟩ :=
          insert_branch_spec hInv
            (show l = ([] : List Nat) ++ hd :: B' by
              rw [← hyhd, List.nil_append]
              exact hBl.symm) hlne
            (l.getLast hlne) hd cb prio e
            (fun hc => absurd rfl hc)
            (fun _ => by rw [← hyhd]; rw [hBl]; exact hz)
            (fun _ => rfl)
            (fun hc => absurd hc (List.cons_ne_nil _ _))
            (List.getLast_mem hlne) (List.mem_of_mem_head? (by simp [hh']))
            (hA ▸ hAle) (by
              intro b hb
              refine hBge b ?_
              rw [hB, hyhd]
              exact hb)
            { { s with fresh := s.fresh + 1 } with firstCallbackNode := some s.fresh }
            rfl rfl (by simp)
            _ rfl
        exact ⟨rfl, hinv2, hfr2, hpres2, he2, hcb2, hprio2⟩
      · -- found strictly inside: insert between the prefix and the suffix
        have hl2 : l = (l.takeWhile fun a => !stop (nodeExp s a)) ++ y :: B' := by
          conv_lhs => rw [← hAB]
          rw [hB]
        have hAhead : (l.takeWhile fun a => !stop (nodeExp s a)).head? = some hd := by
          have h2 : l.head? = some hd := hh'
          rw [hl2] at h2
          rwa [List.head?_append_of_ne_nil _ hA] at h2
        have hdisj : (l.takeWhile fun a => !stop (nodeExp s a)).Disjoint (y :: B') :=
          List.disjoint_of_nodup_append (hl2 ▸ hInv.nodup)
        have hyhd : ¬ ((some y : Option Nat) = some hd) := by
          simp only [Option.some.injEq]
          intro hc
          exact hdisj (List.mem_of_mem_head? (Option.mem_def.mpr hAhead))
            (by simp [hc])
        have hgA : (l.takeWhile fun a => !stop (nodeExp s a)).getLast?
            = some ((l.takeWhile fun a => !stop (nodeExp s a)).getLast hA) :=
          List.getLast?_eq_getLast _ hA
        have hsplitJ : l = (l.takeWhile fun a => !stop (nodeExp s a)).dropLast
            ++ ((l.takeWhile fun a => !stop (nodeExp s a)).getLast hA) :: y :: B' := by
          conv_lhs => rw [hl2]
          conv_lhs => rw [← List.dropLast_append_getLast hA]
          simp
        have hmid : linkR s ((l.takeWhile fun a => !stop (nodeExp s a)).getLast hA) y :=
          inv_adj_mid hInv hsplitJ
        have hPrevY : prevOf s y
            = some ((l.takeWhile fun a => !stop (nodeExp s a)).getLast hA) := hmid.2
        have heq : insertCallbackNode s stop cb prio e
            = ((writePrev (writeNext { s with fresh := s.fresh + 1 }
                  ((l.takeWhile fun a => !stop (nodeExp s a)).getLast hA)
                  (some s.fresh)) y (some s.fresh)).write s.fresh
                ⟨cb, prio, e, some y,
                  some ((l.takeWhile fun a => !stop (nodeExp s a)).getLast hA)⟩,
              s.fresh) := by
          unfold insertCallbackNode
          simp only [hfst]
          rw [hfind, hB]
          simp only [List.head?_cons, Option.getD_some]
          rw [hPrevY]
          simp only [Option.getD_some]
          rw [if_neg hyhd]
        rw [heq]
        obtain ⟨hinv2, hfr2, hpres2, he2, hcb2, hprio2⟩ :=
          insert_branch_spec hInv hl2 hlne
            ((l.takeWhile fun a => !stop (nodeExp s a)).getLast hA) y cb prio e
            (fun _ => hgA) (fun hc => absurd hc hA)
            (fun _ => rfl) (fun hc => by simp at hc)
            ((List.takeWhile_sublist _).subset (List.getLast_mem hA))
            ((List.dropWhile_sublist _).subset (by rw [hB]; simp))
            hAle (by
              intro b hb
              refine hBge b ?_
              rw [hB]
              exact hb)
            { s with fresh := s.fresh + 1 } rfl rfl
            (by
              rw [hfst]
              rw [List.head?_append_of_ne_nil _ hA]
              exact hAhead.symm)
            _ rfl
        exact ⟨rfl, hinv2, hfr2, hpres2, he2, hcb2, hprio2⟩

/-- Counterpart of `splice_inv` for unlinking: removing `a` from the cycle
`A ++ a :: B` by bridging its neighbours `P` (cyclic predecessor) and `N`
(cyclic successor) and clearing `a`'s links restores the invariant on
`A ++ B`, provided at least one node remains. -/
theorem unsplice_inv {s s5 : Sched} {l A B : List Nat} {a P N : Nat}
    (hInv : Inv s l) (hl : l = A ++ a :: B) (hABne : A ++ B ≠ [])
    (hfresh5 : s5.fresh = s.fresh)
    (hfirst5 : s5.firstCallbackNode = (A ++ B).head?)
    (hnext5 : ∀ x, nextOf s5 x
      = if x = a then none else if x = P then some N else nextOf s x)
    (hprev5 : ∀ x, prevOf s5 x
      = if x = a then none else if x = N then some P else prevOf s x)
    (hexp5 : ∀ x, nodeExp s5 x = nodeExp s x)
    (hsome5 : ∀ x, (s5.mem x).isSome = (s.mem x).isSome)
    (hPA : A ≠ [] → A.getLast? = some P)
    (hPB : A = [] → B.getLast? = some P)
    (hNB : B ≠ [] → B.head? = some N)
    (hNA : B = [] → A.head? = some N) :
    Inv s5 (A ++ B) := by
  have hndl : l.Nodup := hInv.nodup
  have hmidnd := hl ▸ hndl
  rw [List.nodup_middle, List.nodup_cons] at hmidnd
  have hal : a ∉ A ++ B := hmidnd.1
  have hndAB : (A ++ B).Nodup := hmidnd.2
  have hdisj : A.Disjoint B := List.disjoint_of_nodup_append hndAB
  have hndA : A.Nodup := ((List.nodup_append).mp hndAB).1
  have hndB : B.Nodup := ((List.nodup_append).mp hndAB).2.1
  have hPmem : P ∈ A ++ B := by
    by_cases hA : A = []
    · have hBne : B ≠ [] := by
        intro hc
        exact hABne (by rw [hA, hc]; rfl)
      exact List.mem_append_right _ (List.mem_of_mem_getLast? (by simp [hPB hA]))
    · exact List.mem_append_left _ (List.mem_of_mem_getLast? (by simp [hPA hA]))
  have hNmem : N ∈ A ++ B := by
    by_cases hB : B = []
    · have hAne : A ≠ [] := by
        intro hc
        exact hABne (by rw [hc, hB]; rfl)
      exact List.mem_append_left _ (List.mem_of_mem_head? (by simp [hNA hB]))
    · exact List.mem_append_right _ (List.mem_of_mem_head? (by simp [hNB hB]))
  have hPa : P ≠ a := fun hc => hal (hc ▸ hPmem)
  have hNa : N ≠ a := fun hc => hal (hc ▸ hNmem)
  obtain ⟨hd0, t0, hlt⟩ : ∃ hd0 t0, l = hd0 :: t0 := by
    rcases l with _ | ⟨y, t⟩
    · simp at hl
    · exact ⟨y, t, rfl⟩
  have hhd0 : l.head? = some hd0 := by rw [hlt]; rfl
  have hC : List.Chain' (linkR s) (l ++ [hd0]) :=
    (linksOk_iff hhd0).mp hInv.links
  have hCl : List.Chain' (linkR s) l := ((List.chain'_append).mp hC).1
  have hwrap_old : ∀ z, l.getLast? = some z → linkR s z hd0 := by
    intro z hz
    have := ((List.chain'_append).mp hC).2.2
    exact this z (by simp [hz]) hd0 (by simp)
  have hCAaB := (List.chain'_append).mp (hl ▸ hCl)
  have hCA : List.Chain' (linkR s) A := hCAaB.1
  have hCB : List.Chain' (linkR s) B := (hCAaB.2.1).tail
  -- the bridge link
  have hlinkPN : linkR s5 P N := by
    constructor
    · rw [hnext5 P, if_neg hPa, if_pos rfl]
    · rw [hprev5 N, if_neg hNa, if_pos rfl]
  -- transfer of the interior chains
  have hCA5 : List.Chain' (linkR s5) A := by
    refine chain_congr_adj (fun Pf u v Qf hsp hr => ?_) hCA
    have hAne : A ≠ [] := by rw [hsp]; simp
    have huA : u ∈ A := by rw [hsp]; simp
    have hvA : v ∈ A := by rw [hsp]; simp
    have hua : u ≠ a := fun hc => hal (hc ▸ List.mem_append_left B huA)
    have hva : v ≠ a := fun hc => hal (hc ▸ List.mem_append_left B hvA)
    have huP : u ≠ P := adj_fst_ne_getLast hndA hsp (hPA hAne)
    have hvN : v ≠ N := by
      by_cases hB : B = []
      · exact adj_snd_ne_head hndA hsp (hNA hB)
      · intro hc
        have hNB2 : N ∈ B := List.mem_of_mem_head? (by simp [hNB hB])
        exact hdisj (hc ▸ hvA) hNB2
    exact ⟨by rw [hnext5 u, if_neg hua, if_neg huP]; exact hr.1,
      by rw [hprev5 v, if_neg hva, if_neg hvN]; exact hr.2⟩
  have hCB5 : List.Chain' (linkR s5) B := by
    refine chain_congr_adj (fun Pf u v Qf hsp hr => ?_) hCB
    have hBne : B ≠ [] := by rw [hsp]; simp
    have huB : u ∈ B := by rw [hsp]; simp
    have hvB : v ∈ B := by rw [hsp]; simp
    have hua : u ≠ a := fun hc => hal (hc ▸ List.mem_append_right A huB)
    have hva : v ≠ a := fun hc => hal (hc ▸ List.mem_append_right A hvB)
    have huP : u ≠ P := by
      by_cases hA : A = []
      · exact adj_fst_ne_getLast hndB hsp (hPB hA)
      · intro hc
        have hPA2 : P ∈ A := List.mem_of_mem_getLast? (by simp [hPA hA])
        exact hdisj hPA2 (hc ▸ huB)
    have hvN : v ≠ N := adj_snd_ne_head hndB hsp (hNB hBne)
    exact ⟨by rw [hnext5 u, if_neg hua, if_neg huP]; exact hr.1,
      by rw [hprev5 v, if_neg hva, if_neg hvN]; exact hr.2⟩
  refine ⟨hfirst5, hndAB, ?_, ?_, ?_, ?_, ?_⟩
  · intro x hx
    rw [hfresh5]
    rcases List.mem_append.mp hx with hxa | hxb
    · exact hInv.bounded x (hl ▸ List.mem_append_left _ hxa)
    · exact hInv.bounded x (hl ▸ List.mem_append_right _ (List.mem_cons_of_mem _ hxb))
  · intro x hx
    rw [hsome5 x]
    rcases List.mem_append.mp hx with hxa | hxb
    · exact hInv.allocated x (hl ▸ List.mem_append_left _ hxa)
    · exact hInv.allocated x (hl ▸ List.mem_append_right _ (List.mem_cons_of_mem _ hxb))
  · -- linksOk for the shrunk cycle
    by_cases hA : A = []
    · subst hA
      simp only [List.nil_append] at hABne ⊢
      obtain ⟨y, B', hBy⟩ : ∃ y B', B = y :: B' := by
        rcases B with _ | ⟨y, B'⟩
        · exact absurd rfl hABne
        · exact ⟨y, B', rfl⟩
      have hyN : y = N := by
        have := hNB (by rw [hBy]; simp)
        rw [hBy] at this
        simpa using this
      rw [linksOk_iff (show B.head? = some y by rw [hBy]; rfl), List.chain'_append]
      refine ⟨hCB5, List.chain'_singleton y, ?_⟩
      intro x hx y2 hy2
      rw [hPB rfl] at hx
      simp only [Option.mem_def, List.head?_cons, Option.some.injEq] at hx hy2
      subst hx
      subst hy2
      rw [hyN]
      exact hlinkPN
    · obtain ⟨a0, A', hAa⟩ : ∃ a0 A', A = a0 :: A' := by
        rcases A with _ | ⟨a0, A'⟩
        · exact absurd rfl hA
        · exact ⟨a0, A', rfl⟩
      rw [linksOk_iff (show (A ++ B).head? = some a0 by
        rw [List.head?_append_of_ne_nil _ hA, hAa]; rfl)]
      by_cases hB : B = []
      · subst hB
        have hNa0 : N = a0 := by
          have := hNA rfl
          rw [hAa] at this
          simpa using this.symm
        have he : (A ++ ([] : List Nat)) ++ [a0] = A ++ [a0] := by simp
        rw [he, List.chain'_append]
        refine ⟨hCA5, List.chain'_singleton a0, ?_⟩
        intro x hx y2 hy2
        rw [hPA hA] at hx
        simp only [Option.mem_def, List.head?_cons, Option.some.injEq] at hx hy2
        subst hx
        subst hy2
        rw [← hNa0]
        exact hlinkPN
      · obtain ⟨y, B', hBy⟩ : ∃ y B', B = y :: B' := by
          rcases B with _ | ⟨y, B'⟩
          · exact absurd rfl hB
          · exact ⟨y, B', rfl⟩
        have hyN : y = N := by
          have := hNB hB
          rw [hBy] at this
          simpa using this
        have he : (A ++ B) ++ [a0] = A ++ (B ++ [a0]) := by simp
        rw [he, List.chain'_append]
        refine ⟨hCA5, ?_, ?_⟩
        · rw [List.chain'_append]
          refine ⟨hCB5, List.chain'_singleton a0, ?_⟩
          intro x hx y2 hy2
          simp only [Option.mem_def, List.head?_cons, Option.some.injEq] at hy2
          subst hy2
          have hgl : l.getLast? = B.getLast? := by
            have h1 : (A ++ a :: B).getLast? = (a :: B).getLast? :=
              List.getLast?_append_of_ne_nil A (show a :: B ≠ [] by simp)
            have h2 : (a :: B).getLast? = B.getLast? := by
              rw [show a :: B = [a] ++ B from rfl]
              exact List.getLast?_append_of_ne_nil _ hB
            rw [hl, h1, h2]
          have hxl : l.getLast? = some x := by rw [hgl]; exact hx
          have hh0 : hd0 = a0 := by
            rw [hl, hAa] at hhd0
            simpa using hhd0.symm
          have hold : linkR s x a0 := hh0 ▸ hwrap_old x hxl
          have hxB : x ∈ B := List.mem_of_mem_getLast? hx
          have hxa : x ≠ a := fun hc => hal (hc ▸ List.mem_append_right A hxB)
          have hxP : x ≠ P := by
            intro hc
            have hPA2 : P ∈ A := List.mem_of_mem_getLast? (by simp [hPA hA])
            exact hdisj hPA2 (hc ▸ hxB)
          have ha0A : a0 ∈ A := by rw [hAa]; simp
          have ha0a : a0 ≠ a := fun hc => hal (hc ▸ List.mem_append_left B ha0A)
          have ha0N : a0 ≠ N := by
            intro hc
            have hNB2 : N ∈ B := List.mem_of_mem_head? (by simp [hNB hB])
            exact hdisj (hc ▸ ha0A) hNB2
          constructor
          · rw [hnext5 x, if_neg hxa, if_neg hxP]
            exact hold.1
          · rw [hprev5 a0, if_neg ha0a, if_neg ha0N]
            exact hold.2
        · intro x hx y2 hy2
          rw [hPA hA] at hx
          have hyy : y = y2 := by
            rw [hBy] at hy2
            simpa using hy2
          simp only [Option.mem_def, Option.some.injEq] at hx
          subst hx
          subst hyy
          rw [hyN]
          exact hlinkPN
  · -- sortedness survives the removal
    have hsorted := hInv.sorted
    rw [hl] at hsorted
    have hsub : (A ++ B).Sublist (A ++ a :: B) :=
      List.Sublist.append_left (List.sublist_cons_self a B) A
    have h2 := hsorted.sublist hsub
    refine h2.imp_of_mem (fun ha hb hr => ?_)
    rename_i u v
    rw [hexp5 u, hexp5 v]
    exact hr
  · -- everything outside the shrunk cycle is detached
    intro x hx
    by_cases hxa : x = a
    · subst hxa
      exact ⟨by rw [hnext5 x, if_pos rfl], by rw [hprev5 x, if_pos rfl]⟩
    · have hxl : x ∉ l := by
        rw [hl]
        intro hc
        rcases List.mem_append.mp hc with h1 | h2
        · exact hx (List.mem_append_left _ h1)
        · rcases List.mem_cons.mp h2 with rfl | h3
          · exact hxa rfl
          · exact hx (List.mem_append_right _ h3)
      have hxP : x ≠ P := fun hc => hx (hc ▸ hPmem)
      have hxN : x ≠ N := fun hc => hx (hc ▸ hNmem)
      obtain ⟨hn, hp⟩ := hInv.detached x hxl
      constructor
      · rw [hnext5 x, if_neg hxa, if_neg hxP]
        exact hn
      · rw [hprev5 x, if_neg hxa, if_neg hxN]
        exact hp

/-- The cyclic neighbours of a member `a` of the cycle `A ++ a :: B` when it
is not the only node: `next` is `B`'s head (the list head when `B` is empty)
and `previous` is `A`'s last (the list last when `A` is empty). -/
theorem remove_junction {s : Sched} {l A B : List Nat} {a : Nat}
    (hInv : Inv s l) (hl : l = A ++ a :: B) (hABne : A ++ B ≠ []) :
    ∃ P N, nextOf s a = some N ∧ prevOf s a = some P ∧
      (A ≠ [] → A.getLast? = some P) ∧ (A = [] → B.getLast? = some P) ∧
      (B ≠ [] → B.head? = some N) ∧ (B = [] → A.head? = some N) := by
  have hlne : l ≠ [] := by rw [hl]; simp
  have hNpart : ∃ N, nextOf s a = some N ∧
      (B ≠ [] → B.head? = some N) ∧ (B = [] → A.head? = some N) := by
    rcases hBc : B with _ | ⟨y, B'⟩
    · -- a is the last node; its successor is the list head, i.e. A's head
      have hAne : A ≠ [] := by
        intro hc
        exact hABne (by rw [hc, hBc]; rfl)
      obtain ⟨a0, A', hAa⟩ : ∃ a0 A', A = a0 :: A' := by
        rcases A with _ | ⟨a0, A'⟩
        · exact absurd rfl hAne
        · exact ⟨a0, A', rfl⟩
      have hh : l.head? = some a0 := by
        rw [hl, List.head?_append_of_ne_nil _ hAne, hAa]
        rfl
      have hsplit : l = A ++ [a] := by rw [hl, hBc]
      have hlink := inv_adj_wrap hInv hh hsplit
      exact ⟨a0, hlink.1, fun hc => absurd rfl hc,
        fun _ => by rw [hAa]; rfl⟩
    · -- the successor is B's head
      have hsplit : l = A ++ a :: y :: B' := by rw [hl, hBc]
      have hlink := inv_adj_mid hInv hsplit
      exact ⟨y, hlink.1, fun _ => rfl, fun hc => by simp at hc⟩
  have hPpart : ∃ P, prevOf s a = some P ∧
      (A ≠ [] → A.getLast? = some P) ∧ (A = [] → B.getLast? = some P) := by
    by_cases hA : A = []
    · -- a is the head; its predecessor is the list last, i.e. B's last
      have hBne : B ≠ [] := by
        intro hc
        exact hABne (by rw [hA, hc]; rfl)
      have hh : l.head? = some a := by rw [hl, hA]; rfl
      have hlink := inv_adj_wrap hInv hh (List.dropLast_append_getLast hlne).symm
      refine ⟨l.getLast hlne, hlink.2, fun hc => absurd hA hc, fun _ => ?_⟩
      have h1 : l.getLast? = B.getLast? := by
        rw [hl, hA, List.nil_append, show a :: B = [a] ++ B from rfl]
        exact List.getLast?_append_of_ne_nil _ hBne
      rw [← h1]
      exact List.getLast?_eq_getLast l hlne
    · -- the predecessor is A's last
      have hsplit : l = A.dropLast ++ (A.getLast hA) :: a :: B := by
        conv_lhs => rw [hl]
        conv_lhs => rw [show A = A.dropLast ++ [A.getLast hA] from
          (List.dropLast_append_getLast hA).symm]
        simp
      have hlink := inv_adj_mid hInv hsplit
      exact ⟨A.getLast hA, hlink.2, fun _ => List.getLast?_eq_getLast A hA,
        fun hc => absurd hc hA⟩
  obtain ⟨N, hN1, hN2, hN3⟩ := hNpart
  obtain ⟨P, hP1, hP2, hP3⟩ := hPpart
  exact ⟨P, N, hN1, hP1, hP2, hP3, hN2, hN3⟩

/-- Field view of the three unlink writes of `removeCallbackNode`: bridge
`P.next := N`, `N.previous := P`, then clear `a`'s links. -/
theorem unsplice_fields (s s' : Sched) (hmem : s'.mem = s.mem) (P N a : Nat)
    (hPs : (s.mem P).isSome) (hNs : (s.mem N).isSome)
    (hNa : N ≠ a) (x : Nat) :
    nextOf (clearLinks (writePrev (writeNext s' P (some N)) N (some P)) a) x
      = (if x = a then none else if x = P then some N else nextOf s x) ∧
    prevOf (clearLinks (writePrev (writeNext s' P (some N)) N (some P)) a) x
      = (if x = a then none else if x = N then some P else prevOf s x) ∧
    nodeExp (clearLinks (writePrev (writeNext s' P (some N)) N (some P)) a) x
      = nodeExp s x ∧
    nodeCb (clearLinks (writePrev (writeNext s' P (some N)) N (some P)) a) x
      = nodeCb s x ∧
    nodePrio (clearLinks (writePrev (writeNext s' P (some N)) N (some P)) a) x
      = nodePrio s x ∧
    ((clearLinks (writePrev (writeNext s' P (some N)) N (some P)) a).mem x).isSome
      = (s.mem x).isSome ∧
    (clearLinks (writePrev (writeNext s' P (some N)) N (some P)) a).fresh
      = s'.fresh := by
  have hnextEq : ∀ b, nextOf s' b = nextOf s b := by
    intro b
    unfold nextOf
    rw [hmem]
  have hprevEq : ∀ b, prevOf s' b = prevOf s b := by
    intro b
    unfold prevOf
    rw [hmem]
  have hexpEq : ∀ b, nodeExp s' b = nodeExp s b := by
    intro b
    unfold nodeExp
    rw [hmem]
  have hcbEq : ∀ b, nodeCb s' b = nodeCb s b := by
    intro b
    unfold nodeCb
    rw [hmem]
  have hprioEq : ∀ b, nodePrio s' b = nodePrio s b := by
    intro b
    unfold nodePrio
    rw [hmem]
  have hsomeEq : ∀ b, (s'.mem b).isSome = (s.mem b).isSome := by
    intro b
    rw [hmem]
  refine ⟨?_, ?_, ?_, ?_, ?_, ?_, ?_⟩
  · by_cases hxa : x = a
    · subst hxa
      rw [if_pos rfl]
      exact nextOf_clearLinks_self _ x
    · rw [if_neg hxa, nextOf_clearLinks_ne _ _ _ hxa, nextOf_writePrev]
      by_cases hxP : x = P
      · subst hxP
        rw [if_pos rfl]
        exact nextOf_writeNext_self _ _ _ (by rw [hmem]; exact hPs)
      · rw [if_neg hxP, nextOf_writeNext_ne _ _ _ _ hxP]
        exact hnextEq x
  · by_cases hxa : x = a
    · subst hxa
      rw [if_pos rfl]
      exact prevOf_clearLinks_self _ x
    · rw [if_neg hxa, prevOf_clearLinks_ne _ _ _ hxa]
      by_cases hxN : x = N
      · subst hxN
        rw [if_pos rfl]
        exact prevOf_writePrev_self _ _ _
          (by rw [memIsSome_writeNext, hmem]; exact hNs)
      · rw [if_neg hxN, prevOf_writePrev_ne _ _ _ _ hxN, prevOf_writeNext]
        exact hprevEq x
  · rw [nodeExp_clearLinks, nodeExp_writePrev, nodeExp_writeNext]
    exact hexpEq x
  · rw [nodeCb_clearLinks, nodeCb_writePrev, nodeCb_writeNext]
    exact hcbEq x
  · rw [nodePrio_clearLinks, nodePrio_writePrev, nodePrio_writeNext]
    exact hprioEq x
  · rw [memIsSome_clearLinks, memIsSome_writePrev, memIsSome_writeNext]
    exact hsomeEq x
  · simp

/-- Specification of `removeCallbackNode` on a member of the cycle: the
invariant holds for the cycle with `a` removed, the store size and every
node's data fields are untouched (clearing links keeps the record), and the
removed node's links are nulled. -/
theorem removeCallbackNode_spec {s : Sched} {l A B : List Nat} {a : Nat}
    (hInv : Inv s l) (hl : l = A ++ a :: B) :
    Inv (removeCallbackNode s a) (A ++ B) ∧
      (removeCallbackNode s a).fresh = s.fresh ∧
      (∀ b, nodeExp (removeCallbackNode s a) b = nodeExp s b ∧
        nodeCb (removeCallbackNode s a) b = nodeCb s b ∧
        nodePrio (removeCallbackNode s a) b = nodePrio s b) ∧
      nextOf (removeCallbackNode s a) a = none ∧
      prevOf (removeCallbackNode s a) a = none ∧
      (∀ x, ((removeCallbackNode s a).mem x).isSome = (s.mem x).isSome) := by
  have hndl : l.Nodup := hInv.nodup
  have hmidnd := hl ▸ hndl
  rw [List.nodup_middle, List.nodup_cons] at hmidnd
  have hal : a ∉ A ++ B := hmidnd.1
  by_cases hABne : A ++ B = []
  · -- a is the only node: clear the head and detach a
    obtain ⟨hA, hB⟩ := List.append_eq_nil.mp hABne
    subst hA
    subst hB
    simp only [List.nil_append] at hl
    have hh : l.head? = some a := by rw [hl]; rfl
    have hlink : linkR s a a :=
      inv_adj_wrap hInv hh (show l = ([] : List Nat) ++ [a] from hl)
    have hnxt : nextOf s a = some a := hlink.1
    have heq : removeCallbackNode s a
        = clearLinks { s with firstCallbackNode := none } a := by
      unfold removeCallbackNode
      rw [hnxt]
      simp only []
      rw [if_pos trivial]
    rw [heq]
    refine ⟨?_, by simp, ?_, nextOf_clearLinks_self _ a, prevOf_clearLinks_self _ a, ?_⟩
    · refine ⟨by simp, by simp, by simp, by simp, trivial, by simp, ?_⟩
      intro x _
      by_cases hxa : x = a
      · subst hxa
        exact ⟨nextOf_clearLinks_self _ x, prevOf_clearLinks_self _ x⟩
      · have hxl : x ∉ l := by
          rw [hl]
          simp [hxa]
        obtain ⟨hn, hp⟩ := hInv.detached x hxl
        exact ⟨by rw [nextOf_clearLinks_ne _ _ _ hxa]; exact hn,
          by rw [prevOf_clearLinks_ne _ _ _ hxa]; exact hp⟩
    · intro b
      refine ⟨?_, ?_, ?_⟩
      · rw [nodeExp_clearLinks]; rfl
      · rw [nodeCb_clearLinks]; rfl
      · rw [nodePrio_clearLinks]; rfl
    · intro x
      rw [memIsSome_clearLinks]
  · -- at least one node remains: bridge the neighbours
    obtain ⟨P, N, hnxt, hprv, hPA, hPB, hNB, hNA⟩ := remove_junction hInv hl hABne
    have hPmem : P ∈ A ++ B := by
      by_cases hA : A = []
      · exact List.mem_append_right _ (List.mem_of_mem_getLast? (by simp [hPB hA]))
      · exact List.mem_append_left _ (List.mem_of_mem_getLast? (by simp [hPA hA]))
    have hNmem : N ∈ A ++ B := by
      by_cases hB : B = []
      · exact List.mem_append_left _ (List.mem_of_mem_head? (by simp [hNA hB]))
      · exact List.mem_append_right _ (List.mem_of_mem_head? (by simp [hNB hB]))
    have hPa : P ≠ a := fun hc => hal (hc ▸ hPmem)
    have hNa : N ≠ a := fun hc => hal (hc ▸ hNmem)
    have hmeml : ∀ x ∈ A ++ B, x ∈ l := by
      intro x hx
      rw [hl]
      rcases List.mem_append.mp hx with h1 | h2
      · exact List.mem_append_left _ h1
      · exact List.mem_append_right _ (List.mem_cons_of_mem _ h2)
    have hPs : (s.mem P).isSome := hInv.allocated P (hmeml P hPmem)
    have hNs : (s.mem N).isSome := hInv.allocated N (hmeml N hNmem)
    by_cases hA : A = []
    · -- a was the head: the head moves to N
      have hfsta : s.firstCallbackNode = some a := by
        rw [hInv.first_eq, hl, hA]
        rfl
      have heq : removeCallbackNode s a
          = clearLinks (writePrev (writeNext { s with firstCallbackNode := some N }
              P (some N)) N (some P)) a := by
        unfold removeCallbackNode
        rw [hnxt]
        simp only []
        rw [if_neg hNa, if_pos hfsta, hprv]
        simp only [Option.getD_some]
      rw [heq]
      have hfields := unsplice_fields s { s with firstCallbackNode := some N }
        rfl P N a hPs hNs hNa
      refine ⟨?_, (hfields 0).2.2.2.2.2.2, fun b => ⟨(hfields b).2.2.1,
        (hfields b).2.2.2.1, (hfields b).2.2.2.2.1⟩, ?_, ?_, fun x => (hfields x).2.2.2.2.2.1⟩
      · refine unsplice_inv hInv hl hABne
          ((hfields 0).2.2.2.2.2.2) ?_ (fun x => (hfields x).1) (fun x => (hfields x).2.1)
          (fun x => (hfields x).2.2.1) (fun x => (hfields x).2.2.2.2.2.1) hPA hPB hNB hNA
        have hBne : B ≠ [] := by
          intro hc
          exact hABne (by rw [hA, hc]; rfl)
        simp only [clearLinks_first, writePrev_first, writeNext_first]
        rw [hA, List.nil_append]
        exact (hNB hBne).symm
      · rw [(hfields a).1, if_pos rfl]
      · rw [(hfields a).2.1, if_pos rfl]
    · -- a was not the head: the head pointer is untouched
      obtain ⟨a0, A', hAa⟩ : ∃ a0 A', A = a0 :: A' := by
        rcases A with _ | ⟨a0, A'⟩
        · exact absurd rfl hA
        · exact ⟨a0, A', rfl⟩
      have ha0a : a0 ≠ a := by
        intro hc
        exact hal (hc ▸ List.mem_append_left B (by rw [hAa]; simp))
      have hfsta : ¬ (s.firstCallbackNode = some a) := by
        rw [hInv.first_eq, hl, List.head?_append_of_ne_nil _ hA, hAa]
        simp [ha0a]
      have heq : removeCallbackNode s a
          = clearLinks (writePrev (writeNext s P (some N)) N (some P)) a := by
        unfold removeCallbackNode
        rw [hnxt]
        simp only []
        rw [if_neg hNa, if_neg hfsta, hprv]
        simp only [Option.getD_some]
      rw [heq]
      have hfields := unsplice_fields s s rfl P N a hPs hNs hNa
      refine ⟨?_, (hfields 0).2.2.2.2.2.2, fun b => ⟨(hfields b).2.2.1,
        (hfields b).2.2.2.1, (hfields b).2.2.2.2.1⟩, ?_, ?_, fun x => (hfields x).2.2.2.2.2.1⟩
      · refine unsplice_inv hInv hl hABne
          ((hfields 0).2.2.2.2.2.2) ?_ (fun x => (hfields x).1) (fun x => (hfields x).2.1)
          (fun x => (hfields x).2.2.1) (fun x => (hfields x).2.2.2.2.2.1) hPA hPB hNB hNA
        simp only [clearLinks_first, writePrev_first, writeNext_first]
        rw [hInv.first_eq, hl, List.head?_append_of_ne_nil _ hA,
          List.head?_append_of_ne_nil _ hA]
      · rw [(hfields a).1, if_pos rfl]
      · rw [(hfields a).2.1, if_pos rfl]

/-- Strict variant of the suffix bound: when the walk predicate encodes a
strict comparison, every node of the found suffix lies strictly after `e`. -/
theorem dropWhile_gt_of_stop_strict {s : Sched} {l : List Nat} (hInv : Inv s l)
    (stop : Int → Bool) (e : Int)
    (hstop_gt : ∀ x : Int, stop x = true → e < x) :
    ∀ b ∈ l.dropWhile fun a => !stop (nodeExp s a), e < nodeExp s b := by
  intro b hb
  have hsB : (l.dropWhile fun a => !stop (nodeExp s a)).Pairwise
      (fun a b => nodeExp s a ≤ nodeExp s b) :=
    hInv.sorted.sublist (List.dropWhile_sublist _)
  rcases hD : l.dropWhile fun a => !stop (nodeExp s a) with _ | ⟨y, B'⟩
  · rw [hD] at hb; simp at hb
  · have hy : stop (nodeExp s y) = true := by
      have := dropWhile_head_not _ l hD
      simpa using this
    have hey : e < nodeExp s y := hstop_gt _ hy
    rw [hD] at hb hsB
    rcases List.mem_cons.mp hb with rfl | hb2
    · exact hey
    · exact lt_of_lt_of_le hey ((List.pairwise_cons.mp hsB).1 b hb2)

/-- The head of the cycle carries the minimal expiration time. -/
theorem inv_head_min {s : Sched} {l : List Nat} {hd : Nat} {t : List Nat}
    (hInv : Inv s l) (hl : l = hd :: t) :
    ∀ x ∈ l, nodeExp s hd ≤ nodeExp s x := by
  intro x hx
  rw [hl] at hx
  rcases List.mem_cons.mp hx with rfl | hx2
  · exact le_refl _
  · exact (List.pairwise_cons.mp (hl ▸ hInv.sorted)).1 x hx2

/-- The empty scheduler satisfies the invariant with the empty cycle. -/
theorem inv_initSched : Inv initSched [] := by
  refine ⟨rfl, by simp, by simp, by simp, trivial, by simp, ?_⟩
  intro a _
  exact ⟨rfl, rfl⟩

/-- `unstable_cancelCallback` on a node with `next === null` returns the
state untouched (ReactUpdateQueue.js:1136-1138). -/
theorem cancelCallback_not_live (s : Sched) (h : Nat)
    (hn : nextOf s h = none) : unstable_cancelCallback s h = s := by
  unfold unstable_cancelCallback
  rw [hn]

/-- `unstable_cancelCallback` on a live node performs the unlink surgery. -/
theorem cancelCallback_live {s : Sched} {l A B : List Nat} {h : Nat}
    (hInv : Inv s l) (hl : l = A ++ h :: B) :
    unstable_cancelCallback s h = removeCallbackNode s h := by
  have hlive : isLive s h := (inv_isLive_iff hInv h).mpr (by rw [hl]; simp)
  rcases hn : nextOf s h with _ | nxt
  · exact absurd hn hlive
  · unfold unstable_cancelCallback
    rw [hn]

/-- After the unlink surgery on a live node, the node's own `next` is null,
so a second cancel sees an already-detached node. -/
theorem removeCallbackNode_next_self (s : Sched) (a nxt : Nat)
    (hn : nextOf s a = some nxt) : nextOf (removeCallbackNode s a) a = none := by
  unfold removeCallbackNode
  rw [hn]
  simp only []
  exact nextOf_clearLinks_self _ a

/-- `unstable_scheduleCallback` is the generic insertion at expiration time
`startTime + timeout` with the strict `>` walk comparison. -/
theorem unstable_scheduleCallback_eq (s : Sched) (cb p : Nat) (t : Int)
    (topt : Option Int) :
    unstable_scheduleCallback s cb p t topt
      = insertCallbackNode s
          (fun e => decide (t + topt.getD (timeoutForPriorityLevel p) < e)) cb p
          (t + topt.getD (timeoutForPriorityLevel p)) := by
  unfold unstable_scheduleCallback
  rcases topt with _ | x <;> rfl

/-- Specification of `flushFirstCallback` under the invariant: on an empty
list it is a no-op; otherwise it detaches and reports the head's callback,
and — when the environment returns a continuation — re-inserts a fresh node
with the head's priority and expiration time at the boundary where nodes of
strictly smaller expiration precede it and nodes of greater-or-equal
expiration follow it. -/
theorem flushFirstCallback_spec {s : Sched} {l : List Nat} (hInv : Inv s l)
    (env : Nat → Option Nat) :
    (s.firstCallbackNode = none → flushFirstCallback env s = (s, none)) ∧
    (∀ hd t, l = hd :: t →
      (flushFirstCallback env s).2 = some (nodeCb s hd) ∧
      (env (nodeCb s hd) = none →
        Inv (flushFirstCallback env s).1 t ∧
        (flushFirstCallback env s).1.fresh = s.fresh ∧
        (∀ b, nodeExp (flushFirstCallback env s).1 b = nodeExp s b ∧
          nodePrio (flushFirstCallback env s).1 b = nodePrio s b)) ∧
      (∀ contCb, env (nodeCb s hd) = some contCb →
        Inv (flushFirstCallback env s).1
          ((t.takeWhile fun a => !decide (nodeExp s hd ≤ nodeExp s a)) ++ s.fresh ::
            (t.dropWhile fun a => !decide (nodeExp s hd ≤ nodeExp s a))) ∧
        (flushFirstCallback env s).1.fresh = s.fresh + 1 ∧
        nodeExp (flushFirstCallback env s).1 s.fresh = nodeExp s hd ∧
        nodePrio (flushFirstCallback env s).1 s.fresh = nodePrio s hd ∧
        (∀ b, b ≠ s.fresh →
          nodeExp (flushFirstCallback env s).1 b = nodeExp s b ∧
          nodePrio (flushFirstCallback env s).1 b = nodePrio s b))) := by
  constructor
  · intro h0
    unfold flushFirstCallback
    rw [h0]
  · intro hd t hlh
    have hfst : s.firstCallbackNode = some hd := by
      rw [hInv.first_eq, hlh]
      rfl
    have hhd : hd ∈ l := by rw [hlh]; simp
    obtain ⟨fn, hm⟩ : ∃ fn, s.mem hd = some fn :=
      Option.isSome_iff_exists.mp (hInv.allocated hd hhd)
    have hcb : fn.callback = nodeCb s hd := by simp [nodeCb, hm]
    have hexp : fn.expirationTime = nodeExp s hd := by simp [nodeExp, hm]
    have hprio : fn.priorityLevel = nodePrio s hd := by simp [nodePrio, hm]
    have hrem := removeCallbackNode_spec hInv
      (show l = [] ++ hd :: t from by rw [hlh]; rfl)
    simp only [List.nil_append] at hrem
    obtain ⟨hInv1, hfr1, hdat1, _, _, hsome1⟩ := hrem
    have heq : flushFirstCallback env s
        = (match env fn.callback with
           | none => (removeCallbackNode s hd, some fn.callback)
           | some contCb =>
             ((insertCallbackNode (removeCallbackNode s hd)
                 (fun e => decide (fn.expirationTime ≤ e)) contCb
                 fn.priorityLevel fn.expirationTime).1, some fn.callback)) := by
      unfold flushFirstCallback
      rw [hfst]
      simp only []
      rw [hm]
    refine ⟨?_, ?_, ?_⟩
    · rw [heq]
      rcases henv : env fn.callback with _ | contCb <;> simp [hcb]
    · intro henv
      rw [← hcb] at henv
      rw [heq, henv]
      exact ⟨hInv1, hfr1, fun b => ⟨(hdat1 b).1, (hdat1 b).2.2⟩⟩
    · intro contCb henv
      rw [← hcb] at henv
      rw [heq, henv]
      have hpredEq : (fun a => !decide (fn.expirationTime ≤
            nodeExp (removeCallbackNode s hd) a))
          = (fun a => !decide (nodeExp s hd ≤ nodeExp s a)) := by
        funext a
        rw [(hdat1 a).1, hexp]
      obtain ⟨_, hins2, hins3, hins4, hins5, hins6, hins7⟩ :=
        insertCallbackNode_spec hInv1 (fun e => decide (fn.expirationTime ≤ e))
          contCb fn.priorityLevel fn.expirationTime
          (fun x hx => le_of_not_le (by simpa using hx))
          (fun x hx => by simpa using hx)
      rw [hpredEq, hfr1] at hins2
      refine ⟨hins2, by rw [hins3, hfr1], ?_, ?_, ?_⟩
      · rw [hfr1] at hins5
        rw [hins5, hexp]
      · rw [hfr1] at hins7
        rw [hins7, hprio]
      · intro b hb
        rw [hfr1] at hins4
        obtain ⟨h1, _, h3⟩ := hins4 b hb
        exact ⟨by rw [h1, (hdat1 b).1], by rw [h3, (hdat1 b).2.2]⟩

/-- Every single interaction preserves the representation invariant. -/
theorem applyOp_inv {s : Sched} {l : List Nat} (hInv : Inv s l)
    (env : Nat → Option Nat) (op : SchedOp) :
    ∃ l', Inv (applyOp env s op) l' := by
  cases op with
  | schedule cb p t topt =>
    show ∃ l', Inv (unstable_scheduleCallback s cb p t topt).1 l'
    rw [unstable_scheduleCallback_eq]
    exact ⟨_, (insertCallbackNode_spec hInv _ cb p
      (t + topt.getD (timeoutForPriorityLevel p))
      (fun x hx => le_of_not_lt (by simpa using hx))
      (fun x hx => le_of_lt (by simpa using hx))).2.1⟩
  | cancel h =>
    show ∃ l', Inv (unstable_cancelCallback s h) l'
    by_cases hmem : h ∈ l
    · obtain ⟨A, B, hl⟩ := List.append_of_mem hmem
      rw [cancelCallback_live hInv hl]
      exact ⟨A ++ B, (removeCallbackNode_spec hInv hl).1⟩
    · rw [cancelCallback_not_live s h (hInv.detached h hmem).1]
      exact ⟨l, hInv⟩
  | flush =>
    show ∃ l', Inv (flushFirstCallback env s).1 l'
    obtain ⟨hempty, hstep⟩ := flushFirstCallback_spec hInv env
    rcases hlc : l with _ | ⟨hd, t⟩
    · rw [hempty (by rw [hInv.first_eq, hlc]; rfl)]
      exact ⟨l, hInv⟩
    · obtain ⟨_, hnone, hsome⟩ := hstep hd t hlc
      rcases henv : env (nodeCb s hd) with _ | contCb
      · exact ⟨t, (hnone henv).1⟩
      · exact ⟨_, (hsome contCb henv).1⟩

/-- The invariant holds after any finite interaction sequence. -/
theorem applyOps_inv (env : Nat → Option Nat) (ops : List SchedOp) :
    ∃ l, Inv (applyOps env ops) l := by
  suffices h : ∀ (ops : List SchedOp) (s : Sched) (l : List Nat), Inv s l →
      ∃ l', Inv (ops.foldl (applyOp env) s) l' from
    h ops initSched [] inv_initSched
  intro ops
  induction ops with
  | nil => intro s l hInv; exact ⟨l, hInv⟩
  | cons op rest ih =>
    intro s l hInv
    obtain ⟨l', hInv'⟩ := applyOp_inv hInv env op
    exact ih _ _ hInv'

/-- Walking `next` along a linked chain reads the chain off positionally. -/
theorem chain_iterNext {s : Sched} :
    ∀ (k : Nat) (L : List Nat), List.Chain' (linkR s) L → k < L.length →
      iterNext s k L.head? = L.get? k := by
  intro k
  induction k with
  | zero =>
    intro L _ _
    show L.head? = L.get? 0
    cases L <;> rfl
  | succ k ih =>
    intro L hC hk
    rcases L with _ | ⟨x, t⟩
    · simp at hk
    · rcases t with _ | ⟨y, rest⟩
      · simp at hk
      · have hxy : nextOf s x = some y := ((List.chain'_cons.mp hC).1).1
        show iterNext s k ((some x).bind (nextOf s)) = (x :: y :: rest).get? (k + 1)
        rw [Option.some_bind, hxy]
        have := ih (y :: rest) (List.chain'_cons.mp hC).2
          (by simpa using Nat.succ_lt_succ_iff.mp hk)
        exact this

/-- Under the invariant, the `next` walk from the head comes back to the
head after exactly the number of live nodes, and not before. -/
theorem inv_cycle_iterNext {s : Sched} {l : List Nat} (hInv : Inv s l)
    {hd : Nat} (hh : l.head? = some hd) :
    iterNext s l.length (some hd) = some hd ∧
    ∀ k, 0 < k → k < l.length → iterNext s k (some hd) ≠ some hd := by
  have hlne : l ≠ [] := by
    intro hc
    rw [hc] at hh
    simp at hh
  have hC : List.Chain' (linkR s) (l ++ [hd]) := (linksOk_iff hh).mp hInv.links
  have hhL : (l ++ [hd]).head? = some hd := by
    rw [List.head?_append_of_ne_nil _ hlne]
    exact hh
  constructor
  · have h1 := chain_iterNext l.length (l ++ [hd]) hC (by simp)
    rw [hhL] at h1
    rw [h1, List.get?_append_right (le_refl _)]
    simp
  · intro k hk0 hkl hcon
    have h1 := chain_iterNext k (l ++ [hd]) hC
      (by simp only [List.length_append, List.length_singleton]; omega)
    rw [hhL] at h1
    rw [h1, List.get?_append hkl] at hcon
    have h0 : l.get? 0 = some hd := by
      rw [← hh]
      cases l <;> rfl
    have hinj := List.get?_inj (by omega) hInv.nodup (hcon.trans h0.symm)
    omega

/-- Claim C8: after any finite sequence of `unstable_scheduleCallback`,
`unstable_cancelCallback` and `flushFirstCallback` operations from the empty
scheduler, the pending structure is a valid circular doubly-linked list:
there is a duplicate-free list of exactly the live nodes, headed by
`firstCallbackNode`; following `next` from the head returns to the head
after exactly that many steps and not before; and every live node's
`next`/`previous` pointers are mutual inverses. -/
theorem scheduler_list_integrity (env : Nat → Option Nat) (ops : List SchedOp) :
    ∃ l : List Nat, l.Nodup ∧
      (applyOps env ops).firstCallbackNode = l.head? ∧
      (∀ a, isLive (applyOps env ops) a ↔ a ∈ l) ∧
      (∀ hd, (applyOps env ops).firstCallbackNode = some hd →
        iterNext (applyOps env ops) l.length (some hd) = some hd ∧
        ∀ k, 0 < k → k < l.length →
          iterNext (applyOps env ops) k (some hd) ≠ some hd) ∧
      (∀ a ∈ l, ∃ b c, nextOf (applyOps env ops) a = some b ∧
        prevOf (applyOps env ops) b = some a ∧
        prevOf (applyOps env ops) a = some c ∧
        nextOf (applyOps env ops) c = some a) := by
  obtain ⟨l, hInv⟩ := applyOps_inv env ops
  refine ⟨l, hInv.nodup, hInv.first_eq, fun a => inv_isLive_iff hInv a, ?_, ?_⟩
  · intro hd hfst
    exact inv_cycle_iterNext hInv (hInv.first_eq ▸ hfst)
  · intro a ha
    obtain ⟨b, _, hab⟩ := inv_next_in_cycle hInv ha
    obtain ⟨c, _, hca⟩ := inv_prev_in_cycle hInv ha
    exact ⟨b, c, hab.1, hab.2, hca.2, hca.1⟩

/-- A concrete one-node scheduler: node `0` is self-linked with callback `7`,
priority `3` and expiration time `5`. -/
def sOne : Sched :=
  { mem := fun b => if b = 0 then
      some { callback := 7, priorityLevel := 3, expirationTime := 5
             next := some 0, previous := some 0 }
    else none
    firstCallbackNode := some 0
    fresh := 1 }

theorem inv_sOne : Inv sOne [0] := by
  refine ⟨rfl, by simp, ?_, ?_, ?_, by simp, ?_⟩
  · intro a ha
    simp only [List.mem_singleton] at ha
    subst ha
    decide
  · intro a ha
    simp only [List.mem_singleton] at ha
    subst ha
    rfl
  · show List.Chain' (linkR sOne) ([0] ++ [0])
    simp only [List.cons_append, List.nil_append]
    rw [List.chain'_cons]
    exact ⟨⟨rfl, rfl⟩, List.chain'_singleton _⟩
  · intro a ha
    have hne : a ≠ 0 := by simpa using ha
    constructor
    · show (sOne.mem a).bind CallbackNode.next = none
      simp [sOne, hne]
    · show (sOne.mem a).bind CallbackNode.previous = none
      simp [sOne, hne]

/-- Claim C9: cancelling is idempotent. Cancelling twice equals cancelling
once; cancelling a handle that is not live (missing, already cancelled, or
already flushed) returns the state untouched and raises no error; and the
first cancel of a live handle removes exactly that node — the invariant
holds on the list with just that node deleted, every node's data fields are
untouched, and the head is the deleted-list head. -/
theorem cancelCallback_idempotent {s : Sched} {l : List Nat}
    (hInv : Inv s l) (h : Nat) :
    unstable_cancelCallback (unstable_cancelCallback s h) h
      = unstable_cancelCallback s h ∧
    (h ∉ l → unstable_cancelCallback s h = s) ∧
    (∀ A B, l = A ++ h :: B →
      Inv (unstable_cancelCallback s h) (A ++ B) ∧
      (∀ b, nodeExp (unstable_cancelCallback s h) b = nodeExp s b ∧
        nodeCb (unstable_cancelCallback s h) b = nodeCb s b) ∧
      (unstable_cancelCallback s h).firstCallbackNode = (A ++ B).head?) := by
  refine ⟨?_, ?_, ?_⟩
  · rcases hn : nextOf s h with _ | nxt
    · rw [cancelCallback_not_live s h hn]
      exact cancelCallback_not_live s h hn
    · have hc1 : unstable_cancelCallback s h = removeCallbackNode s h := by
        unfold unstable_cancelCallback
        rw [hn]
      rw [hc1]
      exact cancelCallback_not_live _ h (removeCallbackNode_next_self s h nxt hn)
  · intro hmem
    exact cancelCallback_not_live s h (hInv.detached h hmem).1
  · intro A B hl
    rw [cancelCallback_live hInv hl]
    obtain ⟨hInv', _, hdat, _, _, _⟩ := removeCallbackNode_spec hInv hl
    exact ⟨hInv', fun b => ⟨(hdat b).1, (hdat b).2.1⟩, hInv'.first_eq⟩

theorem cancelCallback_idempotent_witness :
    unstable_cancelCallback (unstable_cancelCallback sOne 0) 0
      = unstable_cancelCallback sOne 0 ∧
    ((0 : Nat) ∉ ([0] : List Nat) → unstable_cancelCallback sOne 0 = sOne) ∧
    (∀ A B, ([0] : List Nat) = A ++ 0 :: B →
      Inv (unstable_cancelCallback sOne 0) (A ++ B) ∧
      (∀ b, nodeExp (unstable_cancelCallback sOne 0) b = nodeExp sOne b ∧
        nodeCb (unstable_cancelCallback sOne 0) b = nodeCb sOne b) ∧
      (unstable_cancelCallback sOne 0).firstCallbackNode = (A ++ B).head?) :=
  cancelCallback_idempotent inv_sOne 0

/-- Suffix bound over any expiration-sorted id list (not only full cycles):
once the walk predicate stops, every node from there on is at or after the
stop bound. -/
theorem sorted_dropWhile_ge {s : Sched} {t : List Nat}
    (hsort : t.Pairwise fun a b => nodeExp s a ≤ nodeExp s b)
    (stop : Int → Bool) (e : Int)
    (hstop_ge : ∀ x : Int, stop x = true → e ≤ x) :
    ∀ b ∈ t.dropWhile fun a => !stop (nodeExp s a), e ≤ nodeExp s b := by
  intro b hb
  have hsB : (t.dropWhile fun a => !stop (nodeExp s a)).Pairwise
      (fun a b => nodeExp s a ≤ nodeExp s b) :=
    hsort.sublist (List.dropWhile_sublist _)
  rcases hD : t.dropWhile fun a => !stop (nodeExp s a) with _ | ⟨y, B'⟩
  · rw [hD] at hb; simp at hb
  · have hy : stop (nodeExp s y) = true := by
      have := dropWhile_head_not _ t hD
      simpa using this
    have hey : e ≤ nodeExp s y := hstop_ge _ hy
    rw [hD] at hb hsB
    rcases List.mem_cons.mp hb with rfl | hb2
    · exact hey
    · exact le_trans hey ((List.pairwise_cons.mp hsB).1 b hb2)

/-- Claim C6: a continuation returned by a flushed callback is wrapped in a
fresh node with the same priority level and expiration score S and inserted
strictly before every remaining node of score exactly S (the kept prefix
holds only scores `< S`, the suffix all scores `≥ S`), whereas
`unstable_scheduleCallback` inserts a new node of score S after every
existing node of score S (the kept prefix holds scores `≤ S`, the suffix
only scores `> S`). -/
theorem continuation_before_equal_expiration {s : Sched} {l : List Nat}
    (hInv : Inv s l) (env : Nat → Option Nat)
    {hd : Nat} {t : List Nat} (hl : l = hd :: t)
    {contCb : Nat} (henv : env (nodeCb s hd) = some contCb)
    (cb p : Nat) (startT tmo : Int) :
    (∃ A B, A ++ B = t ∧
      Inv (flushFirstCallback env s).1 (A ++ s.fresh :: B) ∧
      (∀ x ∈ A, nodeExp s x < nodeExp s hd) ∧
      (∀ x ∈ B, nodeExp s hd ≤ nodeExp s x) ∧
      nodeExp (flushFirstCallback env s).1 s.fresh = nodeExp s hd ∧
      nodePrio (flushFirstCallback env s).1 s.fresh = nodePrio s hd ∧
      (∀ b, b ≠ s.fresh →
        nodeExp (flushFirstCallback env s).1 b = nodeExp s b)) ∧
    (∃ A B, A ++ B = l ∧
      Inv (unstable_scheduleCallback s cb p startT (some tmo)).1
        (A ++ s.fresh :: B) ∧
      (∀ x ∈ A, nodeExp s x ≤ startT + tmo) ∧
      (∀ x ∈ B, startT + tmo < nodeExp s x) ∧
      nodeExp (unstable_scheduleCallback s cb p startT (some tmo)).1 s.fresh
        = startT + tmo) := by
  constructor
  · -- continuation half
    obtain ⟨_, hstep⟩ := flushFirstCallback_spec hInv env
    obtain ⟨_, _, hsome⟩ := hstep hd t hl
    obtain ⟨hInv', _, hexp', hprio', hpres'⟩ := hsome contCb henv
    refine ⟨t.takeWhile fun a => !decide (nodeExp s hd ≤ nodeExp s a),
      t.dropWhile fun a => !decide (nodeExp s hd ≤ nodeExp s a),
      List.takeWhile_append_dropWhile _ _, hInv', ?_, ?_, hexp', hprio',
      fun b hb => (hpres' b hb).1⟩
    · intro x hx
      have := List.mem_takeWhile_imp hx
      simp only [Bool.not_eq_true', decide_eq_false_iff_not] at this
      exact lt_of_not_le this
    · exact sorted_dropWhile_ge (List.pairwise_cons.mp (hl ▸ hInv.sorted)).2
        (fun e => decide (nodeExp s hd ≤ e)) (nodeExp s hd)
        (fun x hx => by simpa using hx)
  · -- schedule half
    rw [unstable_scheduleCallback_eq]
    simp only [Option.getD_some]
    obtain ⟨_, hInv', _, _, hexp', _, _⟩ :=
      insertCallbackNode_spec hInv (fun e => decide (startT + tmo < e)) cb p
        (startT + tmo)
        (fun x hx => le_of_not_lt (by simpa using hx))
        (fun x hx => le_of_lt (by simpa using hx))
    refine ⟨l.takeWhile fun a => !decide (startT + tmo < nodeExp s a),
      l.dropWhile fun a => !decide (startT + tmo < nodeExp s a),
      List.takeWhile_append_dropWhile _ _, hInv', ?_, ?_, hexp'⟩
    · intro x hx
      have := List.mem_takeWhile_imp hx
      simp only [Bool.not_eq_true', decide_eq_false_iff_not] at this
      exact le_of_not_lt this
    · exact dropWhile_gt_of_stop_strict hInv
        (fun e => decide (startT + tmo < e)) (startT + tmo)
        (fun x hx => by simpa using hx)

/-- The continuation environment used by the concrete witnesses: callback `7`
returns continuation `9`; every other callback returns nothing. -/
def envOne : Nat → Option Nat := fun c => if c = 7 then some 9 else none

theorem continuation_before_equal_expiration_witness :
    (∃ A B, A ++ B = ([] : List Nat) ∧
      Inv (flushFirstCallback envOne sOne).1 (A ++ sOne.fresh :: B) ∧
      (∀ x ∈ A, nodeExp sOne x < nodeExp sOne 0) ∧
      (∀ x ∈ B, nodeExp sOne 0 ≤ nodeExp sOne x) ∧
      nodeExp (flushFirstCallback envOne sOne).1 sOne.fresh = nodeExp sOne 0 ∧
      nodePrio (flushFirstCallback envOne sOne).1 sOne.fresh = nodePrio sOne 0 ∧
      (∀ b, b ≠ sOne.fresh →
        nodeExp (flushFirstCallback envOne sOne).1 b = nodeExp sOne b)) ∧
    (∃ A B, A ++ B = ([0] : List Nat) ∧
      Inv (unstable_scheduleCallback sOne 4 3 2 (some 3)).1
        (A ++ sOne.fresh :: B) ∧
      (∀ x ∈ A, nodeExp sOne x ≤ 2 + 3) ∧
      (∀ x ∈ B, 2 + 3 < nodeExp sOne x) ∧
      nodeExp (unstable_scheduleCallback sOne 4 3 2 (some 3)).1 sOne.fresh
        = 2 + 3) :=
  continuation_before_equal_expiration inv_sOne envOne rfl rfl 4 3 2 3

/-- One head flush keeps the invariant and keeps every live expiration
strictly above a bound that held before (a continuation inherits the flushed
head's expiration, which obeyed the bound). -/
theorem flushFirstCallback_inv_bound {s : Sched} {l : List Nat} (hInv : Inv s l)
    (env : Nat → Option Nat) (c : Int) (hgt : ∀ x ∈ l, c < nodeExp s x) :
    ∃ l', Inv (flushFirstCallback env s).1 l' ∧
      ∀ x ∈ l', c < nodeExp (flushFirstCallback env s).1 x := by
  obtain ⟨hempty, hstep⟩ := flushFirstCallback_spec hInv env
  rcases hlc : l with _ | ⟨hd, t⟩
  · rw [hempty (by rw [hInv.first_eq, hlc]; rfl)]
    exact ⟨l, hInv, hgt⟩
  · have hsub : ∀ x ∈ t, x ∈ l := by
      intro x hx
      rw [hlc]
      exact List.mem_cons_of_mem _ hx
    have hne : ∀ x ∈ t, x ≠ s.fresh := by
      intro x hx hc
      have := hInv.bounded x (hsub x hx)
      omega
    obtain ⟨_, hnone, hsome⟩ := hstep hd t hlc
    rcases henv : env (nodeCb s hd) with _ | contCb
    · obtain ⟨hInv', _, hdat⟩ := hnone henv
      refine ⟨t, hInv', ?_⟩
      intro x hx
      rw [(hdat x).1]
      exact hgt x (hsub x hx)
    · obtain ⟨hInv', _, hexp', _, hpres'⟩ := hsome contCb henv
      refine ⟨_, hInv', ?_⟩
      intro x hx
      rcases List.mem_append.mp hx with hxa | hxb
      · have hxt : x ∈ t := (List.takeWhile_sublist _).subset hxa
        rw [(hpres' x (hne x hxt)).1]
        exact hgt x (hsub x hxt)
      · rcases List.mem_cons.mp hxb with rfl | hxb2
        · rw [hexp']
          exact hgt hd (by rw [hlc]; simp)
        · have hxt : x ∈ t := (List.dropWhile_sublist _).subset hxb2
          rw [(hpres' x (hne x hxt)).1]
          exact hgt x (hsub x hxt)

/-- One head flush keeps the invariant (no bound). -/
theorem flushFirstCallback_inv {s : Sched} {l : List Nat} (hInv : Inv s l)
    (env : Nat → Option Nat) :
    ∃ l', Inv (flushFirstCallback env s).1 l' := by
  obtain ⟨hempty, hstep⟩ := flushFirstCallback_spec hInv env
  rcases hlc : l with _ | ⟨hd, t⟩
  · rw [hempty (by rw [hInv.first_eq, hlc]; rfl)]
    exact ⟨l, hInv⟩
  · obtain ⟨_, hnone, hsome⟩ := hstep hd t hlc
    rcases henv : env (nodeCb s hd) with _ | contCb
    · exact ⟨t, (hnone henv).1⟩
    · exact ⟨_, (hsome contCb henv).1⟩

/-- The flushed-callback trace only ever grows, and the expired burst keeps
the invariant and exits only when every remaining node lies strictly after
the sampled clock. -/
theorem flushExpiredBurst_spec {env : Nat → Option Nat} {c : Int} :
    ∀ (fuel : Nat) {s : Sched} {l : List Nat} {tr tr2 : List Nat} {s2 : Sched},
      Inv s l →
      flushExpiredBurst env c fuel s tr = some (s2, tr2) →
      (∃ ext, tr2 = tr ++ ext) ∧
      ∃ l2, Inv s2 l2 ∧ ∀ x ∈ l2, c < nodeExp s2 x := by
  intro fuel
  induction fuel with
  | zero =>
    intro s l tr tr2 s2 _ heq
    simp [flushExpiredBurst] at heq
  | succ fuel ih =>
    intro s l tr tr2 s2 hInv heq
    unfold flushExpiredBurst at heq
    simp only [] at heq
    obtain ⟨l', hInv'⟩ := flushFirstCallback_inv hInv env
    rcases hfst : (flushFirstCallback env s).1.firstCallbackNode with _ | h
    · rw [hfst] at heq
      simp only [Option.some.injEq, Prod.mk.injEq] at heq
      obtain ⟨hs2, htr2⟩ := heq
      subst hs2
      refine ⟨⟨(flushFirstCallback env s).2.toList, htr2.symm⟩, l', hInv', ?_⟩
      have hl0 : l' = [] := by
        have h1 := hInv'.first_eq
        rw [hfst] at h1
        rcases l' with _ | ⟨x, t⟩
        · rfl
        · simp at h1
      intro x hx
      rw [hl0] at hx
      simp at hx
    · rw [hfst] at heq
      simp only [] at heq
      by_cases hle : nodeExp (flushFirstCallback env s).1 h ≤ c
      · rw [if_pos hle] at heq
        obtain ⟨⟨ext, hext⟩, hrest⟩ := ih hInv' heq
        exact ⟨⟨(flushFirstCallback env s).2.toList ++ ext, by
          rw [hext, List.append_assoc]⟩, hrest⟩
      · rw [if_neg hle] at heq
        simp only [Option.some.injEq, Prod.mk.injEq] at heq
        obtain ⟨hs2, htr2⟩ := heq
        subst hs2
        refine ⟨⟨(flushFirstCallback env s).2.toList, htr2.symm⟩, l', hInv', ?_⟩
        obtain ⟨t', hl'⟩ : ∃ t', l' = h :: t' := by
          have h1 := hInv'.first_eq
          rw [hfst] at h1
          rcases l' with _ | ⟨x, t'⟩
          · simp at h1
          · simp only [List.head?_cons, Option.some.injEq] at h1
            exact ⟨t', by rw [h1]⟩
        intro x hx
        exact lt_of_lt_of_le (lt_of_not_le hle)
          (inv_head_min hInv' hl' x hx)

/-- The expired-drain loop keeps the invariant, only grows the trace, and
whenever it has taken a clock sample, every node still pending on exit lies
strictly after the last sample. -/
theorem flushExpiredLoop_spec {env : Nat → Option Nat} {clock : Nat → Int} :
    ∀ (fuel : Nat) {tick : Nat} {s : Sched} {l : List Nat} {tr : List Nat}
      {last : Option Int} {s2 : Sched} {tr2 : List Nat} {last2 : Option Int},
      Inv s l →
      (∀ c, last = some c → ∀ x ∈ l, c < nodeExp s x) →
      flushExpiredLoop env clock fuel tick s tr last = some (s2, tr2, last2) →
      (∃ ext, tr2 = tr ++ ext) ∧
      ∃ l2, Inv s2 l2 ∧ ∀ c, last2 = some c → ∀ x ∈ l2, c < nodeExp s2 x := by
  intro fuel
  induction fuel with
  | zero =>
    intro tick s l tr last s2 tr2 last2 _ _ heq
    simp [flushExpiredLoop] at heq
  | succ fuel ih =>
    intro tick s l tr last s2 tr2 last2 hInv hlast heq
    unfold flushExpiredLoop at heq
    rcases hfst : s.firstCallbackNode with _ | h
    · rw [hfst] at heq
      simp only [Option.some.injEq, Prod.mk.injEq] at heq
      obtain ⟨hs2, htr2, hlast2⟩ := heq
      subst hs2
      subst hlast2
      exact ⟨⟨[], by rw [htr2, List.append_nil]⟩, l, hInv, hlast⟩
    · rw [hfst] at heq
      simp only [] at heq
      by_cases hle : nodeExp s h ≤ clock tick
      · rw [if_pos hle] at heq
        rcases hb : flushExpiredBurst env (clock tick) fuel s tr with _ | r
        · rw [hb] at heq
          simp at heq
        · rw [hb] at heq
          obtain ⟨⟨ext1, hext1⟩, l2, hInv2, hbound2⟩ :=
            flushExpiredBurst_spec fuel hInv hb
          obtain ⟨⟨ext2, hext2⟩, hrest⟩ := ih hInv2
            (fun c hc => by
              rw [Option.some.injEq] at hc
              subst hc
              exact hbound2) heq
          exact ⟨⟨ext1 ++ ext2, by rw [hext2, hext1, List.append_assoc]⟩, hrest⟩
      · rw [if_neg hle] at heq
        simp only [Option.some.injEq, Prod.mk.injEq] at heq
        obtain ⟨hs2, htr2, hlast2⟩ := heq
        subst hs2
        subst hlast2
        refine ⟨⟨[], by rw [htr2, List.append_nil]⟩, l, hInv, ?_⟩
        intro c hc
        rw [Option.some.injEq] at hc
        subst hc
        obtain ⟨t', hl'⟩ : ∃ t', l = h :: t' := by
          have h1 := hInv.first_eq
          rw [hfst] at h1
          rcases l with _ | ⟨x, t'⟩
          · simp at h1
          · simp only [List.head?_cons, Option.some.injEq] at h1
            exact ⟨t', by rw [h1]⟩
        intro x hx
        exact lt_of_lt_of_le (lt_of_not_le hle) (inv_head_min hInv hl' x hx)

/-- The immediate-work loop keeps the invariant and any strict expiration
bound, and only grows the trace. -/
theorem flushImmediateLoop_spec {env : Nat → Option Nat} {c : Int} :
    ∀ (fuel : Nat) {s : Sched} {l : List Nat} {tr tr2 : List Nat} {s2 : Sched},
      Inv s l → (∀ x ∈ l, c < nodeExp s x) →
      flushImmediateLoop env fuel s tr = some (s2, tr2) →
      ∃ l2, Inv s2 l2 ∧ ∀ x ∈ l2, c < nodeExp s2 x := by
  intro fuel
  induction fuel with
  | zero =>
    intro s l tr tr2 s2 _ _ heq
    simp [flushImmediateLoop] at heq
  | succ fuel ih =>
    intro s l tr tr2 s2 hInv hbound heq
    unfold flushImmediateLoop at heq
    simp only [] at heq
    obtain ⟨l', hInv', hbound'⟩ := flushFirstCallback_inv_bound hInv env c hbound
    rcases hfst : (flushFirstCallback env s).1.firstCallbackNode with _ | h
    · rw [hfst] at heq
      simp only [Option.some.injEq, Prod.mk.injEq] at heq
      obtain ⟨hs2, _⟩ := heq
      subst hs2
      exact ⟨l', hInv', hbound'⟩
    · rw [hfst] at heq
      simp only [] at heq
      by_cases hprio : nodePrio (flushFirstCallback env s).1 h = ImmediatePriority
      · rw [if_pos hprio] at heq
        exact ih hInv' hbound' heq
      · rw [if_neg hprio] at heq
        simp only [Option.some.injEq, Prod.mk.injEq] at heq
        obtain ⟨hs2, _⟩ := heq
        subst hs2
        exact ⟨l', hInv', hbound'⟩

/-- `flushImmediateWork` keeps the invariant and any strict expiration
bound. -/
theorem flushImmediateWork_spec {env : Nat → Option Nat} {c : Int}
    {fuel : Nat} {s : Sched} {l : List Nat} {s2 : Sched} {tr2 : List Nat}
    (hInv : Inv s l) (hbound : ∀ x ∈ l, c < nodeExp s x)
    (heq : flushImmediateWork env fuel s = some (s2, tr2)) :
    ∃ l2, Inv s2 l2 ∧ ∀ x ∈ l2, c < nodeExp s2 x := by
  unfold flushImmediateWork at heq
  rcases hfst : s.firstCallbackNode with _ | h
  · rw [hfst] at heq
    simp only [Option.some.injEq, Prod.mk.injEq] at heq
    obtain ⟨hs2, _⟩ := heq
    subst hs2
    exact ⟨l, hInv, hbound⟩
  · rw [hfst] at heq
    simp only [] at heq
    by_cases hprio : nodePrio s h = ImmediatePriority
    · rw [if_pos hprio] at heq
      exact flushImmediateLoop_spec fuel hInv hbound heq
    · rw [if_neg hprio] at heq
      simp only [Option.some.injEq, Prod.mk.injEq] at heq
      obtain ⟨hs2, _⟩ := heq
      subst hs2
      exact ⟨l, hInv, hbound⟩

/-- When the head has already expired at the first clock sample, its
callback is in the loop's flushed trace: the first burst flushes it first. -/
theorem flushExpiredLoop_head_flushed {env : Nat → Option Nat}
    {clock : Nat → Int} {fuel tick : Nat} {s : Sched} {l : List Nat}
    {hd : Nat} {t : List Nat} {tr : List Nat} {last : Option Int} {s2 : Sched}
    {tr2 : List Nat} {last2 : Option Int}
    (hInv : Inv s l) (hl : l = hd :: t) (hle : nodeExp s hd ≤ clock tick)
    (heq : flushExpiredLoop env clock fuel tick s tr last
      = some (s2, tr2, last2)) :
    nodeCb s hd ∈ tr2 := by
  rcases fuel with _ | fuel
  · simp [flushExpiredLoop] at heq
  unfold flushExpiredLoop at heq
  have hfst : s.firstCallbackNode = some hd := by rw [hInv.first_eq, hl]; rfl
  rw [hfst] at heq
  simp only [] at heq
  rw [if_pos hle] at heq
  rcases fuel with _ | fuel
  · simp [flushExpiredBurst] at heq
  rcases hb : flushExpiredBurst env (clock tick) (fuel + 1) s tr with _ | r
  · rw [hb] at heq
    simp at heq
  rw [hb] at heq
  simp only [] at heq
  -- the first step of the burst flushes the head
  have hcb : (flushFirstCallback env s).2 = some (nodeCb s hd) :=
    ((flushFirstCallback_spec hInv env).2 hd t hl).1
  have hmem1 : nodeCb s hd ∈ r.2 := by
    unfold flushExpiredBurst at hb
    simp only [] at hb
    obtain ⟨l', hInv'⟩ := flushFirstCallback_inv hInv env
    have hmem0 : nodeCb s hd ∈ tr ++ (flushFirstCallback env s).2.toList := by
      rw [hcb]
      simp
    rcases hfst2 : (flushFirstCallback env s).1.firstCallbackNode with _ | h2
    · rw [hfst2] at hb
      simp only [Option.some.injEq] at hb
      rw [← hb]
      exact hmem0
    · rw [hfst2] at hb
      simp only [] at hb
      by_cases hle2 : nodeExp (flushFirstCallback env s).1 h2 ≤ clock tick
      · rw [if_pos hle2] at hb
        obtain ⟨⟨ext, hext⟩, _⟩ := flushExpiredBurst_spec fuel hInv' hb
        rw [hext]
        exact List.mem_append_left _ hmem0
      · rw [if_neg hle2] at hb
        simp only [Option.some.injEq] at hb
        rw [← hb]
        exact hmem0
  obtain ⟨l2, hInv2, hbound2⟩ := (flushExpiredBurst_spec (fuel + 1) hInv hb).2
  obtain ⟨⟨ext, hext⟩, _⟩ := flushExpiredLoop_spec (fuel + 1) hInv2
    (fun c hc => by
      rw [Option.some.injEq] at hc
      subst hc
      exact hbound2) heq
  rw [hext]
  exact List.mem_append_left _ hmem1

/-- Claim C5: in expired mode (`didTimeout` true) `flushWork` never consults
the host should-yield check — the result is identical for every
`shouldYieldToHost` — and when it returns, every node still live lies
strictly after the last freshly sampled clock value (so every node whose
expiration was at or before a sample has been detached and run), and a head
whose deadline had already passed at the first sample has its callback in
the flushed trace of this very flush. -/
theorem flushWork_expired_drain {s : Sched} {l : List Nat} (hInv : Inv s l)
    (env : Nat → Option Nat) (clock : Nat → Int) (sy : Nat → Bool)
    (fuel tick : Nat) :
    (∀ sy2, flushWork env clock sy2 fuel tick true s
        = flushWork env clock sy fuel tick true s) ∧
    (∀ sOut trace last,
      flushWork env clock sy fuel tick true s = some (sOut, trace, last) →
      (∀ c, last = some c → ∀ a, isLive sOut a → c < nodeExp sOut a) ∧
      (∀ hd t, l = hd :: t → nodeExp s hd ≤ clock tick →
        nodeCb s hd ∈ trace)) := by
  constructor
  · intro sy2
    rfl
  · intro sOut trace last hw
    unfold flushWork at hw
    rw [if_pos rfl] at hw
    rcases hl1 : flushExpiredLoop env clock fuel tick s [] none with _ | r
    · rw [hl1] at hw
      simp at hw
    rw [hl1] at hw
    simp only [] at hw
    rcases him : flushImmediateWork env fuel r.1 with _ | r2
    · rw [him] at hw
      simp at hw
    rw [him] at hw
    simp only [Option.some.injEq, Prod.mk.injEq] at hw
    obtain ⟨hs, htr, hlast⟩ := hw
    subst hs
    subst htr
    subst hlast
    constructor
    · intro c hc a hlive
      obtain ⟨_, l2, hInv2, hbound2⟩ :=
        flushExpiredLoop_spec fuel hInv (fun c' hc' => by simp at hc') hl1
      obtain ⟨l3, hInv3, hbound3⟩ :=
        flushImmediateWork_spec hInv2 (hbound2 c hc) him
      exact hbound3 a ((inv_isLive_iff hInv3 a).mp hlive)
    · intro hd t hlh hle
      exact List.mem_append_left _
        (flushExpiredLoop_head_flushed hInv hlh hle hl1)

theorem flushWork_expired_drain_witness :
    (flushWork envOne (fun _ => 10) (fun _ => false) 4 0 true sOne).isSome
      = true ∧
    ((∀ sy2, flushWork envOne (fun _ => 10) sy2 4 0 true sOne
        = flushWork envOne (fun _ => 10) (fun _ => false) 4 0 true sOne) ∧
     (∀ sOut trace last,
        flushWork envOne (fun _ => 10) (fun _ => false) 4 0 true sOne
          = some (sOut, trace, last) →
        (∀ c, last = some c → ∀ a, isLive sOut a → c < nodeExp sOut a) ∧
        (∀ hd t, ([0] : List Nat) = hd :: t →
          nodeExp sOne hd ≤ (10 : Int) → nodeCb sOne hd ∈ trace))) :=
  ⟨rfl, flushWork_expired_drain inv_sOne envOne (fun _ => 10) (fun _ => false) 4 0⟩

end ReactCode
